import Mathlib

set_option maxRecDepth 100000

/-! # dylibversionpatcher: a shallow embedding of `versionpatcher.cpp`

The program opens a universal ("fat") Mach-O file with a `std::fstream`, walks
the architecture table, every slice's image header and load commands, and
overwrites the current-version field of each `LC_ID_DYLIB` command when a major
version is supplied.

Modelling decisions.

* A file is its list of bytes (`List Nat`, a real file has every entry below 256).
* The `std::fstream` is a record of the bytes, the single file position shared by
  the get and put areas of a `basic_filebuf`, and one flag standing for
  `fail()`.  The source never calls `clear()`, so once the flag is set it stays
  set; in that state `read`, `write`, `seekg` and `seekp` do nothing.
* The host is little-endian (every platform that ships `<mach-o/loader.h>`
  today): fields used without `ntohl` are decoded least significant byte first,
  fields passed through `ntohl` are decoded most significant byte first.
* `size_t` and `uint64_t` are 64 bits wide, so the position arithmetic of the
  source cannot wrap and is modelled on `Nat`.
* The console is a list of structured messages; a value printed from a variable
  that a failed `read` left unset is `none`.
* Two ghost lists record which image headers and which load commands the walk
  has read; they are local variables of the source collected for the proofs.
* `parseFatBinary` is the body of the source function on an opened file;
  `parseFatBinaryPath` adds the opening of the file and `main` the argument
  vector, with the file system and `atoi` as parameters.
-/

namespace DylibVersionPatcher

/-! ## Constants of `<mach-o/fat.h>` and `<mach-o/loader.h>` -/

/-- The value of `FAT_MAGIC` in `<mach-o/fat.h>`. -/
def FAT_MAGIC : Nat := 0xcafebabe

/-- The value of `MH_MAGIC` in `<mach-o/loader.h>`. -/
def MH_MAGIC : Nat := 0xfeedface

/-- The value of `MH_MAGIC_64` in `<mach-o/loader.h>`. -/
def MH_MAGIC_64 : Nat := 0xfeedfacf

/-- The value of `LC_SEGMENT`. -/
def LC_SEGMENT : Nat := 0x1

/-- The value of `LC_SYMTAB`. -/
def LC_SYMTAB : Nat := 0x2

/-- The value of `LC_UNIXTHREAD`. -/
def LC_UNIXTHREAD : Nat := 0x5

/-- The value of `LC_DYSYMTAB`. -/
def LC_DYSYMTAB : Nat := 0xb

/-- The value of `LC_LOAD_DYLIB`. -/
def LC_LOAD_DYLIB : Nat := 0xc

/-- The value of `LC_ID_DYLIB`. -/
def LC_ID_DYLIB : Nat := 0xd

/-- The value of `LC_LOAD_DYLINKER`. -/
def LC_LOAD_DYLINKER : Nat := 0xe

/-- The value of `CPU_TYPE_X86` in `<mach/machine.h>`. -/
def CPU_TYPE_X86 : Int := 7

/-- The value of `CPU_TYPE_X86_64`. -/
def CPU_TYPE_X86_64 : Int := 0x01000007

/-- The value of `CPU_TYPE_ARM`. -/
def CPU_TYPE_ARM : Int := 12

/-- The value of `CPU_TYPE_ARM64`. -/
def CPU_TYPE_ARM64 : Int := 0x0100000c

/-- The value of `sizeof(fat_header)`: `magic`, `nfat_arch`. -/
def sizeofFatHeader : Nat := 8

/-- The value of `sizeof(fat_arch)`: `cputype`, `cpusubtype`, `offset`, `size`, `align`. -/
def sizeofFatArch : Nat := 20

/-- The value of `sizeof(mach_header)`: `magic`, `cputype`, `cpusubtype`, `filetype`,
`ncmds`, `sizeofcmds`, `flags`. -/
def sizeofMachHeader : Nat := 28

/-- The value of `sizeof(mach_header_64)`: the fields of `mach_header` and `reserved`. -/
def sizeofMachHeader64 : Nat := 32

/-- The value of `sizeof(load_command)`: `cmd`, `cmdsize`. -/
def sizeofLoadCommand : Nat := 8

/-! ## Integers in memory -/

/-- A `uint32_t` read from four bytes on the little-endian host. -/
def le32 (bs : List Nat) : Nat :=
  bs.getD 0 0 + 256 * bs.getD 1 0 + 65536 * bs.getD 2 0 + 16777216 * bs.getD 3 0

/-- The result of `ntohl` on a `uint32_t` read from four bytes: the big-endian value. -/
def ntohl (bs : List Nat) : Nat :=
  16777216 * bs.getD 0 0 + 65536 * bs.getD 1 0 + 256 * bs.getD 2 0 + bs.getD 3 0

/-- The four bytes of a `uint32_t` in the memory of the little-endian host. -/
def bytesOfU32 (v : Nat) : List Nat :=
  [v % 256, v / 256 % 256, v / 65536 % 256, v / 16777216 % 256]

/-- The 32-bit field that starts `off` bytes into a record read from the file. -/
def field (bs : List Nat) (off : Nat) : List Nat := (bs.drop off).take 4

/-- The bit pattern of a C `int` as an unsigned 32-bit number. -/
def toU32 (x : Int) : Nat := (x % 4294967296).toNat

/-- The `int` whose bit pattern is the given 32-bit number (two's complement). -/
def toInt32 (v : Nat) : Int :=
  if v % 4294967296 < 2147483648 then (v % 4294967296 : Nat)
  else (v % 4294967296 : Nat) - 4294967296

/-- The value of `major << 16 | minor << 8 | patch` (line 146) stored into the
`uint32_t currentVersion`: shifts and ors act on the two's complement bit
patterns of the three `int`s and the result is kept modulo `2^32`. -/
def packVersion (major minor patch : Int) : Nat :=
  ((toU32 major <<< 16) % 4294967296 ||| (toU32 minor <<< 8) % 4294967296) ||| toU32 patch

/-! ## The file stream -/

/-- The state of the `std::fstream`: file contents, file position, `fail()`. -/
structure FStream where
  bytes : List Nat
  pos : Nat
  fail : Bool
deriving DecidableEq

namespace FStream

/-- The effect of `file.read(buf, n)`: in a good stream with `n` bytes left the bytes are
delivered and the position advances; with fewer bytes left `failbit` is set and the
buffer is not completely filled (`none`); a failed stream delivers nothing. -/
def read (s : FStream) (n : Nat) : FStream × Option (List Nat) :=
  if s.fail then (s, none)
  else if s.pos + n ≤ s.bytes.length then
    ({ s with pos := s.pos + n }, some ((s.bytes.drop s.pos).take n))
  else ({ s with pos := max s.pos s.bytes.length, fail := true }, none)

/-- The effect of `file.seekg(p, std::ios::beg)` and `file.seekp(p, std::ios::beg)`: a good
stream moves to `p` (also past the end of the file), a failed stream does not move. -/
def seek (s : FStream) (p : Nat) : FStream :=
  if s.fail then s else { s with pos := p }

/-- The value of `static_cast<uint64_t>(file.tellg())`: the position, or the image of `-1`
when the stream has failed. -/
def tellg (s : FStream) : Nat :=
  if s.fail then 18446744073709551615 else s.pos

/-- The bytes of a file after `data` is stored at position `p`; a store past the end
first fills the gap with zero bytes, as the file system does. -/
def store (bs : List Nat) (p : Nat) (data : List Nat) : List Nat :=
  bs.take p ++ List.replicate (p - bs.length) 0 ++ data ++ bs.drop (p + data.length)

/-- The effect of `file.write(buf, n)`: a good stream stores the bytes at the position and
advances, a failed stream writes nothing. -/
def write (s : FStream) (data : List Nat) : FStream :=
  if s.fail then s
  else { s with bytes := store s.bytes s.pos data, pos := s.pos + data.length }

end FStream

/-! ## Console messages and ghost records -/

/-- The text `printCPUType` prints for a CPU type. -/
inductive CpuName where
  | x86
  | x86_64
  | arm
  | arm64
  | unknown (cpuType : Int)
deriving DecidableEq

/-- One line written to `std::cout` or `std::cerr`. -/
inductive Msg where
  /-- "Error: Not a valid fat binary." -/
  | notFatBinary
  /-- "Number of Architectures: n" -/
  | numberOfArchitectures (n : Nat)
  /-- "Error: Failed to read architecture information." -/
  | archReadFailed
  /-- "Architecture #k:" -/
  | architecture (archCount : Nat)
  /-- "CPU Type: ..., CPU Subtype: ..." -/
  | cpu (name : CpuName) (cpuSubType : Int)
  /-- " Failed to read Mach-O header." -/
  | machHeaderReadFailed
  /-- " Not a valid Mach-O file." -/
  | notMachO
  /-- " Number of Load Commands: n" -/
  | numberOfLoadCommands (ncmds : Nat)
  /-- "  Failed to read load command." -/
  | loadCommandReadFailed
  /-- "   LC_ID_DYLIB found." -/
  | idDylibFound
  /-- "    timestamp:.. current version:.. compatibility verison:.." -/
  | versions (timestamp currentVersion compatibilityVersion : Option Nat)
  /-- "     version patched." -/
  | versionPatched
  /-- A line of `printLoadCommand`: a symbolic name. -/
  | loadCommandName (name : String)
  /-- A line of `printLoadCommand`: "Unknown or unhandled command: n". -/
  | unknownLoadCommand (cmd : Nat)
deriving DecidableEq

/-- Ghost record of one iteration of the load-command loop whose `load_command` was read:
the architecture number, `currentInputPos`, `cmd.cmd` and `cmd.cmdsize`. -/
structure Visit where
  arch : Nat
  base : Nat
  cmd : Nat
  cmdsize : Nat
deriving DecidableEq

/-- Ghost record of one iteration of the architecture loop whose `mach_header` was read:
the architecture number, `ntohl(arch.offset)`, `header.magic` and `header.ncmds`. -/
structure SliceVisit where
  arch : Nat
  offset : Nat
  magic : Nat
  ncmds : Nat
deriving DecidableEq

/-- What a piece of `parseFatBinary` leaves behind: the stream, the lines printed, the ghost
records, and whether a `return` statement was executed. -/
structure Result where
  file : FStream
  out : List Msg
  slices : List SliceVisit
  visits : List Visit
  returned : Bool
deriving DecidableEq

/-! ## The program -/

/-- The function `printCPUType` (lines 9-31). -/
def printCPUType (cpuType cpuSubType : Int) : Msg :=
  if cpuType = CPU_TYPE_X86 then .cpu .x86 cpuSubType
  else if cpuType = CPU_TYPE_X86_64 then .cpu .x86_64 cpuSubType
  else if cpuType = CPU_TYPE_ARM then .cpu .arm cpuSubType
  else if cpuType = CPU_TYPE_ARM64 then .cpu .arm64 cpuSubType
  else .cpu (.unknown cpuType) cpuSubType

/-- The function `printLoadCommand` (lines 33-61). -/
def printLoadCommand (cmd : Nat) : Msg :=
  if cmd = LC_SEGMENT then .loadCommandName "LC_SEGMENT"
  else if cmd = LC_SYMTAB then .loadCommandName "LC_SYMTAB"
  else if cmd = LC_DYSYMTAB then .loadCommandName "LC_DYSYMTAB"
  else if cmd = LC_LOAD_DYLINKER then .loadCommandName "LC_LOAD_DYLINKER"
  else if cmd = LC_ID_DYLIB then .loadCommandName "LC_ID_DYLIB"
  else if cmd = LC_LOAD_DYLIB then .loadCommandName "LC_LOAD_DYLIB"
  else if cmd = LC_UNIXTHREAD then .loadCommandName "LC_UNIXTHREAD"
  else .unknownLoadCommand cmd

/-- The block run for an `LC_ID_DYLIB` command (lines 130-150): four unchecked reads, the
report, and for `major >= 0` the seek to `currentInputPos + sizeof(cmd) + 8` and the write
of the packed version. -/
def idDylib (major minor patch : Int) (currentInputPos : Nat) (s : FStream) :
    FStream × List Msg :=
  let nameOffset := s.read 4
  let timestamp := nameOffset.1.read 4
  let currentVersion := timestamp.1.read 4
  let compatibilityVersion := currentVersion.1.read 4
  let report : List Msg :=
    [.idDylibFound,
     .versions (timestamp.2.map le32) (currentVersion.2.map le32)
       (compatibilityVersion.2.map le32)]
  if major ≥ 0 then
    let sp := compatibilityVersion.1.seek (currentInputPos + sizeofLoadCommand + 8)
    ((sp.write (bytesOfU32 (packVersion major minor patch))), report ++ [.versionPatched])
  else (compatibilityVersion.1, report)

/-- The load-command loop (lines 120-153) with `n` iterations left to run. -/
def loadCommands (major minor patch : Int) (arch : Nat) : Nat → FStream → Result
  | 0, s => ⟨s, [], [], [], false⟩
  | n + 1, s =>
    let currentInputPos := s.tellg
    let rd := s.read sizeofLoadCommand
    match rd.2 with
    | none => ⟨rd.1, [.loadCommandReadFailed], [], [], true⟩
    | some cmd =>
      let body : FStream × List Msg :=
        if le32 (field cmd 0) = LC_ID_DYLIB then idDylib major minor patch currentInputPos rd.1
        else (rd.1, [])
      let r := loadCommands major minor patch arch n
        (body.1.seek (currentInputPos + le32 (field cmd 4)))
      ⟨r.file, body.2 ++ r.out, [],
        ⟨arch, currentInputPos, le32 (field cmd 0), le32 (field cmd 4)⟩ :: r.visits, r.returned⟩

/-- The body of the architecture loop (lines 93-153) for one descriptor, `archCount` being
the number printed for it: the report of the CPU type, the read and the check of the image
header, and the load-command loop. -/
def archBody (major minor patch : Int) (arch : List Nat) (archCount : Nat) (s : FStream) :
    Result :=
  let cpuType := toInt32 (ntohl (field arch 0))
  let cpuSubType := toInt32 (ntohl (field arch 4))
  let intro : List Msg := [.architecture archCount, printCPUType cpuType cpuSubType]
  let rd := (s.seek (ntohl (field arch 8))).read sizeofMachHeader
  match rd.2 with
  | none => ⟨rd.1, intro ++ [.machHeaderReadFailed], [], [], true⟩
  | some header =>
    let magic := le32 (field header 0)
    let ncmds := le32 (field header 16)
    let sv : SliceVisit := ⟨archCount, ntohl (field arch 8), magic, ncmds⟩
    if magic ≠ MH_MAGIC ∧ magic ≠ MH_MAGIC_64 then
      ⟨rd.1, intro ++ [.notMachO], [sv], [], true⟩
    else
      let headerSize := if magic = MH_MAGIC_64 then sizeofMachHeader64 else sizeofMachHeader
      let cmds := loadCommands major minor patch archCount ncmds
        (rd.1.seek (ntohl (field arch 8) + headerSize))
      ⟨cmds.file, intro ++ [.numberOfLoadCommands ncmds] ++ cmds.out, [sv], cmds.visits,
        cmds.returned⟩

/-- The architecture loop (lines 91-154) over the descriptors still to process, `archCount`
being the number printed for the next one; a `return` in the body ends the run. -/
def archLoop (major minor patch : Int) : List (List Nat) → Nat → FStream → Result
  | [], _, s => ⟨s, [], [], [], false⟩
  | arch :: rest, archCount, s =>
    let b := archBody major minor patch arch archCount s
    if b.returned then b
    else
      let r := archLoop major minor patch rest (archCount + 1) b.file
      ⟨r.file, b.out ++ r.out, b.slices ++ r.slices, b.visits ++ r.visits, r.returned⟩

/-- The descriptor loop (lines 80-89) with `n` records left to read: the records read, or
`none` when a read failed. -/
def readArchs : Nat → FStream → FStream × Option (List (List Nat))
  | 0, s => (s, some [])
  | n + 1, s =>
    let rd := s.read sizeofFatArch
    match rd.2 with
    | none => (rd.1, none)
    | some arch =>
      let r := readArchs n rd.1
      (r.1, r.2.map (arch :: ·))

/-- The body of `parseFatBinary` (lines 70-155) on a file that was opened, given as its
bytes; `major = -1` is the default argument. -/
def parseFatBinary (bytes : List Nat) (major : Int) (minor : Int) (patch : Int) : Result :=
  let rd := (FStream.mk bytes 0 false).read sizeofFatHeader
  match rd.2 with
  | none => ⟨rd.1, [.notFatBinary], [], [], true⟩
  | some fatHeader =>
    if ntohl (field fatHeader 0) ≠ FAT_MAGIC then ⟨rd.1, [.notFatBinary], [], [], true⟩
    else
      let nfat_arch := ntohl (field fatHeader 4)
      let table := readArchs nfat_arch rd.1
      match table.2 with
      | none => ⟨table.1, [.numberOfArchitectures nfat_arch, .archReadFailed], [], [], true⟩
      | some archs =>
        let r := archLoop major minor patch archs 1 table.1
        { r with out := .numberOfArchitectures nfat_arch :: r.out }

/-! ## Vocabulary of the specification -/

/-- The bytes of a file after the version `v` is stored in the current-version field of the
command at `base`, which the program does when the 24 bytes it reads of the command are in
the file. -/
def patchAt (v : Nat) (bs : List Nat) (base : Nat) : List Nat :=
  if base + 24 ≤ bs.length then FStream.store bs (base + 16) (bytesOfU32 v) else bs

/-- The command bases at which a run with the given `major` attempts the write, in order:
those of the `LC_ID_DYLIB` commands visited when `major >= 0`, none otherwise. -/
def patchSites (major : Int) (visits : List Visit) : List Nat :=
  if 0 ≤ major then
    (visits.filter (fun v => decide (v.cmd = LC_ID_DYLIB))).map (fun v => v.base)
  else []

/-- The file after the writes at the listed command bases, first to last. -/
def applyPatches (v : Nat) (sites : List Nat) (bs : List Nat) : List Nat :=
  sites.foldl (patchAt v) bs

/-- Position `i` lies in the current-version field (bytes `base + 16 .. base + 19`) of one of
the listed commands. -/
def InVersionField (sites : List Nat) (i : Nat) : Prop :=
  ∃ b ∈ sites, b + 16 ≤ i ∧ i < b + 20

/-- The positions `start .. stop - 1` of two byte ranges do not meet. -/
def Apart (a b : Nat × Nat) : Prop := a.2 ≤ b.1 ∨ b.2 ≤ a.1

/-- The byte ranges a walk has laid claim to: the container header with its descriptor
table, the image header of every slice, and every load command in its declared size. -/
def regions (bytes : List Nat) (r : Result) : List (Nat × Nat) :=
  (0, sizeofFatHeader + sizeofFatArch * ntohl (field bytes 4)) ::
    (r.slices.map (fun sv =>
        (sv.offset,
          sv.offset + (if sv.magic = MH_MAGIC_64 then sizeofMachHeader64 else sizeofMachHeader)))
      ++ r.visits.map (fun v => (v.base, v.base + v.cmdsize)))

/-- A well-formed fat container: the read-only walk runs to the end without an error, every
load command it visits lies inside the file and is at least as large as the part the walker
parses (8 bytes, 24 for `LC_ID_DYLIB`), and the container header with its table, the image
headers and the load commands occupy pairwise disjoint byte ranges. -/
def WellFormed (bytes : List Nat) : Prop :=
  (parseFatBinary bytes (-1) 0 0).returned = false ∧
  (∀ v ∈ (parseFatBinary bytes (-1) 0 0).visits,
    8 ≤ v.cmdsize ∧ (v.cmd = LC_ID_DYLIB → 24 ≤ v.cmdsize) ∧
      v.base + v.cmdsize ≤ bytes.length) ∧
  (regions bytes (parseFatBinary bytes (-1) 0 0)).Pairwise Apart

instance (a b : Nat × Nat) : Decidable (Apart a b) := by
  unfold Apart; infer_instance

instance (bytes : List Nat) : Decidable (WellFormed bytes) := by
  unfold WellFormed; infer_instance

/-- Two streams in the same position and state over files of one length that agree on
every byte outside the set `W`. -/
def Sim (W : Nat → Prop) (s t : FStream) : Prop :=
  s.pos = t.pos ∧ s.fail = t.fail ∧ s.bytes.length = t.bytes.length ∧
    ∀ i, ¬ W i → s.bytes[i]? = t.bytes[i]?

/-- The `cmd` field of the load command that starts at position `pos`. -/
def cmdAt (bs : List Nat) (pos : Nat) : Nat :=
  le32 (field ((bs.drop pos).take sizeofLoadCommand) 0)

/-- The `cmdsize` field of the load command that starts at position `pos`. -/
def cmdsizeAt (bs : List Nat) (pos : Nat) : Nat :=
  le32 (field ((bs.drop pos).take sizeofLoadCommand) 4)

/-- The stream after one iteration of the load-command loop that began in a good stream
with the eight bytes of the `load_command` in the file: failed when the command is an
`LC_ID_DYLIB` whose reads run past the end of the file, otherwise positioned at
`base + cmdsize` over the possibly patched bytes. -/
def afterCommand (major minor patch : Int) (s : FStream) : FStream :=
  if cmdAt s.bytes s.pos = LC_ID_DYLIB ∧ ¬ s.pos + 24 ≤ s.bytes.length then
    ⟨s.bytes, max (s.pos + 8) s.bytes.length, true⟩
  else
    ⟨if cmdAt s.bytes s.pos = LC_ID_DYLIB ∧ 0 ≤ major then
        patchAt (packVersion major minor patch) s.bytes s.pos
      else s.bytes,
     s.pos + cmdsizeAt s.bytes s.pos, false⟩

/-- The `magic` field of the image header that starts at position `pos`. -/
def magicAt (bs : List Nat) (pos : Nat) : Nat :=
  le32 (field ((bs.drop pos).take sizeofMachHeader) 0)

/-- The `ncmds` field of the image header that starts at position `pos`. -/
def ncmdsAt (bs : List Nat) (pos : Nat) : Nat :=
  le32 (field ((bs.drop pos).take sizeofMachHeader) 16)

/-- The size of the image header announced by a magic number (line 114). -/
def headerSizeOf (magic : Nat) : Nat :=
  if magic = MH_MAGIC_64 then sizeofMachHeader64 else sizeofMachHeader

/-- The walk recorded in `visits` keeps clear of the set `W`: no `load_command` record it
read has a byte in `W`, and the current-version field of every `LC_ID_DYLIB` command it
visited lies in `W`. -/
def ClearOf (W : Nat → Prop) (visits : List Visit) : Prop :=
  ∀ v ∈ visits, (∀ i, v.base ≤ i → i < v.base + 8 → ¬ W i) ∧
    (v.cmd = LC_ID_DYLIB → ∀ i, v.base + 16 ≤ i → i < v.base + 20 → W i)

/-- No image header recorded in `slices` was read from a byte in `W`. -/
def HeadersClearOf (W : Nat → Prop) (slices : List SliceVisit) : Prop :=
  ∀ sv ∈ slices, ∀ i, sv.offset ≤ i → i < sv.offset + 28 → ¬ W i

/-- The container of the patch scenario: one x86_64 slice at offset 28 with a 64-bit image
header and three load commands, the second an `LC_ID_DYLIB` at offset 76 whose current
version is `0x00010203`. -/
def scenarioFile : List Nat :=
  [0xca, 0xfe, 0xba, 0xbe, 0, 0, 0, 1,
   1, 0, 0, 7, 0, 0, 0, 3, 0, 0, 0, 28, 0, 0, 0, 88, 0, 0, 0, 0,
   0xcf, 0xfa, 0xed, 0xfe, 7, 0, 0, 1, 3, 0, 0, 0, 6, 0, 0, 0,
   3, 0, 0, 0, 56, 0, 0, 0, 0, 0, 0, 0, 0, 0, 0, 0,
   2, 0, 0, 0, 16, 0, 0, 0, 0, 0, 0, 0, 0, 0, 0, 0,
   13, 0, 0, 0, 24, 0, 0, 0, 24, 0, 0, 0, 2, 0, 0, 0, 3, 2, 1, 0, 0, 0, 1, 0,
   5, 0, 0, 0, 16, 0, 0, 0, 0, 0, 0, 0, 0, 0, 0, 0]

/-- The packing with every part cut to its own byte first, in the words of the
specification: `((major mod 256) << 16) | ((minor mod 256) << 8) | (patch mod 256)`. -/
def packTruncated (major minor patch : Int) : Nat :=
  (((major % 256).toNat <<< 16) ||| ((minor % 256).toNat <<< 8)) ||| (patch % 256).toNat

/-- The numbers `k` of the lines "Architecture #k:" of a report, in order. -/
def archNumbers (out : List Msg) : List Nat :=
  out.filterMap (fun m => match m with
    | .architecture k => some k
    | _ => none)

/-- A container with two overlapping slices: the image header at offset 48 has one
`LC_ID_DYLIB` command at 76 whose current-version field (bytes 92..95) is the `cmdsize` field
of the command at 88 that the walk of the slice at offset 60 visits. -/
def overlapFile : List Nat :=
  [0xca, 0xfe, 0xba, 0xbe, 0, 0, 0, 2,
   0, 0, 0, 7, 0, 0, 0, 3, 0, 0, 0, 60, 0, 0, 0, 64, 0, 0, 0, 0,
   0, 0, 0, 7, 0, 0, 0, 3, 0, 0, 0, 48, 0, 0, 0, 52, 0, 0, 0, 0,
   0xce, 0xfa, 0xed, 0xfe, 7, 0, 0, 0, 3, 0, 0, 0, 0xce, 0xfa, 0xed, 0xfe,
   1, 0, 0, 0, 24, 0, 0, 0, 0, 0, 0, 0,
   13, 0, 0, 0, 24, 0, 0, 0, 24, 0, 0, 0, 2, 0, 0, 0, 0, 0, 0, 0, 0, 0, 0, 0,
   13, 0, 0, 0, 0, 0, 0, 0, 24, 0, 0, 0, 0, 0, 0, 0, 0, 0, 0, 0, 0, 0, 0, 0]

/-- A container whose single slice (32-bit image header at offset 28, one command) ends
eight bytes into its `LC_ID_DYLIB` command of declared size 24: the `load_command` record is
in the file, the four fields after it are not. -/
def truncatedIdFile : List Nat :=
  [0xca, 0xfe, 0xba, 0xbe, 0, 0, 0, 1,
   0, 0, 0, 7, 0, 0, 0, 3, 0, 0, 0, 28, 0, 0, 0, 36, 0, 0, 0, 0,
   0xce, 0xfa, 0xed, 0xfe, 7, 0, 0, 0, 3, 0, 0, 0, 6, 0, 0, 0,
   1, 0, 0, 0, 24, 0, 0, 0, 0, 0, 0, 0,
   13, 0, 0, 0, 24, 0, 0, 0]

/-- A container with no architecture descriptor: the eight bytes of the container header. -/
def emptyContainer : List Nat := [0xca, 0xfe, 0xba, 0xbe, 0, 0, 0, 0]

/-- A container with two slices: the first (32-bit image header at offset 48) holds one
`LC_ID_DYLIB` command at offset 76 with current version `0x00010203`; the image header of
the second, at offset 100, starts with four zero bytes instead of a magic number. -/
def badSecondSliceFile : List Nat :=
  [0xca, 0xfe, 0xba, 0xbe, 0, 0, 0, 2,
   0, 0, 0, 7, 0, 0, 0, 3, 0, 0, 0, 48, 0, 0, 0, 52, 0, 0, 0, 0,
   0, 0, 0, 12, 0, 0, 0, 9, 0, 0, 0, 100, 0, 0, 0, 28, 0, 0, 0, 0,
   0xce, 0xfa, 0xed, 0xfe, 7, 0, 0, 0, 3, 0, 0, 0, 6, 0, 0, 0,
   1, 0, 0, 0, 24, 0, 0, 0, 0, 0, 0, 0,
   13, 0, 0, 0, 24, 0, 0, 0, 24, 0, 0, 0, 2, 0, 0, 0, 3, 2, 1, 0, 0, 0, 1, 0,
   0, 0, 0, 0, 12, 0, 0, 0, 9, 0, 0, 0, 6, 0, 0, 0,
   0, 0, 0, 0, 0, 0, 0, 0, 0, 0, 0, 0]

/-- A container that declares two descriptors and ends ten bytes into the second. -/
def truncatedTableFile : List Nat :=
  [0xca, 0xfe, 0xba, 0xbe, 0, 0, 0, 2,
   0, 0, 0, 7, 0, 0, 0, 3, 0, 0, 0, 48, 0, 0, 0, 52, 0, 0, 0, 0,
   0, 0, 0, 12, 0, 0, 0, 9, 0, 0]

/-! ## The whole program -/

/-- One line on the console of the whole program: the usage line of `main`, the line
`parseFatBinary` prints when the file cannot be opened, or a line of its body. -/
inductive Line where
  /-- "Usage: program <path_to_dylib> [major] [minor] [patch]" -/
  | usage (program : String)
  /-- "Failed to open file: path" -/
  | failedToOpen (path : String)
  /-- A line printed by the body of `parseFatBinary`. -/
  | report (m : Msg)
deriving DecidableEq

/-- What a run of the program leaves: the value `main` returns, the lines printed, and the
result of the body of `parseFatBinary` when the file was opened. -/
structure Exit where
  status : Int
  out : List Line
  run : Option Result
deriving DecidableEq

/-- The function `parseFatBinary` from its first line (lines 63-155), with the file system
as a parameter: `fs path` is the content of the file at `path`, or `none` when it cannot be
opened for reading and writing. The function returns no value. -/
def parseFatBinaryPath (fs : String → Option (List Nat)) (path : String)
    (major minor patch : Int) : List Line × Option Result :=
  match fs path with
  | none => ([.failedToOpen path], none)
  | some bytes =>
    ((parseFatBinary bytes major minor patch).out.map .report,
      some (parseFatBinary bytes major minor patch))

/-- The function `main` (lines 157-173) on the argument vector, with `atoi` of the C library
and the file system as parameters. -/
def main (atoi : String → Int) (fs : String → Option (List Nat)) (argv : List String) :
    Exit :=
  if argv.length < 2 then ⟨1, [.usage (argv.getD 0 "")], none⟩
  else
    let major : Int := if argv.length > 2 then atoi (argv.getD 2 "") else -1
    let minor : Int := if argv.length > 3 then atoi (argv.getD 3 "") else 0
    let patch : Int := if argv.length > 4 then atoi (argv.getD 4 "") else 0
    let r := parseFatBinaryPath fs (argv.getD 1 "") major minor patch
    ⟨0, r.1, r.2⟩

/-! ## Vocabulary for the report -/

/-- The `i`-th record (counted from 0) of the descriptor table: file bytes
`8 + 20 i .. 8 + 20 i + 19`. -/
def descriptorAt (bytes : List Nat) (i : Nat) : List Nat :=
  (bytes.drop (8 + 20 * i)).take 20

/-- The lines "Architecture #k:" and "CPU Type: ..." of a report, in order. -/
def introLines (out : List Msg) : List Msg :=
  out.filter (fun m => match m with
    | .architecture _ => true
    | .cpu _ _ => true
    | _ => false)

/-- The two lines that open the report of the descriptor `arch` processed as number `k`. -/
def introOf (arch : List Nat) (k : Nat) : List Msg :=
  [.architecture k,
    printCPUType (toInt32 (ntohl (field arch 0))) (toInt32 (ntohl (field arch 4)))]

/-- The opening lines of the descriptors of a list processed as numbers `k`, `k + 1`, ... -/
def introsFrom : List (List Nat) → Nat → List Msg
  | [], _ => []
  | arch :: rest, k => introOf arch k ++ introsFrom rest (k + 1)

/-- The version line the program prints for an `LC_ID_DYLIB` command at `base` whose fields
are those of the file `bytes`: timestamp, current version and compatibility version in host
order. -/
def versionsAt (bytes : List Nat) (base : Nat) : Msg :=
  .versions (some (le32 (field bytes (base + 12)))) (some (le32 (field bytes (base + 16))))
    (some (le32 (field bytes (base + 20))))

/-- The version lines of a report, in order. -/
def versionLines (out : List Msg) : List Msg :=
  out.filter (fun m => match m with
    | .versions _ _ _ => true
    | _ => false)

/-- Two files of one length that agree on every byte outside the set `W`. -/
def AgreeOutside (W : Nat → Prop) (f g : List Nat) : Prop :=
  f.length = g.length ∧ ∀ i, ¬ W i → f[i]? = g[i]?

/-- A container whose single slice does not follow the descriptor table directly: the
table ends at byte 28, twelve bytes `0xff` follow, and the descriptor gives offset 40 for
the 32-bit image header, which announces one command, an `LC_ID_DYLIB` at 68. -/
def gapFile : List Nat :=
  [0xca, 0xfe, 0xba, 0xbe, 0, 0, 0, 1,
   0, 0, 0, 7, 0, 0, 0, 3, 0, 0, 0, 40, 0, 0, 0, 52, 0, 0, 0, 0,
   0xff, 0xff, 0xff, 0xff, 0xff, 0xff, 0xff, 0xff, 0xff, 0xff, 0xff, 0xff,
   0xce, 0xfa, 0xed, 0xfe, 7, 0, 0, 0, 3, 0, 0, 0, 6, 0, 0, 0,
   1, 0, 0, 0, 24, 0, 0, 0, 0, 0, 0, 0,
   13, 0, 0, 0, 24, 0, 0, 0, 24, 0, 0, 0, 2, 0, 0, 0, 3, 2, 1, 0, 0, 0, 1, 0]

/-! # Theorems -/

/-! ## Facts about the stream -/

theorem store_length (bs : List Nat) (p : Nat) (data : List Nat)
    (h : p + data.length ≤ bs.length) : (FStream.store bs p data).length = bs.length := by
  simp only [FStream.store, List.length_append, List.length_take, List.length_replicate,
    List.length_drop]
  omega

theorem store_getElem? (bs : List Nat) (p : Nat) (data : List Nat)
    (h : p + data.length ≤ bs.length) (i : Nat) :
    (FStream.store bs p data)[i]? =
      if p ≤ i ∧ i < p + data.length then data[i - p]? else bs[i]? := by
  have hp : p - bs.length = 0 := by omega
  simp only [FStream.store, hp, List.replicate_zero, List.append_nil]
  by_cases h1 : i < p
  · have : ¬ (p ≤ i ∧ i < p + data.length) := by omega
    rw [if_neg this, List.append_assoc, List.getElem?_append_left (by simp; omega)]
    simp [List.getElem?_take, h1]
  · by_cases h2 : i < p + data.length
    · rw [if_pos ⟨by omega, h2⟩, List.getElem?_append_left (by simp; omega),
        List.getElem?_append_right (by simp; omega)]
      simp
      congr 1
      omega
    · have : ¬ (p ≤ i ∧ i < p + data.length) := by omega
      rw [if_neg this, List.getElem?_append_right (by simp; omega)]
      simp
      congr 1
      omega

theorem read_bytes (s : FStream) (n : Nat) : (s.read n).1.bytes = s.bytes := by
  unfold FStream.read; split_ifs <;> rfl

theorem read_eq_of_ok (s : FStream) (n : Nat) (hf : s.fail = false)
    (hn : s.pos + n ≤ s.bytes.length) :
    s.read n = (⟨s.bytes, s.pos + n, false⟩, some ((s.bytes.drop s.pos).take n)) := by
  unfold FStream.read
  rw [if_neg (by simp [hf]), if_pos hn, hf]

theorem read_eq_of_short (s : FStream) (n : Nat) (hf : s.fail = false)
    (hn : ¬ s.pos + n ≤ s.bytes.length) :
    s.read n = (⟨s.bytes, max s.pos s.bytes.length, true⟩, none) := by
  unfold FStream.read
  rw [if_neg (by simp [hf]), if_neg hn]

theorem read_eq_of_fail (s : FStream) (n : Nat) (hf : s.fail = true) :
    s.read n = (s, none) := by
  unfold FStream.read
  rw [if_pos hf]

theorem read_none_of_not_ok (s : FStream) (n : Nat)
    (h : ¬ (s.fail = false ∧ s.pos + n ≤ s.bytes.length)) : (s.read n).2 = none := by
  unfold FStream.read
  split_ifs with h1 h2
  · rfl
  · exact absurd ⟨by simpa using h1, h2⟩ h
  · rfl

theorem read_fail_of_not_ok (s : FStream) (n : Nat)
    (h : ¬ (s.fail = false ∧ s.pos + n ≤ s.bytes.length)) : (s.read n).1.fail = true := by
  unfold FStream.read
  split_ifs with h1 h2
  · exact h1
  · exact absurd ⟨by simpa using h1, h2⟩ h
  · rfl

theorem idDylib_seek (major minor patch : Int) (base q : Nat) (s : FStream)
    (hf : s.fail = false) (hp : s.pos = base + 8) :
    (idDylib major minor patch base s).1.seek q =
      if base + 24 ≤ s.bytes.length then
        ⟨if 0 ≤ major then
            FStream.store s.bytes (base + 16) (bytesOfU32 (packVersion major minor patch))
          else s.bytes, q, false⟩
      else ⟨s.bytes, max (base + 8) s.bytes.length, true⟩ := by
  obtain ⟨bs, pos, fl⟩ := s
  simp only at hf hp
  subst hf hp
  by_cases h1 : base + 8 + 4 ≤ bs.length <;>
  by_cases h2 : base + 8 + 4 + 4 ≤ bs.length <;>
  by_cases h3 : base + 8 + 4 + 4 + 4 ≤ bs.length <;>
  by_cases h4 : base + 8 + 4 + 4 + 4 + 4 ≤ bs.length <;>
  by_cases hm : 0 ≤ major <;>
  first
  | (exfalso; omega)
  | (have h5 : base + 24 ≤ bs.length := by omega
     simp [idDylib, FStream.read, FStream.seek, FStream.write, sizeofLoadCommand,
       h1, h2, h3, h4, h5, hm])
  | (have h5 : ¬ base + 24 ≤ bs.length := by omega
     simp [idDylib, FStream.read, FStream.seek, FStream.write, sizeofLoadCommand,
       h1, h2, h3, h4, h5, hm]
     try omega)

/-! ## One iteration of the load-command loop -/

theorem loadCommands_zero (major minor patch : Int) (arch : Nat) (s : FStream) :
    loadCommands major minor patch arch 0 s = ⟨s, [], [], [], false⟩ := rfl

theorem loadCommands_succ_short (major minor patch : Int) (arch n : Nat) (s : FStream)
    (h : ¬ (s.fail = false ∧ s.pos + 8 ≤ s.bytes.length)) :
    loadCommands major minor patch arch (n + 1) s =
      ⟨(s.read 8).1, [.loadCommandReadFailed], [], [], true⟩ := by
  have h2 := read_none_of_not_ok s 8 h
  simp only [loadCommands, sizeofLoadCommand, h2]

theorem loadCommands_succ_ok (major minor patch : Int) (arch n : Nat) (s : FStream)
    (hf : s.fail = false) (hn : s.pos + 8 ≤ s.bytes.length) :
    (loadCommands major minor patch arch (n + 1) s).file =
        (loadCommands major minor patch arch n (afterCommand major minor patch s)).file ∧
    (loadCommands major minor patch arch (n + 1) s).visits =
        ⟨arch, s.pos, cmdAt s.bytes s.pos, cmdsizeAt s.bytes s.pos⟩ ::
          (loadCommands major minor patch arch n (afterCommand major minor patch s)).visits ∧
    (loadCommands major minor patch arch (n + 1) s).returned =
        (loadCommands major minor patch arch n (afterCommand major minor patch s)).returned ∧
    (loadCommands major minor patch arch (n + 1) s).slices = [] := by
  have hs : (if cmdAt s.bytes s.pos = LC_ID_DYLIB then
        idDylib major minor patch s.pos ⟨s.bytes, s.pos + 8, false⟩
      else (⟨s.bytes, s.pos + 8, false⟩, [])).1.seek (s.pos + cmdsizeAt s.bytes s.pos) =
      afterCommand major minor patch s := by
    unfold afterCommand
    by_cases ht : cmdAt s.bytes s.pos = LC_ID_DYLIB
    · rw [if_pos ht, idDylib_seek _ _ _ _ _ _ rfl rfl]
      by_cases h24 : s.pos + 24 ≤ s.bytes.length
      · simp [ht, h24, patchAt]
      · simp [ht, h24]
    · simp [ht, FStream.seek]
  have ht : s.tellg = s.pos := by simp [FStream.tellg, hf]
  simp only [loadCommands, sizeofLoadCommand, read_eq_of_ok s 8 hf hn, ht]
  simp only [cmdAt, cmdsizeAt, sizeofLoadCommand] at hs
  rw [hs]
  simp [cmdAt, cmdsizeAt, sizeofLoadCommand]

/-! ## One iteration of the architecture loop -/

theorem seek_bytes (s : FStream) (p : Nat) : (s.seek p).bytes = s.bytes := by
  unfold FStream.seek; split_ifs <;> rfl

theorem seek_eq_of_ok (s : FStream) (p : Nat) (hf : s.fail = false) :
    s.seek p = ⟨s.bytes, p, false⟩ := by
  unfold FStream.seek
  rw [if_neg (by simp [hf]), hf]

theorem seek_eq_of_fail (s : FStream) (p : Nat) (hf : s.fail = true) : s.seek p = s := by
  unfold FStream.seek
  rw [if_pos hf]

theorem archBody_short (major minor patch : Int) (arch : List Nat) (k : Nat) (s : FStream)
    (h : ¬ (s.fail = false ∧ ntohl (field arch 8) + 28 ≤ s.bytes.length)) :
    (archBody major minor patch arch k s).file.bytes = s.bytes ∧
    (archBody major minor patch arch k s).file.fail = true ∧
    (archBody major minor patch arch k s).slices = [] ∧
    (archBody major minor patch arch k s).visits = [] ∧
    (archBody major minor patch arch k s).returned = true ∧
    (archBody major minor patch arch k s).out =
      [.architecture k,
        printCPUType (toInt32 (ntohl (field arch 0))) (toInt32 (ntohl (field arch 4))),
        .machHeaderReadFailed] := by
  have h' : ¬ ((s.seek (ntohl (field arch 8))).fail = false ∧
      (s.seek (ntohl (field arch 8))).pos + 28 ≤ (s.seek (ntohl (field arch 8))).bytes.length) := by
    cases hf : s.fail
    · rw [seek_eq_of_ok _ _ hf]; simpa [hf] using h
    · rw [seek_eq_of_fail _ _ hf]; simp [hf]
  have h2 := read_none_of_not_ok _ 28 h'
  have h3 := read_fail_of_not_ok _ 28 h'
  simp only [archBody, sizeofMachHeader, h2, h3, read_bytes, seek_bytes]
  simp

theorem archBody_badMagic (major minor patch : Int) (arch : List Nat) (k : Nat) (s : FStream)
    (hf : s.fail = false) (hn : ntohl (field arch 8) + 28 ≤ s.bytes.length)
    (hm : magicAt s.bytes (ntohl (field arch 8)) ≠ MH_MAGIC ∧
      magicAt s.bytes (ntohl (field arch 8)) ≠ MH_MAGIC_64) :
    archBody major minor patch arch k s =
      ⟨⟨s.bytes, ntohl (field arch 8) + 28, false⟩,
        [.architecture k,
          printCPUType (toInt32 (ntohl (field arch 0))) (toInt32 (ntohl (field arch 4))),
          .notMachO],
        [⟨k, ntohl (field arch 8), magicAt s.bytes (ntohl (field arch 8)),
          ncmdsAt s.bytes (ntohl (field arch 8))⟩], [], true⟩ := by
  simp only [magicAt, sizeofMachHeader] at hm
  simp only [archBody, sizeofMachHeader, seek_eq_of_ok s _ hf,
    read_eq_of_ok ⟨s.bytes, ntohl (field arch 8), false⟩ 28 rfl hn, magicAt, ncmdsAt]
  rw [if_pos hm]
  simp

theorem archBody_ok (major minor patch : Int) (arch : List Nat) (k : Nat) (s : FStream)
    (hf : s.fail = false) (hn : ntohl (field arch 8) + 28 ≤ s.bytes.length)
    (hm : ¬ (magicAt s.bytes (ntohl (field arch 8)) ≠ MH_MAGIC ∧
      magicAt s.bytes (ntohl (field arch 8)) ≠ MH_MAGIC_64)) :
    archBody major minor patch arch k s =
      ⟨(loadCommands major minor patch k (ncmdsAt s.bytes (ntohl (field arch 8)))
          ⟨s.bytes, ntohl (field arch 8) +
            headerSizeOf (magicAt s.bytes (ntohl (field arch 8))), false⟩).file,
        [.architecture k,
          printCPUType (toInt32 (ntohl (field arch 0))) (toInt32 (ntohl (field arch 4))),
          .numberOfLoadCommands (ncmdsAt s.bytes (ntohl (field arch 8)))] ++
        (loadCommands major minor patch k (ncmdsAt s.bytes (ntohl (field arch 8)))
          ⟨s.bytes, ntohl (field arch 8) +
            headerSizeOf (magicAt s.bytes (ntohl (field arch 8))), false⟩).out,
        [⟨k, ntohl (field arch 8), magicAt s.bytes (ntohl (field arch 8)),
          ncmdsAt s.bytes (ntohl (field arch 8))⟩],
        (loadCommands major minor patch k (ncmdsAt s.bytes (ntohl (field arch 8)))
          ⟨s.bytes, ntohl (field arch 8) +
            headerSizeOf (magicAt s.bytes (ntohl (field arch 8))), false⟩).visits,
        (loadCommands major minor patch k (ncmdsAt s.bytes (ntohl (field arch 8)))
          ⟨s.bytes, ntohl (field arch 8) +
            headerSizeOf (magicAt s.bytes (ntohl (field arch 8))), false⟩).returned⟩ := by
  simp only [magicAt, sizeofMachHeader] at hm
  simp only [archBody, sizeofMachHeader, seek_eq_of_ok s _ hf,
    read_eq_of_ok ⟨s.bytes, ntohl (field arch 8), false⟩ 28 rfl hn, magicAt, ncmdsAt,
    headerSizeOf]
  rw [if_neg hm]
  simp [seek_eq_of_ok]

theorem archLoop_nil (major minor patch : Int) (k : Nat) (s : FStream) :
    archLoop major minor patch [] k s = ⟨s, [], [], [], false⟩ := rfl

theorem archLoop_cons_returned (major minor patch : Int) (arch : List Nat)
    (rest : List (List Nat)) (k : Nat) (s : FStream)
    (h : (archBody major minor patch arch k s).returned = true) :
    archLoop major minor patch (arch :: rest) k s = archBody major minor patch arch k s := by
  simp only [archLoop, h, if_true]

theorem archLoop_cons_continue (major minor patch : Int) (arch : List Nat)
    (rest : List (List Nat)) (k : Nat) (s : FStream)
    (h : (archBody major minor patch arch k s).returned = false) :
    archLoop major minor patch (arch :: rest) k s =
      ⟨(archLoop major minor patch rest (k + 1) (archBody major minor patch arch k s).file).file,
        (archBody major minor patch arch k s).out ++
          (archLoop major minor patch rest (k + 1) (archBody major minor patch arch k s).file).out,
        (archBody major minor patch arch k s).slices ++
          (archLoop major minor patch rest (k + 1)
            (archBody major minor patch arch k s).file).slices,
        (archBody major minor patch arch k s).visits ++
          (archLoop major minor patch rest (k + 1)
            (archBody major minor patch arch k s).file).visits,
        (archLoop major minor patch rest (k + 1)
          (archBody major minor patch arch k s).file).returned⟩ := by
  simp only [archLoop, h, Bool.false_eq_true, if_false]

/-! ## The bytes a run leaves behind -/

theorem patchAt_length (v : Nat) (bs : List Nat) (base : Nat) :
    (patchAt v bs base).length = bs.length := by
  unfold patchAt
  split_ifs with h
  · exact store_length _ _ _ (by simp [bytesOfU32]; omega)
  · rfl

theorem applyPatches_nil (v : Nat) (bs : List Nat) : applyPatches v [] bs = bs := rfl

theorem applyPatches_cons (v : Nat) (b : Nat) (rest : List Nat) (bs : List Nat) :
    applyPatches v (b :: rest) bs = applyPatches v rest (patchAt v bs b) := rfl

theorem applyPatches_append (v : Nat) (xs ys : List Nat) (bs : List Nat) :
    applyPatches v (xs ++ ys) bs = applyPatches v ys (applyPatches v xs bs) := by
  simp [applyPatches, List.foldl_append]

theorem applyPatches_length (v : Nat) (sites : List Nat) (bs : List Nat) :
    (applyPatches v sites bs).length = bs.length := by
  induction sites generalizing bs with
  | nil => rfl
  | cons b rest ih => rw [applyPatches_cons, ih, patchAt_length]

theorem patchSites_nil (major : Int) : patchSites major [] = [] := by
  unfold patchSites; split_ifs <;> rfl

theorem patchSites_cons (major : Int) (v : Visit) (vs : List Visit) :
    patchSites major (v :: vs) =
      (if v.cmd = LC_ID_DYLIB ∧ 0 ≤ major then [v.base] else []) ++ patchSites major vs := by
  unfold patchSites
  by_cases hm : 0 ≤ major <;> by_cases hv : v.cmd = LC_ID_DYLIB <;>
    simp [hm, hv, List.filter_cons]

theorem patchSites_append (major : Int) (xs ys : List Visit) :
    patchSites major (xs ++ ys) = patchSites major xs ++ patchSites major ys := by
  unfold patchSites
  split_ifs <;> simp

theorem afterCommand_bytes (major minor patch : Int) (s : FStream) :
    (afterCommand major minor patch s).bytes =
      if cmdAt s.bytes s.pos = LC_ID_DYLIB ∧ 0 ≤ major then
        patchAt (packVersion major minor patch) s.bytes s.pos
      else s.bytes := by
  unfold afterCommand patchAt
  split_ifs <;> simp_all

theorem loadCommands_bytes (major minor patch : Int) (arch n : Nat) (s : FStream) :
    (loadCommands major minor patch arch n s).file.bytes =
      applyPatches (packVersion major minor patch)
        (patchSites major (loadCommands major minor patch arch n s).visits) s.bytes := by
  induction n generalizing s with
  | zero => simp [loadCommands_zero, patchSites_nil, applyPatches_nil]
  | succ n ih =>
    by_cases h : s.fail = false ∧ s.pos + 8 ≤ s.bytes.length
    · obtain ⟨h1, h2, -, -⟩ := loadCommands_succ_ok major minor patch arch n s h.1 h.2
      rw [h1, h2, ih, patchSites_cons, applyPatches_append, afterCommand_bytes]
      by_cases hc : cmdAt s.bytes s.pos = LC_ID_DYLIB ∧ 0 ≤ major
      · simp only [hc, and_self, if_true, applyPatches_cons, applyPatches_nil]
      · simp only [hc, if_false, applyPatches_nil]
    · rw [loadCommands_succ_short _ _ _ _ _ _ h]
      simp [patchSites_nil, applyPatches_nil, read_bytes]

theorem archBody_bytes (major minor patch : Int) (arch : List Nat) (k : Nat) (s : FStream) :
    (archBody major minor patch arch k s).file.bytes =
      applyPatches (packVersion major minor patch)
        (patchSites major (archBody major minor patch arch k s).visits) s.bytes := by
  by_cases h : s.fail = false ∧ ntohl (field arch 8) + 28 ≤ s.bytes.length
  · by_cases hm : magicAt s.bytes (ntohl (field arch 8)) ≠ MH_MAGIC ∧
        magicAt s.bytes (ntohl (field arch 8)) ≠ MH_MAGIC_64
    · rw [archBody_badMagic _ _ _ _ _ _ h.1 h.2 hm]
      simp [patchSites_nil, applyPatches_nil]
    · rw [archBody_ok _ _ _ _ _ _ h.1 h.2 hm]
      simp only [loadCommands_bytes]
  · obtain ⟨h1, -, -, h2, -, -⟩ := archBody_short major minor patch arch k s h
    rw [h1, h2, patchSites_nil, applyPatches_nil]

theorem archLoop_bytes (major minor patch : Int) (archs : List (List Nat)) (k : Nat)
    (s : FStream) :
    (archLoop major minor patch archs k s).file.bytes =
      applyPatches (packVersion major minor patch)
        (patchSites major (archLoop major minor patch archs k s).visits) s.bytes := by
  induction archs generalizing k s with
  | nil => simp [archLoop_nil, patchSites_nil, applyPatches_nil]
  | cons arch rest ih =>
    cases hb : (archBody major minor patch arch k s).returned
    · rw [archLoop_cons_continue _ _ _ _ _ _ _ hb]
      simp only [ih, patchSites_append, applyPatches_append, archBody_bytes]
    · rw [archLoop_cons_returned _ _ _ _ _ _ _ hb, archBody_bytes]

theorem readArchs_bytes (n : Nat) (s : FStream) : (readArchs n s).1.bytes = s.bytes := by
  induction n generalizing s with
  | zero => rfl
  | succ n ih =>
    simp only [readArchs]
    split
    · simp [read_bytes]
    · simp [ih, read_bytes]

theorem parseFatBinary_bytes (bytes : List Nat) (major minor patch : Int) :
    (parseFatBinary bytes major minor patch).file.bytes =
      applyPatches (packVersion major minor patch)
        (patchSites major (parseFatBinary bytes major minor patch).visits) bytes := by
  simp only [parseFatBinary]
  split
  · simp [patchSites_nil, applyPatches_nil, read_bytes]
  · split_ifs
    · simp [patchSites_nil, applyPatches_nil, read_bytes]
    · split
      · simp [patchSites_nil, applyPatches_nil, read_bytes, readArchs_bytes]
      · simp [archLoop_bytes, read_bytes, readArchs_bytes]

/-! ## Writes seen byte by byte -/

theorem patchAt_getElem?_of_outside (v : Nat) (bs : List Nat) (b i : Nat)
    (h : ¬ (b + 16 ≤ i ∧ i < b + 20)) : (patchAt v bs b)[i]? = bs[i]? := by
  unfold patchAt
  split_ifs with hl
  · rw [store_getElem? _ _ _ (by simp [bytesOfU32]; omega), if_neg]
    simpa [bytesOfU32] using h
  · rfl

theorem patchAt_getElem?_of_inside (v : Nat) (bs : List Nat) (b i : Nat)
    (hl : b + 24 ≤ bs.length) (h : b + 16 ≤ i ∧ i < b + 20) :
    (patchAt v bs b)[i]? = (bytesOfU32 v)[i - (b + 16)]? := by
  unfold patchAt
  rw [if_pos hl, store_getElem? _ _ _ (by simp [bytesOfU32]; omega), if_pos]
  simpa [bytesOfU32] using h

theorem applyPatches_getElem?_of_outside (v : Nat) (sites : List Nat) (bs : List Nat) (i : Nat)
    (h : ¬ InVersionField sites i) : (applyPatches v sites bs)[i]? = bs[i]? := by
  induction sites generalizing bs with
  | nil => rfl
  | cons b rest ih =>
    rw [applyPatches_cons, ih, patchAt_getElem?_of_outside]
    · intro hb
      exact h ⟨b, List.mem_cons_self _ _, hb⟩
    · rintro ⟨c, hc, hi⟩
      exact h ⟨c, List.mem_cons_of_mem _ hc, hi⟩

theorem applyPatches_getElem?_of_inside (v : Nat) (sites : List Nat) (bs : List Nat) (b i : Nat)
    (hb : b ∈ sites) (hl : b + 24 ≤ bs.length) (hi : b + 16 ≤ i ∧ i < b + 20)
    (hsep : ∀ c ∈ sites, c = b ∨ c + 4 ≤ b ∨ b + 4 ≤ c) :
    (applyPatches v sites bs)[i]? = (bytesOfU32 v)[i - (b + 16)]? := by
  induction sites generalizing bs with
  | nil => simp at hb
  | cons c rest ih =>
    rw [applyPatches_cons]
    by_cases hr : b ∈ rest
    · exact ih _ hr (by rw [patchAt_length]; exact hl)
        (fun d hd => hsep d (List.mem_cons_of_mem _ hd))
    · have hcb : c = b := by
        rcases List.mem_cons.1 hb with h | h
        · exact h.symm
        · exact absurd h hr
      subst hcb
      rw [applyPatches_getElem?_of_outside, patchAt_getElem?_of_inside _ _ _ _ hl hi]
      rintro ⟨d, hd, hdi⟩
      rcases hsep d (List.mem_cons_of_mem _ hd) with h | h | h
      · subst h; exact hr hd
      · omega
      · omega

/-! ## Two runs over files that agree outside the version fields -/

theorem window_eq (bs cs : List Nat) (p n : Nat)
    (h : ∀ i, p ≤ i → i < p + n → bs[i]? = cs[i]?) :
    (bs.drop p).take n = (cs.drop p).take n := by
  apply List.ext_getElem?
  intro j
  by_cases hj : j < n
  · simp only [List.getElem?_take, hj, if_true, List.getElem?_drop]
    exact h _ (by omega) (by omega)
  · simp [List.getElem?_take, hj]

theorem read_sim (W : Nat → Prop) (s t : FStream) (n : Nat) (h : Sim W s t) :
    Sim W (s.read n).1 (t.read n).1 := by
  obtain ⟨hp, hf, hl, ha⟩ := h
  unfold FStream.read
  rw [← hp, ← hf, ← hl]
  split_ifs
  · exact ⟨hp, hf, hl, ha⟩
  · exact ⟨by simp [hp], by simp, hl, ha⟩
  · exact ⟨by simp [hp, hl], rfl, hl, ha⟩

theorem read_sim_data (W : Nat → Prop) (s t : FStream) (n : Nat) (h : Sim W s t)
    (hw : ∀ i, s.pos ≤ i → i < s.pos + n → ¬ W i) : (s.read n).2 = (t.read n).2 := by
  obtain ⟨hp, hf, hl, ha⟩ := h
  unfold FStream.read
  rw [← hp, ← hf, ← hl]
  split_ifs
  · rfl
  · simp only [Option.some.injEq]
    exact window_eq _ _ _ _ (fun i h1 h2 => ha i (hw i h1 h2))
  · rfl

theorem seek_sim (W : Nat → Prop) (s t : FStream) (p : Nat) (h : Sim W s t) :
    Sim W (s.seek p) (t.seek p) := by
  obtain ⟨hp, hf, hl, ha⟩ := h
  unfold FStream.seek
  rw [← hf]
  split_ifs
  · exact ⟨hp, hf, hl, ha⟩
  · exact ⟨rfl, by simp, hl, ha⟩

theorem afterCommand_sim (W : Nat → Prop) (M1 m1 p1 M2 m2 p2 : Int) (s t : FStream)
    (h : Sim W s t)
    (hw : ∀ i, s.pos ≤ i → i < s.pos + 8 → ¬ W i)
    (hv : cmdAt s.bytes s.pos = LC_ID_DYLIB → ∀ i, s.pos + 16 ≤ i → i < s.pos + 20 → W i) :
    cmdAt t.bytes t.pos = cmdAt s.bytes s.pos ∧
    cmdsizeAt t.bytes t.pos = cmdsizeAt s.bytes s.pos ∧
    Sim W (afterCommand M1 m1 p1 s) (afterCommand M2 m2 p2 t) := by
  obtain ⟨hp, hf, hl, ha⟩ := h
  have hwin : (s.bytes.drop s.pos).take 8 = (t.bytes.drop t.pos).take 8 := by
    rw [← hp]
    exact window_eq _ _ _ _ (fun i h1 h2 => ha i (hw i h1 h2))
  have hc : cmdAt t.bytes t.pos = cmdAt s.bytes s.pos := by
    simp only [cmdAt, sizeofLoadCommand, hwin]
  have hz : cmdsizeAt t.bytes t.pos = cmdsizeAt s.bytes s.pos := by
    simp only [cmdsizeAt, sizeofLoadCommand, hwin]
  refine ⟨hc, hz, ?_⟩
  have hpatch : ∀ (v : Nat) (bs : List Nat), cmdAt s.bytes s.pos = LC_ID_DYLIB →
      ∀ i, ¬ W i → (patchAt v bs s.pos)[i]? = bs[i]? := by
    intro v bs hid i hi
    apply patchAt_getElem?_of_outside
    intro hin
    exact hi (hv hid i hin.1 hin.2)
  unfold afterCommand
  rw [hc, hz, ← hp, ← hl]
  split_ifs with h1 h2 h3 h3
  · exact ⟨rfl, rfl, hl, ha⟩
  · refine ⟨rfl, rfl, by simp [patchAt_length, hl], fun i hi => ?_⟩
    rw [hpatch _ _ h2.1 i hi, hpatch _ _ h2.1 i hi]
    exact ha i hi
  · refine ⟨rfl, rfl, by simp [patchAt_length, hl], fun i hi => ?_⟩
    rw [hpatch _ _ h2.1 i hi]
    exact ha i hi
  · refine ⟨rfl, rfl, by simp [patchAt_length, hl], fun i hi => ?_⟩
    simp only
    rw [hpatch _ _ h3.1 i hi]
    exact ha i hi
  · exact ⟨rfl, rfl, hl, ha⟩

theorem loadCommands_sim (W : Nat → Prop) (M1 m1 p1 M2 m2 p2 : Int) (arch n : Nat)
    (s t : FStream) (h : Sim W s t)
    (hc : ClearOf W (loadCommands M1 m1 p1 arch n s).visits) :
    (loadCommands M2 m2 p2 arch n t).visits = (loadCommands M1 m1 p1 arch n s).visits ∧
    (loadCommands M2 m2 p2 arch n t).returned = (loadCommands M1 m1 p1 arch n s).returned ∧
    Sim W (loadCommands M1 m1 p1 arch n s).file (loadCommands M2 m2 p2 arch n t).file := by
  induction n generalizing s t with
  | zero => exact ⟨rfl, rfl, h⟩
  | succ n ih =>
    by_cases hok : s.fail = false ∧ s.pos + 8 ≤ s.bytes.length
    · have hok' : t.fail = false ∧ t.pos + 8 ≤ t.bytes.length := by
        rw [← h.1, ← h.2.1, ← h.2.2.1]; exact hok
      obtain ⟨a1, a2, a3, -⟩ := loadCommands_succ_ok M1 m1 p1 arch n s hok.1 hok.2
      obtain ⟨b1, b2, b3, -⟩ := loadCommands_succ_ok M2 m2 p2 arch n t hok'.1 hok'.2
      rw [a2] at hc
      have h0 := hc _ (List.mem_cons_self _ _)
      obtain ⟨e1, e2, e3⟩ := afterCommand_sim W M1 m1 p1 M2 m2 p2 s t h h0.1 h0.2
      obtain ⟨i1, i2, i3⟩ := ih _ _ e3 (fun v hv => hc v (List.mem_cons_of_mem _ hv))
      rw [a1, a2, a3, b1, b2, b3, i1, i2, e1, e2, h.1]
      exact ⟨rfl, rfl, i3⟩
    · have hok' : ¬ (t.fail = false ∧ t.pos + 8 ≤ t.bytes.length) := by
        rw [← h.1, ← h.2.1, ← h.2.2.1]; exact hok
      rw [loadCommands_succ_short _ _ _ _ _ _ hok, loadCommands_succ_short _ _ _ _ _ _ hok']
      exact ⟨rfl, rfl, read_sim W s t 8 h⟩

theorem archBody_sim (W : Nat → Prop) (M1 m1 p1 M2 m2 p2 : Int) (arch : List Nat) (k : Nat)
    (s t : FStream) (h : Sim W s t)
    (hh : HeadersClearOf W (archBody M1 m1 p1 arch k s).slices)
    (hc : ClearOf W (archBody M1 m1 p1 arch k s).visits) :
    (archBody M2 m2 p2 arch k t).slices = (archBody M1 m1 p1 arch k s).slices ∧
    (archBody M2 m2 p2 arch k t).visits = (archBody M1 m1 p1 arch k s).visits ∧
    (archBody M2 m2 p2 arch k t).returned = (archBody M1 m1 p1 arch k s).returned ∧
    Sim W (archBody M1 m1 p1 arch k s).file (archBody M2 m2 p2 arch k t).file := by
  by_cases hok : s.fail = false ∧ ntohl (field arch 8) + 28 ≤ s.bytes.length
  · have hok' : t.fail = false ∧ ntohl (field arch 8) + 28 ≤ t.bytes.length := by
      rw [← h.2.1, ← h.2.2.1]; exact hok
    have key : (∀ i, ntohl (field arch 8) ≤ i → i < ntohl (field arch 8) + 28 → ¬ W i) →
        magicAt t.bytes (ntohl (field arch 8)) = magicAt s.bytes (ntohl (field arch 8)) ∧
        ncmdsAt t.bytes (ntohl (field arch 8)) = ncmdsAt s.bytes (ntohl (field arch 8)) := by
      intro hw
      have hwin := window_eq s.bytes t.bytes (ntohl (field arch 8)) 28
        (fun i h1 h2 => h.2.2.2 i (hw i h1 h2))
      simp only [magicAt, ncmdsAt, sizeofMachHeader, hwin, and_self]
    by_cases hm : magicAt s.bytes (ntohl (field arch 8)) ≠ MH_MAGIC ∧
        magicAt s.bytes (ntohl (field arch 8)) ≠ MH_MAGIC_64
    · rw [archBody_badMagic _ _ _ _ _ _ hok.1 hok.2 hm] at hh ⊢
      obtain ⟨k1, k2⟩ := key (hh _ (List.mem_singleton_self _))
      rw [archBody_badMagic _ _ _ _ _ _ hok'.1 hok'.2 (by rw [k1]; exact hm), k1, k2]
      exact ⟨rfl, rfl, rfl, rfl, rfl, h.2.2.1, h.2.2.2⟩
    · rw [archBody_ok _ _ _ _ _ _ hok.1 hok.2 hm] at hh hc ⊢
      obtain ⟨k1, k2⟩ := key (hh _ (List.mem_singleton_self _))
      rw [archBody_ok _ _ _ _ _ _ hok'.1 hok'.2 (by rw [k1]; exact hm), k1, k2]
      have hs : Sim W
          ⟨s.bytes, ntohl (field arch 8) +
            headerSizeOf (magicAt s.bytes (ntohl (field arch 8))), false⟩
          ⟨t.bytes, ntohl (field arch 8) +
            headerSizeOf (magicAt s.bytes (ntohl (field arch 8))), false⟩ :=
        ⟨rfl, rfl, h.2.2.1, h.2.2.2⟩
      obtain ⟨i1, i2, i3⟩ := loadCommands_sim W M1 m1 p1 M2 m2 p2 k _ _ _ hs hc
      exact ⟨rfl, i1, i2, i3⟩
  · have hok' : ¬ (t.fail = false ∧ ntohl (field arch 8) + 28 ≤ t.bytes.length) := by
      rw [← h.2.1, ← h.2.2.1]; exact hok
    have e1 : (archBody M1 m1 p1 arch k s).file =
        ((s.seek (ntohl (field arch 8))).read 28).1 := by
      have h' : ¬ ((s.seek (ntohl (field arch 8))).fail = false ∧
          (s.seek (ntohl (field arch 8))).pos + 28 ≤
            (s.seek (ntohl (field arch 8))).bytes.length) := by
        cases hf : s.fail
        · rw [seek_eq_of_ok _ _ hf]; simpa [hf] using hok
        · rw [seek_eq_of_fail _ _ hf]; simp [hf]
      simp only [archBody, sizeofMachHeader, read_none_of_not_ok _ 28 h']
    have e2 : (archBody M2 m2 p2 arch k t).file =
        ((t.seek (ntohl (field arch 8))).read 28).1 := by
      have h' : ¬ ((t.seek (ntohl (field arch 8))).fail = false ∧
          (t.seek (ntohl (field arch 8))).pos + 28 ≤
            (t.seek (ntohl (field arch 8))).bytes.length) := by
        cases hf : t.fail
        · rw [seek_eq_of_ok _ _ hf]; simpa [hf] using hok'
        · rw [seek_eq_of_fail _ _ hf]; simp [hf]
      simp only [archBody, sizeofMachHeader, read_none_of_not_ok _ 28 h']
    obtain ⟨-, -, a3, a4, a5, -⟩ := archBody_short M1 m1 p1 arch k s hok
    obtain ⟨-, -, b3, b4, b5, -⟩ := archBody_short M2 m2 p2 arch k t hok'
    rw [a3, a4, a5, b3, b4, b5, e1, e2]
    exact ⟨rfl, rfl, rfl, read_sim W _ _ 28 (seek_sim W _ _ _ h)⟩

theorem archLoop_sim (W : Nat → Prop) (M1 m1 p1 M2 m2 p2 : Int) (archs : List (List Nat))
    (k : Nat) (s t : FStream) (h : Sim W s t)
    (hh : HeadersClearOf W (archLoop M1 m1 p1 archs k s).slices)
    (hc : ClearOf W (archLoop M1 m1 p1 archs k s).visits) :
    (archLoop M2 m2 p2 archs k t).slices = (archLoop M1 m1 p1 archs k s).slices ∧
    (archLoop M2 m2 p2 archs k t).visits = (archLoop M1 m1 p1 archs k s).visits ∧
    (archLoop M2 m2 p2 archs k t).returned = (archLoop M1 m1 p1 archs k s).returned ∧
    Sim W (archLoop M1 m1 p1 archs k s).file (archLoop M2 m2 p2 archs k t).file := by
  induction archs generalizing k s t with
  | nil => exact ⟨rfl, rfl, rfl, h⟩
  | cons arch rest ih =>
    cases hb : (archBody M1 m1 p1 arch k s).returned
    · rw [archLoop_cons_continue _ _ _ _ _ _ _ hb] at hh hc ⊢
      obtain ⟨b1, b2, b3, b4⟩ := archBody_sim W M1 m1 p1 M2 m2 p2 arch k s t h
        (fun sv hsv => hh sv (List.mem_append_left _ hsv))
        (fun v hv => hc v (List.mem_append_left _ hv))
      rw [archLoop_cons_continue _ _ _ _ _ _ _ (b3.trans hb)]
      obtain ⟨i1, i2, i3, i4⟩ := ih (k + 1) _ _ b4
        (fun sv hsv => hh sv (List.mem_append_right _ hsv))
        (fun v hv => hc v (List.mem_append_right _ hv))
      simp only [b1, b2, i1, i2, i3, true_and]
      exact i4
    · rw [archLoop_cons_returned _ _ _ _ _ _ _ hb] at hh hc ⊢
      obtain ⟨b1, b2, b3, b4⟩ := archBody_sim W M1 m1 p1 M2 m2 p2 arch k s t h hh hc
      rw [archLoop_cons_returned _ _ _ _ _ _ _ (b3.trans hb)]
      exact ⟨b1, b2, b3, b4⟩

theorem readArchs_sim (W : Nat → Prop) (n : Nat) (s t : FStream) (h : Sim W s t)
    (hw : ∀ i, s.pos ≤ i → i < s.pos + 20 * n → ¬ W i) :
    (readArchs n t).2 = (readArchs n s).2 ∧ Sim W (readArchs n s).1 (readArchs n t).1 := by
  induction n generalizing s t with
  | zero => exact ⟨rfl, h⟩
  | succ n ih =>
    have hd := read_sim_data W s t 20 h (fun i h1 h2 => hw i h1 (by omega))
    have hs := read_sim W s t 20 h
    simp only [readArchs, sizeofFatArch]
    rw [← hd]
    by_cases hok : s.fail = false ∧ s.pos + 20 ≤ s.bytes.length
    · rw [read_eq_of_ok s 20 hok.1 hok.2] at hs ⊢
      simp only
      obtain ⟨i1, i2⟩ := ih _ _ hs (fun i h1 h2 => hw i (by simp only at h1; omega)
        (by simp only at h2; omega))
      rw [i1]
      exact ⟨rfl, i2⟩
    · rw [read_none_of_not_ok s 20 hok]
      exact ⟨rfl, hs⟩

/-! ## The container header -/

theorem field_header (bs : List Nat) (off : Nat) (h : off + 4 ≤ 8) :
    field ((bs.drop 0).take 8) off = field bs off := by
  simp only [field, List.drop_zero, List.drop_take, List.take_take]
  congr 1
  omega

theorem parseFatBinary_short (bytes : List Nat) (major minor patch : Int)
    (h : ¬ 8 ≤ bytes.length) :
    parseFatBinary bytes major minor patch =
      ⟨⟨bytes, bytes.length, true⟩, [.notFatBinary], [], [], true⟩ := by
  have h1 := read_eq_of_short ⟨bytes, 0, false⟩ 8 rfl (by simpa using h)
  simp only [parseFatBinary, sizeofFatHeader, h1]
  simp

theorem parseFatBinary_badMagic (bytes : List Nat) (major minor patch : Int)
    (h : 8 ≤ bytes.length) (hm : ntohl (field bytes 0) ≠ FAT_MAGIC) :
    parseFatBinary bytes major minor patch =
      ⟨⟨bytes, 8, false⟩, [.notFatBinary], [], [], true⟩ := by
  have h1 := read_eq_of_ok ⟨bytes, 0, false⟩ 8 rfl (by simpa using h)
  simp only [parseFatBinary, sizeofFatHeader, h1, Nat.zero_add, field_header bytes 0 (by omega)]
  rw [if_pos hm]

theorem parseFatBinary_noTable (bytes : List Nat) (major minor patch : Int)
    (h : 8 ≤ bytes.length) (hm : ntohl (field bytes 0) = FAT_MAGIC)
    (ht : (readArchs (ntohl (field bytes 4)) ⟨bytes, 8, false⟩).2 = none) :
    parseFatBinary bytes major minor patch =
      ⟨(readArchs (ntohl (field bytes 4)) ⟨bytes, 8, false⟩).1,
        [.numberOfArchitectures (ntohl (field bytes 4)), .archReadFailed], [], [], true⟩ := by
  have h1 := read_eq_of_ok ⟨bytes, 0, false⟩ 8 rfl (by simpa using h)
  simp only [parseFatBinary, sizeofFatHeader, h1, Nat.zero_add, field_header bytes 0 (by omega),
    field_header bytes 4 (by omega)]
  rw [if_neg (by simp [hm])]
  simp only [ht]

theorem parseFatBinary_table (bytes : List Nat) (major minor patch : Int)
    (h : 8 ≤ bytes.length) (hm : ntohl (field bytes 0) = FAT_MAGIC) (archs : List (List Nat))
    (ht : (readArchs (ntohl (field bytes 4)) ⟨bytes, 8, false⟩).2 = some archs) :
    parseFatBinary bytes major minor patch =
      ⟨(archLoop major minor patch archs 1
          (readArchs (ntohl (field bytes 4)) ⟨bytes, 8, false⟩).1).file,
        .numberOfArchitectures (ntohl (field bytes 4)) ::
          (archLoop major minor patch archs 1
            (readArchs (ntohl (field bytes 4)) ⟨bytes, 8, false⟩).1).out,
        (archLoop major minor patch archs 1
          (readArchs (ntohl (field bytes 4)) ⟨bytes, 8, false⟩).1).slices,
        (archLoop major minor patch archs 1
          (readArchs (ntohl (field bytes 4)) ⟨bytes, 8, false⟩).1).visits,
        (archLoop major minor patch archs 1
          (readArchs (ntohl (field bytes 4)) ⟨bytes, 8, false⟩).1).returned⟩ := by
  have h1 := read_eq_of_ok ⟨bytes, 0, false⟩ 8 rfl (by simpa using h)
  simp only [parseFatBinary, sizeofFatHeader, h1, Nat.zero_add, field_header bytes 0 (by omega),
    field_header bytes 4 (by omega)]
  rw [if_neg (by simp [hm])]
  simp only [ht]

theorem field_agree (W : Nat → Prop) (f g : List Nat) (off bound : Nat)
    (ha : ∀ i, ¬ W i → f[i]? = g[i]?) (hw : ∀ i, i < bound → ¬ W i) (hb : off + 4 ≤ bound) :
    field g off = field f off := by
  unfold field
  exact (window_eq f g off 4 (fun i _ h2 => ha i (hw i (by omega)))).symm

theorem parseFatBinary_sim (W : Nat → Prop) (M1 m1 p1 M2 m2 p2 : Int) (f g : List Nat)
    (hl : f.length = g.length) (ha : ∀ i, ¬ W i → f[i]? = g[i]?)
    (ht : ∀ i, i < 8 + 20 * ntohl (field f 4) → ¬ W i)
    (hh : HeadersClearOf W (parseFatBinary f M1 m1 p1).slices)
    (hc : ClearOf W (parseFatBinary f M1 m1 p1).visits) :
    (parseFatBinary g M2 m2 p2).slices = (parseFatBinary f M1 m1 p1).slices ∧
    (parseFatBinary g M2 m2 p2).visits = (parseFatBinary f M1 m1 p1).visits ∧
    (parseFatBinary g M2 m2 p2).returned = (parseFatBinary f M1 m1 p1).returned ∧
    Sim W (parseFatBinary f M1 m1 p1).file (parseFatBinary g M2 m2 p2).file := by
  by_cases h8 : 8 ≤ f.length
  · have h8' : 8 ≤ g.length := hl ▸ h8
    have e0 : field g 0 = field f 0 := field_agree W f g 0 _ ha ht (by omega)
    have e4 : field g 4 = field f 4 := field_agree W f g 4 _ ha ht (by omega)
    by_cases hm : ntohl (field f 0) = FAT_MAGIC
    · have hs : Sim W ⟨f, 8, false⟩ ⟨g, 8, false⟩ := ⟨rfl, rfl, hl, ha⟩
      obtain ⟨t1, t2⟩ := readArchs_sim W (ntohl (field f 4)) _ _ hs
        (fun i _ h2 => ht i (by simpa using h2))
      cases hr : (readArchs (ntohl (field f 4)) ⟨f, 8, false⟩).2 with
      | none =>
        rw [parseFatBinary_noTable f _ _ _ h8 hm hr,
          parseFatBinary_noTable g _ _ _ h8' (by rw [e0]; exact hm) (by rw [e4, t1]; exact hr),
          e4]
        exact ⟨rfl, rfl, rfl, t2⟩
      | some archs =>
        rw [parseFatBinary_table f _ _ _ h8 hm archs hr] at hh hc ⊢
        rw [parseFatBinary_table g _ _ _ h8' (by rw [e0]; exact hm) archs
          (by rw [e4, t1]; exact hr), e4]
        exact archLoop_sim W M1 m1 p1 M2 m2 p2 archs 1 _ _ t2 hh hc
    · rw [parseFatBinary_badMagic f _ _ _ h8 hm,
        parseFatBinary_badMagic g _ _ _ h8' (by rw [e0]; exact hm)]
      exact ⟨rfl, rfl, rfl, rfl, rfl, hl, ha⟩
  · have h8' : ¬ 8 ≤ g.length := hl ▸ h8
    rw [parseFatBinary_short f _ _ _ h8, parseFatBinary_short g _ _ _ h8']
    exact ⟨rfl, rfl, rfl, hl, rfl, hl, ha⟩

/-! ## What well-formedness gives -/

theorem mem_patchSites (major : Int) (visits : List Visit) (b : Nat) :
    b ∈ patchSites major visits ↔
      0 ≤ major ∧ ∃ v ∈ visits, v.cmd = LC_ID_DYLIB ∧ v.base = b := by
  unfold patchSites
  split_ifs with h
  · simp [h, List.mem_map, List.mem_filter, and_assoc]
  · simp [h]

theorem Apart.symm {a b : Nat × Nat} (h : Apart a b) : Apart b a := Or.symm h

theorem apart_of_mem (l : List (Nat × Nat)) (h : l.Pairwise Apart) (a b : Nat × Nat)
    (ha : a ∈ l) (hb : b ∈ l) : a = b ∨ Apart a b := by
  by_cases hab : a = b
  · exact Or.inl hab
  · exact Or.inr (List.Pairwise.forall (fun _ _ h => Apart.symm h) h ha hb hab)

/-- The facts about the read-only walk of a well-formed container that the proofs use. -/
theorem wellFormed_facts (bytes : List Nat) (h : WellFormed bytes) :
    (∀ i, i < 8 + 20 * ntohl (field bytes 4) →
      ¬ InVersionField (patchSites 0 (parseFatBinary bytes (-1) 0 0).visits) i) ∧
    HeadersClearOf (InVersionField (patchSites 0 (parseFatBinary bytes (-1) 0 0).visits))
      (parseFatBinary bytes (-1) 0 0).slices ∧
    ClearOf (InVersionField (patchSites 0 (parseFatBinary bytes (-1) 0 0).visits))
      (parseFatBinary bytes (-1) 0 0).visits ∧
    (∀ b ∈ patchSites 0 (parseFatBinary bytes (-1) 0 0).visits,
      ∀ c ∈ patchSites 0 (parseFatBinary bytes (-1) 0 0).visits,
        c = b ∨ c + 4 ≤ b ∨ b + 4 ≤ c) ∧
    (∀ b ∈ patchSites 0 (parseFatBinary bytes (-1) 0 0).visits, b + 24 ≤ bytes.length) := by
  obtain ⟨-, hsz, hp⟩ := h
  generalize parseFatBinary bytes (-1) 0 0 = r at hsz hp ⊢
  simp only [regions, List.pairwise_cons, List.pairwise_append, List.mem_append, List.mem_map,
    sizeofFatHeader, sizeofFatArch] at hp
  obtain ⟨hp1, -, hp3, hp4⟩ := hp
  have hvis : ∀ v ∈ r.visits, ∀ w ∈ r.visits,
      (v.base = w.base ∧ v.cmdsize = w.cmdsize) ∨
        v.base + v.cmdsize ≤ w.base ∨ w.base + w.cmdsize ≤ v.base := by
    intro v hv w hw
    rcases apart_of_mem _ hp3 (v.base, v.base + v.cmdsize) (w.base, w.base + w.cmdsize)
      (List.mem_map.2 ⟨v, hv, rfl⟩) (List.mem_map.2 ⟨w, hw, rfl⟩) with e | e
    · left
      simp only [Prod.mk.injEq] at e
      omega
    · right
      exact e
  refine ⟨?_, ?_, ?_, ?_, ?_⟩
  · rintro i hi ⟨b, hb, h1, h2⟩
    obtain ⟨-, v, hv, hid, rfl⟩ := (mem_patchSites _ _ _).1 hb
    have hs := hsz v hv
    have := hp1 (v.base, v.base + v.cmdsize) (Or.inr ⟨v, hv, rfl⟩)
    simp only [Apart] at this
    have h24 := hs.2.1 hid
    omega
  · rintro sv hsv i hi1 hi2 ⟨b, hb, h1, h2⟩
    obtain ⟨-, v, hv, hid, rfl⟩ := (mem_patchSites _ _ _).1 hb
    have hs := hsz v hv
    have := hp4 _ ⟨sv, hsv, rfl⟩ (v.base, v.base + v.cmdsize) ⟨v, hv, rfl⟩
    simp only [Apart] at this
    have h24 := hs.2.1 hid
    have : 28 ≤ (if sv.magic = MH_MAGIC_64 then sizeofMachHeader64 else sizeofMachHeader) := by
      split_ifs <;> simp [sizeofMachHeader64, sizeofMachHeader]
    omega
  · intro w hw
    refine ⟨?_, fun hid i h1 h2 => ⟨w.base, (mem_patchSites _ _ _).2 ⟨le_refl _, w, hw, hid, rfl⟩,
      h1, h2⟩⟩
    rintro i hi1 hi2 ⟨b, hb, h1, h2⟩
    obtain ⟨-, v, hv, hid, rfl⟩ := (mem_patchSites _ _ _).1 hb
    have hsv := hsz v hv
    have hsw := hsz w hw
    have h24 := hsv.2.1 hid
    rcases hvis v hv w hw with e | e | e <;> omega
  · intro b hb c hc
    obtain ⟨-, v, hv, hidv, rfl⟩ := (mem_patchSites _ _ _).1 hb
    obtain ⟨-, w, hw, hidw, rfl⟩ := (mem_patchSites _ _ _).1 hc
    have h24v := (hsz v hv).2.1 hidv
    have h24w := (hsz w hw).2.1 hidw
    rcases hvis v hv w hw with e | e | e <;> omega
  · intro b hb
    obtain ⟨-, v, hv, hid, rfl⟩ := (mem_patchSites _ _ _).1 hb
    have hs := hsz v hv
    have h24 := hs.2.1 hid
    omega

theorem inVersionField_mono (xs ys : List Nat) (h : ∀ b ∈ xs, b ∈ ys) (i : Nat)
    (hi : InVersionField xs i) : InVersionField ys i := by
  obtain ⟨b, hb, h1⟩ := hi
  exact ⟨b, h b hb, h1⟩

theorem patchSites_subset (major : Int) (visits : List Visit) :
    ∀ b ∈ patchSites major visits, b ∈ patchSites 0 visits := by
  intro b hb
  obtain ⟨-, h⟩ := (mem_patchSites _ _ _).1 hb
  exact (mem_patchSites _ _ _).2 ⟨le_refl _, h⟩

/-- On a well-formed container a run in any mode makes the walk of the read-only run. -/
theorem wellFormed_walk (bytes : List Nat) (major minor patch : Int) (h : WellFormed bytes) :
    (parseFatBinary bytes major minor patch).slices = (parseFatBinary bytes (-1) 0 0).slices ∧
    (parseFatBinary bytes major minor patch).visits = (parseFatBinary bytes (-1) 0 0).visits ∧
    (parseFatBinary bytes major minor patch).returned = false := by
  obtain ⟨f1, f2, f3, -, -⟩ := wellFormed_facts bytes h
  obtain ⟨s1, s2, s3, -⟩ := parseFatBinary_sim _ (-1) 0 0 major minor patch bytes bytes rfl
    (fun _ _ => rfl) f1 f2 f3
  exact ⟨s1, s2, s3.trans h.1⟩

theorem applyPatches_congr (v : Nat) (sites : List Nat) (f g : List Nat)
    (hl : f.length = g.length) (hact : ∀ b ∈ sites, b + 24 ≤ f.length)
    (ha : ∀ i, ¬ InVersionField sites i → f[i]? = g[i]?) :
    applyPatches v sites f = applyPatches v sites g := by
  induction sites generalizing f g with
  | nil =>
    apply List.ext_getElem?
    intro i
    exact ha i (by rintro ⟨b, hb, -⟩; simp at hb)
  | cons b rest ih =>
    rw [applyPatches_cons, applyPatches_cons]
    apply ih
    · rw [patchAt_length, patchAt_length, hl]
    · intro c hc
      rw [patchAt_length]
      exact hact c (List.mem_cons_of_mem _ hc)
    · intro i hi
      by_cases hb : b + 16 ≤ i ∧ i < b + 20
      · rw [patchAt_getElem?_of_inside _ _ _ _ (hact b (List.mem_cons_self _ _)) hb,
          patchAt_getElem?_of_inside _ _ _ _ (hl ▸ hact b (List.mem_cons_self _ _)) hb]
      · rw [patchAt_getElem?_of_outside _ _ _ _ hb, patchAt_getElem?_of_outside _ _ _ _ hb]
        apply ha
        rintro ⟨c, hc, hci⟩
        rcases List.mem_cons.1 hc with e | e
        · subst e; exact hb hci
        · exact hi ⟨c, e, hci⟩

theorem applyPatches_idem (v : Nat) (sites : List Nat) (f : List Nat)
    (hact : ∀ b ∈ sites, b + 24 ≤ f.length) :
    applyPatches v sites (applyPatches v sites f) = applyPatches v sites f := by
  apply applyPatches_congr
  · exact applyPatches_length _ _ _
  · intro b hb
    rw [applyPatches_length]
    exact hact b hb
  · intro i hi
    exact applyPatches_getElem?_of_outside _ _ _ _ hi

theorem le32_bytesOfU32 (v : Nat) (h : v < 4294967296) : le32 (bytesOfU32 v) = v := by
  simp only [le32, bytesOfU32, List.getD_cons_zero, List.getD_cons_succ]
  omega

theorem toU32_lt (x : Int) : toU32 x < 4294967296 := by
  unfold toU32
  have h1 : 0 ≤ x % 4294967296 := Int.emod_nonneg _ (by norm_num)
  have h2 : x % 4294967296 < 4294967296 := Int.emod_lt_of_pos _ (by norm_num)
  omega

theorem packVersion_lt (major minor patch : Int) :
    packVersion major minor patch < 4294967296 := by
  unfold packVersion
  have e : (4294967296 : Nat) = 2 ^ 32 := by norm_num
  rw [e]
  apply Nat.or_lt_two_pow
  · apply Nat.or_lt_two_pow
    · exact Nat.mod_lt _ (by norm_num)
    · exact Nat.mod_lt _ (by norm_num)
  · rw [← e]; exact toU32_lt _

theorem field_eq_of_getElem? (bs : List Nat) (p : Nat) (data : List Nat) (hd : data.length = 4)
    (h : ∀ i, p ≤ i → i < p + 4 → bs[i]? = data[i - p]?) : field bs p = data := by
  unfold field
  apply List.ext_getElem?
  intro j
  by_cases hj : j < 4
  · simp only [List.getElem?_take, hj, if_true, List.getElem?_drop]
    rw [h (p + j) (by omega) (by omega)]
    congr 1
    omega
  · rw [List.getElem?_eq_none (by simp; omega), List.getElem?_eq_none (by omega)]

theorem inVersionField_patchSites (major : Int) (hM : 0 ≤ major) (visits : List Visit) (i : Nat) :
    InVersionField (patchSites major visits) i ↔
      ∃ v ∈ visits, v.cmd = LC_ID_DYLIB ∧ v.base + 16 ≤ i ∧ i < v.base + 20 := by
  constructor
  · rintro ⟨b, hb, h1, h2⟩
    obtain ⟨-, v, hv, hid, rfl⟩ := (mem_patchSites _ _ _).1 hb
    exact ⟨v, hv, hid, h1, h2⟩
  · rintro ⟨v, hv, hid, h1, h2⟩
    exact ⟨v.base, (mem_patchSites _ _ _).2 ⟨hM, v, hv, hid, rfl⟩, h1, h2⟩

/-- C1 (as amended): on a well-formed container, after a patch run with `major >= 0`, the
32-bit host-order value at command base + 16 of every `LC_ID_DYLIB` command visited is
`major << 16 | minor << 8 | patch` kept to the 32 bits of the field. -/
theorem roundTrip_currentVersion (bytes : List Nat) (major minor patch : Int)
    (hwf : WellFormed bytes) (hM : 0 ≤ major) :
    ∀ v ∈ (parseFatBinary bytes major minor patch).visits, v.cmd = LC_ID_DYLIB →
      le32 (field (parseFatBinary bytes major minor patch).file.bytes (v.base + 16)) =
        packVersion major minor patch := by
  intro v hv hid
  obtain ⟨-, -, -, f4, f5⟩ := wellFormed_facts bytes hwf
  obtain ⟨-, w2, -⟩ := wellFormed_walk bytes major minor patch hwf
  have hb : v.base ∈ patchSites major (parseFatBinary bytes major minor patch).visits :=
    (mem_patchSites _ _ _).2 ⟨hM, v, hv, hid, rfl⟩
  have hb0 : v.base ∈ patchSites 0 (parseFatBinary bytes (-1) 0 0).visits := by
    rw [← w2]; exact patchSites_subset _ _ _ hb
  have hfield : field (parseFatBinary bytes major minor patch).file.bytes (v.base + 16) =
      bytesOfU32 (packVersion major minor patch) := by
    apply field_eq_of_getElem? _ _ _ (by simp [bytesOfU32])
    intro i h1 h2
    rw [parseFatBinary_bytes]
    apply applyPatches_getElem?_of_inside _ _ _ v.base i hb (f5 _ hb0) ⟨h1, by omega⟩
    intro c hc
    exact f4 _ hb0 c (by rw [← w2]; exact patchSites_subset _ _ _ hc)
  rw [hfield, le32_bytesOfU32 _ (packVersion_lt _ _ _)]

/-- C2: on a well-formed container a patch run with `major >= 0` keeps the length of the
file, changes no byte outside the ranges command base + 16 .. command base + 19 of the
`LC_ID_DYLIB` commands it visited, and so leaves the `cmd` and `cmdsize` fields of every
visited command as they were. -/
theorem patch_frame (bytes : List Nat) (major minor patch : Int)
    (hwf : WellFormed bytes) (hM : 0 ≤ major) :
    (parseFatBinary bytes major minor patch).file.bytes.length = bytes.length ∧
    (∀ i, (¬ ∃ v ∈ (parseFatBinary bytes major minor patch).visits,
          v.cmd = LC_ID_DYLIB ∧ v.base + 16 ≤ i ∧ i < v.base + 20) →
        (parseFatBinary bytes major minor patch).file.bytes[i]? = bytes[i]?) ∧
    (∀ v ∈ (parseFatBinary bytes major minor patch).visits, ∀ i, v.base ≤ i → i < v.base + 8 →
        (parseFatBinary bytes major minor patch).file.bytes[i]? = bytes[i]?) := by
  obtain ⟨-, -, f3, -, -⟩ := wellFormed_facts bytes hwf
  obtain ⟨-, w2, -⟩ := wellFormed_walk bytes major minor patch hwf
  have hframe : ∀ i, (¬ ∃ v ∈ (parseFatBinary bytes major minor patch).visits,
        v.cmd = LC_ID_DYLIB ∧ v.base + 16 ≤ i ∧ i < v.base + 20) →
      (parseFatBinary bytes major minor patch).file.bytes[i]? = bytes[i]? := by
    intro i hi
    rw [parseFatBinary_bytes]
    apply applyPatches_getElem?_of_outside
    rw [inVersionField_patchSites _ hM]
    exact hi
  refine ⟨?_, hframe, ?_⟩
  · rw [parseFatBinary_bytes, applyPatches_length]
  · intro v hv i h1 h2
    apply hframe
    rw [← inVersionField_patchSites 0 (le_refl _), w2]
    exact (f3 v (w2 ▸ hv)).1 i h1 h2

/-- C3 (as amended): on a well-formed container, a second patch run with the same triple
leaves the file exactly as the first run left it. -/
theorem patch_idempotent (bytes : List Nat) (major minor patch : Int) (hwf : WellFormed bytes) :
    (parseFatBinary (parseFatBinary bytes major minor patch).file.bytes
        major minor patch).file.bytes =
      (parseFatBinary bytes major minor patch).file.bytes := by
  obtain ⟨f1, f2, f3, -, f5⟩ := wellFormed_facts bytes hwf
  obtain ⟨-, w2, -⟩ := wellFormed_walk bytes major minor patch hwf
  have hb : (parseFatBinary bytes major minor patch).file.bytes =
      applyPatches (packVersion major minor patch)
        (patchSites major (parseFatBinary bytes (-1) 0 0).visits) bytes := by
    rw [parseFatBinary_bytes, w2]
  obtain ⟨-, s2, -, -⟩ := parseFatBinary_sim _ (-1) 0 0 major minor patch bytes
    (parseFatBinary bytes major minor patch).file.bytes
    (by rw [hb, applyPatches_length])
    (fun i hi => by
      rw [hb, applyPatches_getElem?_of_outside]
      exact fun h => hi (inVersionField_mono _ _ (patchSites_subset _ _) i h))
    f1 f2 f3
  rw [parseFatBinary_bytes, s2]
  conv_lhs => rw [hb]
  rw [hb]
  exact applyPatches_idem _ _ _ (fun b hb => f5 b (patchSites_subset _ _ b hb))

/-- C4: with `major` negative (the default `-1`) the run leaves every byte of the file as it
was, whatever `minor` and `patch` are; so a run that changed the file had `major >= 0`. -/
theorem readOnly_unchanged (bytes : List Nat) (major minor patch : Int) (hM : major < 0) :
    (parseFatBinary bytes major minor patch).file.bytes = bytes := by
  rw [parseFatBinary_bytes]
  have : patchSites major (parseFatBinary bytes major minor patch).visits = [] := by
    unfold patchSites
    rw [if_neg (by omega)]
  rw [this, applyPatches_nil]

/-! ## Packing -/

theorem lor_bytes (a b c : Nat) (hb : b < 256) (hc : c < 256) :
    (a <<< 16 ||| b <<< 8) ||| c = a * 65536 + b * 256 + c := by
  have h1 : a <<< 16 ||| b <<< 8 = 2 ^ 16 * a + b * 256 := by
    rw [Nat.shiftLeft_eq, Nat.shiftLeft_eq, Nat.mul_comm a,
      ← Nat.mul_add_lt_is_or (show b * 2 ^ 8 < 2 ^ 16 by omega)]
    norm_num
  have h2 : 2 ^ 16 * a + b * 256 = 2 ^ 8 * (256 * a + b) := by omega
  rw [h1, h2, ← Nat.mul_add_lt_is_or (show c < 2 ^ 8 by omega)]
  omega

/-- C5 (as amended): when `major`, `minor` and `patch` all lie in 0..255 the value written is
`major * 65536 + minor * 256 + patch`, which is the packing of the three bytes; no part is
cut to a byte before packing, so this needs the three ranges. -/
theorem packVersion_inRange (major minor patch : Int)
    (hM0 : 0 ≤ major) (hM : major ≤ 255) (hm0 : 0 ≤ minor) (hm : minor ≤ 255)
    (hp0 : 0 ≤ patch) (hp : patch ≤ 255) :
    packVersion major minor patch = packTruncated major minor patch ∧
    packVersion major minor patch = major.toNat * 65536 + minor.toNat * 256 + patch.toNat := by
  obtain ⟨a, rfl⟩ := Int.eq_ofNat_of_zero_le hM0
  obtain ⟨b, rfl⟩ := Int.eq_ofNat_of_zero_le hm0
  obtain ⟨c, rfl⟩ := Int.eq_ofNat_of_zero_le hp0
  have ha : a < 256 := by omega
  have hb : b < 256 := by omega
  have hc : c < 256 := by omega
  have e1 : ∀ x : Nat, x < 256 → toU32 (x : Int) = x := by
    intro x hx
    unfold toU32
    omega
  have e2 : ∀ x : Nat, x < 256 → ((x : Int) % 256).toNat = x := by
    intro x hx
    omega
  have e3 : (a <<< 16) % 4294967296 = a <<< 16 := by
    rw [Nat.shiftLeft_eq]; omega
  have e4 : (b <<< 8) % 4294967296 = b <<< 8 := by
    rw [Nat.shiftLeft_eq]; omega
  unfold packVersion packTruncated
  rw [e1 a ha, e1 b hb, e1 c hc, e2 a ha, e2 b hb, e2 c hc, e3, e4, lor_bytes a b c hb hc]
  simp

/-! ## The size-directed walk -/

theorem idDylib_out (major minor patch : Int) (base : Nat) (s : FStream) :
    (idDylib major minor patch base s).2 =
      [.idDylibFound,
        .versions (((s.read 4).1.read 4).2.map le32)
          ((((s.read 4).1.read 4).1.read 4).2.map le32)
          (((((s.read 4).1.read 4).1.read 4).1.read 4).2.map le32)] ++
        (if 0 ≤ major then [.versionPatched] else []) := by
  unfold idDylib
  by_cases hm : 0 ≤ major <;> simp [hm]

theorem loadCommands_succ_out (major minor patch : Int) (arch n : Nat) (s : FStream)
    (hf : s.fail = false) (hn : s.pos + 8 ≤ s.bytes.length) :
    (loadCommands major minor patch arch (n + 1) s).out =
      (if cmdAt s.bytes s.pos = LC_ID_DYLIB then
          (idDylib major minor patch s.pos ⟨s.bytes, s.pos + 8, false⟩).2
        else []) ++
        (loadCommands major minor patch arch n (afterCommand major minor patch s)).out := by
  have hs : (if cmdAt s.bytes s.pos = LC_ID_DYLIB then
        idDylib major minor patch s.pos ⟨s.bytes, s.pos + 8, false⟩
      else (⟨s.bytes, s.pos + 8, false⟩, [])).1.seek (s.pos + cmdsizeAt s.bytes s.pos) =
      afterCommand major minor patch s := by
    unfold afterCommand
    by_cases ht : cmdAt s.bytes s.pos = LC_ID_DYLIB
    · rw [if_pos ht, idDylib_seek _ _ _ _ _ _ rfl rfl]
      by_cases h24 : s.pos + 24 ≤ s.bytes.length
      · simp [ht, h24, patchAt]
      · simp [ht, h24]
    · simp [ht, FStream.seek]
  have ht : s.tellg = s.pos := by simp [FStream.tellg, hf]
  simp only [loadCommands, sizeofLoadCommand, read_eq_of_ok s 8 hf hn, ht]
  simp only [cmdAt, cmdsizeAt, sizeofLoadCommand] at hs ⊢
  rw [hs]
  split_ifs <;> rfl

/-- A message the architecture loop can print. -/
theorem loadCommands_out (major minor patch : Int) (arch n : Nat) (s : FStream) :
    ∀ x ∈ (loadCommands major minor patch arch n s).out,
      x = .loadCommandReadFailed ∨ x = .idDylibFound ∨ x = .versionPatched ∨
        ∃ t c w, x = .versions t c w := by
  induction n generalizing s with
  | zero => intro x hx; simp [loadCommands_zero] at hx
  | succ n ih =>
    intro x hx
    by_cases hok : s.fail = false ∧ s.pos + 8 ≤ s.bytes.length
    · rw [loadCommands_succ_out _ _ _ _ _ _ hok.1 hok.2] at hx
      rcases List.mem_append.1 hx with h | h
      · split_ifs at h with hc
        · rw [idDylib_out] at h
          simp only [List.mem_append, List.mem_cons, List.mem_singleton, List.not_mem_nil,
            or_false] at h
          rcases h with (h | h) | h
          · exact Or.inr (Or.inl h)
          · exact Or.inr (Or.inr (Or.inr ⟨_, _, _, h⟩))
          · split_ifs at h
            · simp only [List.mem_singleton] at h
              exact Or.inr (Or.inr (Or.inl h))
            · simp at h
        · simp at h
      · exact ih _ x h
    · rw [loadCommands_succ_short _ _ _ _ _ _ hok] at hx
      simp only [List.mem_singleton] at hx
      exact Or.inl hx

theorem printCPUType_eq (cpuType cpuSubType : Int) :
    ∃ name, printCPUType cpuType cpuSubType = .cpu name cpuSubType := by
  unfold printCPUType
  split_ifs <;> exact ⟨_, rfl⟩

theorem archNumbers_append (xs ys : List Msg) :
    archNumbers (xs ++ ys) = archNumbers xs ++ archNumbers ys := by
  simp [archNumbers, List.filterMap_append]

theorem archNumbers_loadCommands (major minor patch : Int) (arch n : Nat) (s : FStream) :
    archNumbers (loadCommands major minor patch arch n s).out = [] := by
  unfold archNumbers
  rw [List.filterMap_eq_nil_iff]
  intro x hx
  rcases loadCommands_out major minor patch arch n s x hx with h | h | h | ⟨t, c, w, h⟩ <;>
    subst h <;> rfl

theorem archBody_archNumbers (major minor patch : Int) (arch : List Nat) (k : Nat)
    (s : FStream) : archNumbers (archBody major minor patch arch k s).out = [k] := by
  obtain ⟨name, hn⟩ := printCPUType_eq (toInt32 (ntohl (field arch 0)))
    (toInt32 (ntohl (field arch 4)))
  by_cases hok : s.fail = false ∧ ntohl (field arch 8) + 28 ≤ s.bytes.length
  · by_cases hm : magicAt s.bytes (ntohl (field arch 8)) ≠ MH_MAGIC ∧
        magicAt s.bytes (ntohl (field arch 8)) ≠ MH_MAGIC_64
    · rw [archBody_badMagic _ _ _ _ _ _ hok.1 hok.2 hm, hn]
      rfl
    · rw [archBody_ok _ _ _ _ _ _ hok.1 hok.2 hm, hn, archNumbers_append,
        archNumbers_loadCommands]
      rfl
  · obtain ⟨-, -, -, -, -, h6⟩ := archBody_short major minor patch arch k s hok
    rw [h6, hn]
    rfl

theorem archLoop_archNumbers (major minor patch : Int) (archs : List (List Nat)) (k : Nat)
    (s : FStream) (hr : (archLoop major minor patch archs k s).returned = false) :
    archNumbers (archLoop major minor patch archs k s).out = List.range' k archs.length := by
  induction archs generalizing k s with
  | nil => rfl
  | cons arch rest ih =>
    cases hb : (archBody major minor patch arch k s).returned
    · rw [archLoop_cons_continue _ _ _ _ _ _ _ hb] at hr ⊢
      simp only [archNumbers_append, archBody_archNumbers, ih _ _ hr, List.length_cons,
        List.range'_succ, List.singleton_append]
    · rw [archLoop_cons_returned _ _ _ _ _ _ _ hb, hb] at hr
      simp at hr

theorem readArchs_length (n : Nat) (s : FStream) (archs : List (List Nat))
    (h : (readArchs n s).2 = some archs) : archs.length = n := by
  induction n generalizing s archs with
  | zero =>
    simp only [readArchs, Option.some.injEq] at h
    subst h; rfl
  | succ n ih =>
    simp only [readArchs] at h
    split at h
    · simp at h
    · simp only [Option.map_eq_some'] at h
      obtain ⟨as, h1, h2⟩ := h
      subst h2
      simp [ih _ _ h1]

theorem readArchs_none_of_short (n : Nat) (s : FStream) (hp : s.pos ≤ s.bytes.length)
    (hs : s.bytes.length < s.pos + 20 * n) : (readArchs n s).2 = none := by
  induction n generalizing s with
  | zero => omega
  | succ n ih =>
    simp only [readArchs, sizeofFatArch]
    by_cases hok : s.fail = false ∧ s.pos + 20 ≤ s.bytes.length
    · rw [read_eq_of_ok s 20 hok.1 hok.2]
      simp only
      rw [ih _ (by simpa using hok.2) (by simp only; omega)]
      rfl
    · rw [read_none_of_not_ok s 20 hok]

/-! ## Numbering of the ghost records -/

theorem loadCommands_arch (major minor patch : Int) (arch n : Nat) (s : FStream) :
    ∀ v ∈ (loadCommands major minor patch arch n s).visits, v.arch = arch := by
  induction n generalizing s with
  | zero => intro v hv; simp [loadCommands_zero] at hv
  | succ n ih =>
    intro v hv
    by_cases hok : s.fail = false ∧ s.pos + 8 ≤ s.bytes.length
    · rw [(loadCommands_succ_ok major minor patch arch n s hok.1 hok.2).2.1] at hv
      rcases List.mem_cons.1 hv with h | h
      · subst h; rfl
      · exact ih _ v h
    · rw [loadCommands_succ_short _ _ _ _ _ _ hok] at hv
      simp at hv

theorem archBody_arch (major minor patch : Int) (arch : List Nat) (k : Nat) (s : FStream) :
    (∀ v ∈ (archBody major minor patch arch k s).visits, v.arch = k) ∧
    (∀ sv ∈ (archBody major minor patch arch k s).slices, sv.arch = k) := by
  by_cases hok : s.fail = false ∧ ntohl (field arch 8) + 28 ≤ s.bytes.length
  · by_cases hm : magicAt s.bytes (ntohl (field arch 8)) ≠ MH_MAGIC ∧
        magicAt s.bytes (ntohl (field arch 8)) ≠ MH_MAGIC_64
    · rw [archBody_badMagic _ _ _ _ _ _ hok.1 hok.2 hm]
      simp
    · rw [archBody_ok _ _ _ _ _ _ hok.1 hok.2 hm]
      exact ⟨loadCommands_arch _ _ _ _ _ _, by simp⟩
  · obtain ⟨-, -, h3, h4, -, -⟩ := archBody_short major minor patch arch k s hok
    rw [h3, h4]
    simp

theorem archLoop_arch (major minor patch : Int) (archs : List (List Nat)) (k : Nat)
    (s : FStream) :
    ∀ sv ∈ (archLoop major minor patch archs k s).slices, k ≤ sv.arch := by
  induction archs generalizing k s with
  | nil => intro sv hsv; simp [archLoop_nil] at hsv
  | cons arch rest ih =>
    intro sv hsv
    cases hb : (archBody major minor patch arch k s).returned
    · rw [archLoop_cons_continue _ _ _ _ _ _ _ hb] at hsv
      rcases List.mem_append.1 hsv with h | h
      · exact le_of_eq ((archBody_arch major minor patch arch k s).2 sv h).symm
      · exact Nat.le_of_succ_le (ih _ _ sv h)
    · rw [archLoop_cons_returned _ _ _ _ _ _ _ hb] at hsv
      exact le_of_eq ((archBody_arch major minor patch arch k s).2 sv hsv).symm

theorem archBody_out (major minor patch : Int) (arch : List Nat) (k : Nat) (s : FStream) :
    ∀ x ∈ (archBody major minor patch arch k s).out,
      x ≠ .notFatBinary ∧ x ≠ .archReadFailed ∧ ∀ n, x ≠ .numberOfArchitectures n := by
  obtain ⟨name, hn⟩ := printCPUType_eq (toInt32 (ntohl (field arch 0)))
    (toInt32 (ntohl (field arch 4)))
  intro x hx
  by_cases hok : s.fail = false ∧ ntohl (field arch 8) + 28 ≤ s.bytes.length
  · by_cases hm : magicAt s.bytes (ntohl (field arch 8)) ≠ MH_MAGIC ∧
        magicAt s.bytes (ntohl (field arch 8)) ≠ MH_MAGIC_64
    · rw [archBody_badMagic _ _ _ _ _ _ hok.1 hok.2 hm, hn] at hx
      simp only [List.mem_cons, List.mem_singleton, List.not_mem_nil, or_false] at hx
      rcases hx with h | h | h <;> subst h <;> simp
    · rw [archBody_ok _ _ _ _ _ _ hok.1 hok.2 hm, hn] at hx
      simp only [List.mem_append, List.mem_cons, List.mem_singleton, List.not_mem_nil,
        or_false] at hx
      rcases hx with (h | h | h) | h
      · subst h; simp
      · subst h; simp
      · subst h; simp
      · rcases loadCommands_out _ _ _ _ _ _ x h with e | e | e | ⟨t, c, w, e⟩ <;>
          subst e <;> simp
  · obtain ⟨-, -, -, -, -, h6⟩ := archBody_short major minor patch arch k s hok
    rw [h6, hn] at hx
    simp only [List.mem_cons, List.mem_singleton, List.not_mem_nil, or_false] at hx
    rcases hx with h | h | h <;> subst h <;> simp

theorem archLoop_out (major minor patch : Int) (archs : List (List Nat)) (k : Nat)
    (s : FStream) :
    ∀ x ∈ (archLoop major minor patch archs k s).out,
      x ≠ .notFatBinary ∧ x ≠ .archReadFailed ∧ ∀ n, x ≠ .numberOfArchitectures n := by
  induction archs generalizing k s with
  | nil => intro x hx; simp [archLoop_nil] at hx
  | cons arch rest ih =>
    intro x hx
    cases hb : (archBody major minor patch arch k s).returned
    · rw [archLoop_cons_continue _ _ _ _ _ _ _ hb] at hx
      rcases List.mem_append.1 hx with h | h
      · exact archBody_out _ _ _ _ _ _ x h
      · exact ih _ _ x h
    · rw [archLoop_cons_returned _ _ _ _ _ _ _ hb] at hx
      exact archBody_out _ _ _ _ _ _ x hx

/-! ## An image header with an unknown magic number -/

theorem archBody_bad (major minor patch : Int) (arch : List Nat) (k : Nat) (s : FStream)
    (sv : SliceVisit) (hsv : sv ∈ (archBody major minor patch arch k s).slices)
    (hbad : sv.magic ≠ MH_MAGIC ∧ sv.magic ≠ MH_MAGIC_64) :
    (archBody major minor patch arch k s).returned = true ∧
    (∃ pre, (archBody major minor patch arch k s).out = pre ++ [.notMachO]) ∧
    (archBody major minor patch arch k s).slices = [sv] ∧
    (archBody major minor patch arch k s).visits = [] ∧
    (archBody major minor patch arch k s).file.fail = false ∧
    (archBody major minor patch arch k s).file.pos = sv.offset + 28 := by
  by_cases hok : s.fail = false ∧ ntohl (field arch 8) + 28 ≤ s.bytes.length
  · by_cases hm : magicAt s.bytes (ntohl (field arch 8)) ≠ MH_MAGIC ∧
        magicAt s.bytes (ntohl (field arch 8)) ≠ MH_MAGIC_64
    · rw [archBody_badMagic _ _ _ _ _ _ hok.1 hok.2 hm] at hsv ⊢
      simp only [List.mem_singleton] at hsv
      subst hsv
      exact ⟨rfl, ⟨[_, _], rfl⟩, rfl, rfl, rfl, rfl⟩
    · rw [archBody_ok _ _ _ _ _ _ hok.1 hok.2 hm] at hsv
      simp only [List.mem_singleton] at hsv
      subst hsv
      exact absurd hbad hm
  · obtain ⟨-, -, h3, -, -, -⟩ := archBody_short major minor patch arch k s hok
    rw [h3] at hsv
    simp at hsv

theorem archLoop_bad (major minor patch : Int) (archs : List (List Nat)) (k : Nat)
    (s : FStream) (sv : SliceVisit)
    (hsv : sv ∈ (archLoop major minor patch archs k s).slices)
    (hbad : sv.magic ≠ MH_MAGIC ∧ sv.magic ≠ MH_MAGIC_64) :
    (archLoop major minor patch archs k s).returned = true ∧
    (∃ pre, (archLoop major minor patch archs k s).out = pre ++ [.notMachO]) ∧
    (∃ pre, (archLoop major minor patch archs k s).slices = pre ++ [sv]) ∧
    (∀ v ∈ (archLoop major minor patch archs k s).visits, v.arch < sv.arch) ∧
    (archLoop major minor patch archs k s).file.fail = false ∧
    (archLoop major minor patch archs k s).file.pos = sv.offset + 28 := by
  induction archs generalizing k s with
  | nil => simp [archLoop_nil] at hsv
  | cons arch rest ih =>
    cases hb : (archBody major minor patch arch k s).returned
    · rw [archLoop_cons_continue _ _ _ _ _ _ _ hb] at hsv ⊢
      rcases List.mem_append.1 hsv with h | h
      · have := (archBody_bad major minor patch arch k s sv h hbad).1
        rw [hb] at this
        simp at this
      · obtain ⟨i1, ⟨pre, i2⟩, ⟨pre', i3⟩, i4, i5, i6⟩ := ih _ _ h
        refine ⟨i1, ⟨(archBody major minor patch arch k s).out ++ pre,
            by simp only [i2, List.append_assoc]⟩,
          ⟨(archBody major minor patch arch k s).slices ++ pre',
            by simp only [i3, List.append_assoc]⟩, ?_, i5, i6⟩
        intro v hv
        rcases List.mem_append.1 hv with hv | hv
        · have h1 := (archBody_arch major minor patch arch k s).1 v hv
          have h2 := archLoop_arch _ _ _ _ _ _ sv h
          omega
        · exact i4 v hv
    · rw [archLoop_cons_returned _ _ _ _ _ _ _ hb] at hsv ⊢
      obtain ⟨b1, b2, b3, b4, b5, b6⟩ := archBody_bad major minor patch arch k s sv hsv hbad
      refine ⟨b1, b2, ⟨[], by simp [b3]⟩, ?_, b5, b6⟩
      rw [b4]
      simp

/-- C7: when a run reads an image header whose magic number, taken in host byte order, is
neither `MH_MAGIC` nor `MH_MAGIC_64`, it returns with "Not a valid Mach-O file" as its last
line; that slice is the last one it touched, the stream stays right behind the 28 header
bytes, no load command of that slice or a later one was read, and every byte of the file
that differs from the input lies in the version field of an `LC_ID_DYLIB` command of an
earlier slice. -/
theorem badImageMagic_aborts (bytes : List Nat) (major minor patch : Int) (sv : SliceVisit)
    (hsv : sv ∈ (parseFatBinary bytes major minor patch).slices)
    (hbad : sv.magic ≠ MH_MAGIC ∧ sv.magic ≠ MH_MAGIC_64) :
    (parseFatBinary bytes major minor patch).returned = true ∧
    (∃ pre, (parseFatBinary bytes major minor patch).out = pre ++ [.notMachO]) ∧
    (∃ pre, (parseFatBinary bytes major minor patch).slices = pre ++ [sv]) ∧
    (∀ v ∈ (parseFatBinary bytes major minor patch).visits, v.arch < sv.arch) ∧
    ((parseFatBinary bytes major minor patch).file.fail = false ∧
      (parseFatBinary bytes major minor patch).file.pos = sv.offset + 28) ∧
    (∀ i, (parseFatBinary bytes major minor patch).file.bytes[i]? ≠ bytes[i]? →
      ∃ v ∈ (parseFatBinary bytes major minor patch).visits,
        v.arch < sv.arch ∧ v.cmd = LC_ID_DYLIB ∧ v.base + 16 ≤ i ∧ i < v.base + 20) := by
  have main : (parseFatBinary bytes major minor patch).returned = true ∧
      (∃ pre, (parseFatBinary bytes major minor patch).out = pre ++ [.notMachO]) ∧
      (∃ pre, (parseFatBinary bytes major minor patch).slices = pre ++ [sv]) ∧
      (∀ v ∈ (parseFatBinary bytes major minor patch).visits, v.arch < sv.arch) ∧
      ((parseFatBinary bytes major minor patch).file.fail = false ∧
        (parseFatBinary bytes major minor patch).file.pos = sv.offset + 28) := by
    by_cases h8 : 8 ≤ bytes.length
    · by_cases hm : ntohl (field bytes 0) = FAT_MAGIC
      · cases hr : (readArchs (ntohl (field bytes 4)) ⟨bytes, 8, false⟩).2 with
        | none =>
          rw [parseFatBinary_noTable bytes _ _ _ h8 hm hr] at hsv
          simp at hsv
        | some archs =>
          rw [parseFatBinary_table bytes _ _ _ h8 hm archs hr] at hsv ⊢
          obtain ⟨a1, ⟨pre, a2⟩, a3, a4, a5, a6⟩ := archLoop_bad _ _ _ _ _ _ sv hsv hbad
          exact ⟨a1, ⟨Msg.numberOfArchitectures (ntohl (field bytes 4)) :: pre,
            by simp only [a2, List.cons_append]⟩, a3, a4, a5, a6⟩
      · rw [parseFatBinary_badMagic bytes _ _ _ h8 hm] at hsv
        simp at hsv
    · rw [parseFatBinary_short bytes _ _ _ h8] at hsv
      simp at hsv
  obtain ⟨m1, m2, m3, m4, m5⟩ := main
  refine ⟨m1, m2, m3, m4, m5, ?_⟩
  intro i hi
  by_contra hno
  apply hi
  rw [parseFatBinary_bytes]
  apply applyPatches_getElem?_of_outside
  rintro ⟨b, hb, h1, h2⟩
  obtain ⟨-, v, hv, hid, rfl⟩ := (mem_patchSites _ _ _).1 hb
  exact hno ⟨v, hv, m4 v hv, hid, h1, h2⟩

/-- C8: the run prints "Not a valid fat binary" exactly when the file is shorter than the
eight bytes of the container header or its first four bytes, read big-endian, are not
`0xCAFEBABE`; it is then the only line printed, the run returns at once with the stream no
further than byte 8 (no descriptor read), no slice or command visited and the file
unchanged, whatever `major`, `minor` and `patch` are. -/
theorem fatMagic_gate (bytes : List Nat) (major minor patch : Int) :
    (Msg.notFatBinary ∈ (parseFatBinary bytes major minor patch).out ↔
      (bytes.length < 8 ∨ ntohl (field bytes 0) ≠ FAT_MAGIC)) ∧
    ((bytes.length < 8 ∨ ntohl (field bytes 0) ≠ FAT_MAGIC) →
      (parseFatBinary bytes major minor patch).out = [.notFatBinary] ∧
      (parseFatBinary bytes major minor patch).returned = true ∧
      (parseFatBinary bytes major minor patch).file.pos ≤ 8 ∧
      (parseFatBinary bytes major minor patch).slices = [] ∧
      (parseFatBinary bytes major minor patch).visits = [] ∧
      (parseFatBinary bytes major minor patch).file.bytes = bytes) := by
  by_cases h8 : 8 ≤ bytes.length
  · by_cases hm : ntohl (field bytes 0) = FAT_MAGIC
    · have hc : ¬ (bytes.length < 8 ∨ ntohl (field bytes 0) ≠ FAT_MAGIC) := by
        rintro (h | h)
        · omega
        · exact h hm
      refine ⟨iff_of_false ?_ hc, fun h => absurd h hc⟩
      cases hr : (readArchs (ntohl (field bytes 4)) ⟨bytes, 8, false⟩).2 with
      | none =>
        rw [parseFatBinary_noTable bytes _ _ _ h8 hm hr]
        simp
      | some archs =>
        rw [parseFatBinary_table bytes _ _ _ h8 hm archs hr]
        intro hx
        rcases List.mem_cons.1 hx with h | h
        · simp at h
        · exact (archLoop_out _ _ _ _ _ _ _ h).1 rfl
    · rw [parseFatBinary_badMagic bytes _ _ _ h8 hm]
      exact ⟨iff_of_true (by simp) (Or.inr hm), fun _ => ⟨rfl, rfl, le_refl _, rfl, rfl, rfl⟩⟩
  · rw [parseFatBinary_short bytes _ _ _ h8]
    exact ⟨iff_of_true (by simp) (Or.inl (by omega)),
      fun _ => ⟨rfl, rfl, by simp only; omega, rfl, rfl, rfl⟩⟩

/-- C9: when the container header is valid and the file is shorter than 8 + 20 * nfat_arch
bytes, the run prints the architecture count and "Failed to read architecture information",
returns, has parsed no slice and no load command, and leaves the file unchanged. -/
theorem truncatedTable_fails (bytes : List Nat) (major minor patch : Int)
    (h8 : 8 ≤ bytes.length) (hm : ntohl (field bytes 0) = FAT_MAGIC)
    (ht : bytes.length < 8 + 20 * ntohl (field bytes 4)) :
    (parseFatBinary bytes major minor patch).out =
      [.numberOfArchitectures (ntohl (field bytes 4)), .archReadFailed] ∧
    (parseFatBinary bytes major minor patch).returned = true ∧
    (parseFatBinary bytes major minor patch).slices = [] ∧
    (parseFatBinary bytes major minor patch).visits = [] ∧
    (parseFatBinary bytes major minor patch).file.bytes = bytes := by
  have hr := readArchs_none_of_short (ntohl (field bytes 4)) ⟨bytes, 8, false⟩ h8 ht
  rw [parseFatBinary_noTable bytes _ _ _ h8 hm hr]
  exact ⟨rfl, rfl, rfl, rfl, readArchs_bytes _ _⟩

theorem table_of_completed (bytes : List Nat) (major minor patch : Int)
    (hr : (parseFatBinary bytes major minor patch).returned = false) :
    8 ≤ bytes.length ∧ ntohl (field bytes 0) = FAT_MAGIC ∧
      ∃ archs, (readArchs (ntohl (field bytes 4)) ⟨bytes, 8, false⟩).2 = some archs := by
  by_cases h8 : 8 ≤ bytes.length
  · by_cases hm : ntohl (field bytes 0) = FAT_MAGIC
    · cases ht : (readArchs (ntohl (field bytes 4)) ⟨bytes, 8, false⟩).2 with
      | none =>
        rw [parseFatBinary_noTable bytes _ _ _ h8 hm ht] at hr
        simp at hr
      | some archs => exact ⟨h8, hm, archs, rfl⟩
    · rw [parseFatBinary_badMagic bytes _ _ _ h8 hm] at hr
      simp at hr
  · rw [parseFatBinary_short bytes _ _ _ h8] at hr
    simp at hr

/-- C10: on a well-formed container a run in any mode prints the declared count and then
exactly the lines "Architecture #1" to "Architecture #nfat_arch", in this order, and ends
without an error; when the declared count is zero the count is the only line printed and the
file is unchanged. -/
theorem architectures_reported (bytes : List Nat) (major minor patch : Int)
    (hwf : WellFormed bytes) :
    archNumbers (parseFatBinary bytes major minor patch).out =
      List.range' 1 (ntohl (field bytes 4)) ∧
    (archNumbers (parseFatBinary bytes major minor patch).out).length =
      ntohl (field bytes 4) ∧
    (parseFatBinary bytes major minor patch).out.head? =
      some (.numberOfArchitectures (ntohl (field bytes 4))) ∧
    (parseFatBinary bytes major minor patch).returned = false ∧
    (ntohl (field bytes 4) = 0 →
      (parseFatBinary bytes major minor patch).out = [.numberOfArchitectures 0] ∧
      (parseFatBinary bytes major minor patch).file.bytes = bytes) := by
  obtain ⟨-, -, w3⟩ := wellFormed_walk bytes major minor patch hwf
  obtain ⟨h8, hm, archs, ht⟩ := table_of_completed bytes major minor patch w3
  have hlen := readArchs_length _ _ _ ht
  have hnum : archNumbers (parseFatBinary bytes major minor patch).out =
      List.range' 1 (ntohl (field bytes 4)) := by
    rw [parseFatBinary_table bytes _ _ _ h8 hm archs ht] at w3 ⊢
    have := archLoop_archNumbers _ _ _ _ _ _ w3
    rw [hlen] at this
    rw [← this]
    rfl
  refine ⟨hnum, by rw [hnum, List.length_range'], ?_, w3, ?_⟩
  · rw [parseFatBinary_table bytes _ _ _ h8 hm archs ht]
    rfl
  · intro h0
    have ha : archs = [] := List.eq_nil_of_length_eq_zero (hlen.trans h0)
    subst ha
    rw [parseFatBinary_table bytes _ _ _ h8 hm [] ht, h0]
    rw [h0] at ht
    simp only [archLoop_nil, true_and]
    have := readArchs_bytes 0 ⟨bytes, 8, false⟩
    exact this

/-- C1, the claim as stated fails: the scenario container is well-formed, a patch run with
the triple (256, 0, 0) visits the `LC_ID_DYLIB` command at 76, and the value re-read at
76 + 16 is `0x01000000`, while the packed value cut to 24 bits is 0. -/
theorem roundTrip_truncated24_counterexample :
    WellFormed scenarioFile ∧ (0 : Int) ≤ 256 ∧
    (⟨1, 76, LC_ID_DYLIB, 24⟩ : Visit) ∈ (parseFatBinary scenarioFile 256 0 0).visits ∧
    le32 (field (parseFatBinary scenarioFile 256 0 0).file.bytes (76 + 16)) = 16777216 ∧
    packVersion 256 0 0 % 16777216 = 0 := by
  decide

/-- C1, witness: the amended round trip on the scenario container with the triple
(256, 0, 0). -/
theorem roundTrip_currentVersion_witness :
    WellFormed scenarioFile ∧ (0 : Int) ≤ 256 ∧
    ∀ v ∈ (parseFatBinary scenarioFile 256 0 0).visits, v.cmd = LC_ID_DYLIB →
      le32 (field (parseFatBinary scenarioFile 256 0 0).file.bytes (v.base + 16)) =
        packVersion 256 0 0 :=
  ⟨by decide, by decide, roundTrip_currentVersion scenarioFile 256 0 0 (by decide) (by decide)⟩

/-- C2, witness: the scenario of the specification. The container is well-formed, its
second command is an `LC_ID_DYLIB` at 76 with current version `0x00010203`, and the patch
run with 2.0.0 leaves `0x00020000` in bytes 92..95 and every other byte as it was. -/
theorem patch_frame_scenario :
    WellFormed scenarioFile ∧ (0 : Int) ≤ 2 ∧
    ((parseFatBinary scenarioFile 2 0 0).file.bytes.length = scenarioFile.length ∧
      (∀ i, (¬ ∃ v ∈ (parseFatBinary scenarioFile 2 0 0).visits,
            v.cmd = LC_ID_DYLIB ∧ v.base + 16 ≤ i ∧ i < v.base + 20) →
          (parseFatBinary scenarioFile 2 0 0).file.bytes[i]? = scenarioFile[i]?) ∧
      (∀ v ∈ (parseFatBinary scenarioFile 2 0 0).visits, ∀ i, v.base ≤ i → i < v.base + 8 →
          (parseFatBinary scenarioFile 2 0 0).file.bytes[i]? = scenarioFile[i]?)) ∧
    (parseFatBinary scenarioFile 2 0 0).visits =
      [⟨1, 60, LC_SYMTAB, 16⟩, ⟨1, 76, LC_ID_DYLIB, 24⟩, ⟨1, 100, LC_UNIXTHREAD, 16⟩] ∧
    le32 (field scenarioFile (76 + 16)) = 0x00010203 ∧
    le32 (field (parseFatBinary scenarioFile 2 0 0).file.bytes (76 + 16)) = 0x00020000 ∧
    (parseFatBinary scenarioFile 2 0 0).file.bytes =
      scenarioFile.take 92 ++ [0, 0, 2, 0] ++ scenarioFile.drop 96 :=
  ⟨by decide, by decide, patch_frame scenarioFile 2 0 0 (by decide) (by decide), by decide,
    by decide, by decide, by decide⟩

/-- C3, the claim as stated fails: on the container with two overlapping slices a second
patch run with the triple (0, 0, 12) changes bytes 116..119 that the first run left alone. -/
theorem patch_idempotent_counterexample :
    (parseFatBinary (parseFatBinary overlapFile 0 0 12).file.bytes 0 0 12).file.bytes ≠
      (parseFatBinary overlapFile 0 0 12).file.bytes ∧
    field (parseFatBinary overlapFile 0 0 12).file.bytes 116 = [0, 0, 0, 0] ∧
    field (parseFatBinary (parseFatBinary overlapFile 0 0 12).file.bytes 0 0 12).file.bytes 116 =
      [12, 0, 0, 0] := by
  decide

/-- C3, witness: idempotence on the scenario container with the triple 2.0.0. -/
theorem patch_idempotent_witness :
    WellFormed scenarioFile ∧
    (parseFatBinary (parseFatBinary scenarioFile 2 0 0).file.bytes 2 0 0).file.bytes =
      (parseFatBinary scenarioFile 2 0 0).file.bytes :=
  ⟨by decide, patch_idempotent scenarioFile 2 0 0 (by decide)⟩

/-- C4, witness: with the default `major = -1` the scenario container is left as it was,
also with `minor` and `patch` given, whereas `major = 0` does patch it. -/
theorem readOnly_unchanged_witness :
    (-1 : Int) < 0 ∧ (parseFatBinary scenarioFile (-1) 7 9).file.bytes = scenarioFile ∧
    (parseFatBinary scenarioFile 0 0 0).file.bytes ≠ scenarioFile :=
  ⟨by decide, readOnly_unchanged scenarioFile (-1) 7 9 (by decide), by decide⟩

/-- C5, the claim as stated fails: for the triple (0, 256, 0) the program writes `0x10000`
(the minor part spills into the major byte), as the patched scenario container shows, while
the packing with every part cut to a byte gives 0. -/
theorem packTruncated_counterexample :
    (0 : Int) ≤ 0 ∧ packVersion 0 256 0 = 65536 ∧ packTruncated 0 256 0 = 0 ∧
    le32 (field (parseFatBinary scenarioFile 0 256 0).file.bytes (76 + 16)) = 65536 := by
  decide

/-- C5, witness: the triple (1, 2, 3) packs to `0x00010203`. -/
theorem packVersion_inRange_witness :
    packVersion 1 2 3 = packTruncated 1 2 3 ∧
    packVersion 1 2 3 = (1 : Int).toNat * 65536 + (2 : Int).toNat * 256 + (3 : Int).toNat :=
  packVersion_inRange 1 2 3 (by decide) (by decide) (by decide) (by decide) (by decide)
    (by decide)

/-- C7, witness: in the two-slice container the header of the second slice has magic 0; the
run returns there, having patched the first slice only. -/
theorem badImageMagic_aborts_witness :
    (⟨2, 100, 0, 0⟩ : SliceVisit) ∈ (parseFatBinary badSecondSliceFile 2 0 0).slices ∧
    (parseFatBinary badSecondSliceFile 2 0 0).returned = true ∧
    (parseFatBinary badSecondSliceFile 2 0 0).file.pos = 100 + 28 :=
  ⟨by decide,
    (badImageMagic_aborts badSecondSliceFile 2 0 0 ⟨2, 100, 0, 0⟩ (by decide) (by decide)).1,
    (badImageMagic_aborts badSecondSliceFile 2 0 0 ⟨2, 100, 0, 0⟩ (by decide)
      (by decide)).2.2.2.2.1.2⟩

/-- C8, witness: a file of three bytes and a file with a wrong magic number are both
rejected with the single line "Not a valid fat binary", while the scenario container is not. -/
theorem fatMagic_gate_witness :
    (parseFatBinary [0xca, 0xfe, 0xba] 2 0 0).out = [.notFatBinary] ∧
    (parseFatBinary [0xbe, 0xba, 0xfe, 0xca, 0, 0, 0, 0] 2 0 0).out = [.notFatBinary] ∧
    Msg.notFatBinary ∉ (parseFatBinary scenarioFile 2 0 0).out :=
  ⟨((fatMagic_gate [0xca, 0xfe, 0xba] 2 0 0).2 (by decide)).1,
    ((fatMagic_gate [0xbe, 0xba, 0xfe, 0xca, 0, 0, 0, 0] 2 0 0).2 (by decide)).1,
    fun h => absurd ((fatMagic_gate scenarioFile 2 0 0).1.1 h) (by decide)⟩

/-- C9, witness: the container that declares two descriptors and holds one and a half. -/
theorem truncatedTable_fails_witness :
    8 ≤ truncatedTableFile.length ∧ ntohl (field truncatedTableFile 0) = FAT_MAGIC ∧
    truncatedTableFile.length < 8 + 20 * ntohl (field truncatedTableFile 4) ∧
    (parseFatBinary truncatedTableFile 2 0 0).out =
      [.numberOfArchitectures 2, .archReadFailed] ∧
    (parseFatBinary truncatedTableFile 2 0 0).slices = [] :=
  ⟨by decide, by decide, by decide,
    (truncatedTable_fails truncatedTableFile 2 0 0 (by decide) (by decide) (by decide)).1,
    (truncatedTable_fails truncatedTableFile 2 0 0 (by decide) (by decide) (by decide)).2.2.1⟩

/-- C10, witness: the scenario container reports its one architecture, the container
without descriptors reports none and is well-formed too. -/
theorem architectures_reported_witness :
    WellFormed scenarioFile ∧ archNumbers (parseFatBinary scenarioFile 2 0 0).out = [1] ∧
    WellFormed emptyContainer ∧
    (parseFatBinary emptyContainer 2 0 0).out = [.numberOfArchitectures 0] :=
  ⟨by decide, (architectures_reported scenarioFile 2 0 0 (by decide)).1.trans (by decide),
    by decide, ((architectures_reported emptyContainer 2 0 0 (by decide)).2.2.2.2 (by decide)).1⟩

/-! # Theorems on the rest of the specification -/

/-- C11, the code at the failing input: in the container that ends eight bytes into its
`LC_ID_DYLIB` command, a patch run with 1.0.0 reads the `load_command` record, fails the
four unchecked payload reads, still prints the version line (with unset values) and
"version patched", writes nothing, and ends without a `return` and without an error line. -/
theorem shortPayload_not_fatal :
    (parseFatBinary truncatedIdFile 1 0 0).out =
      [.numberOfArchitectures 1, .architecture 1, .cpu .x86 3, .numberOfLoadCommands 1,
        .idDylibFound, .versions none none none, .versionPatched] ∧
    (parseFatBinary truncatedIdFile 1 0 0).returned = false ∧
    (parseFatBinary truncatedIdFile 1 0 0).file.fail = true ∧
    (parseFatBinary truncatedIdFile 1 0 0).file.bytes = truncatedIdFile := by
  decide

theorem applyPatches_changed (v : Nat) (sites : List Nat) (bs : List Nat) (i : Nat)
    (h : (applyPatches v sites bs)[i]? ≠ bs[i]?) :
    ∃ b ∈ sites, b + 16 ≤ i ∧ i < b + 20 ∧ b + 24 ≤ bs.length := by
  induction sites generalizing bs with
  | nil => exact absurd rfl h
  | cons b rest ih =>
    rw [applyPatches_cons] at h
    by_cases hc : (applyPatches v rest (patchAt v bs b))[i]? = (patchAt v bs b)[i]?
    · rw [hc] at h
      refine ⟨b, List.mem_cons_self _ _, ?_⟩
      by_cases hin : b + 16 ≤ i ∧ i < b + 20
      · refine ⟨hin.1, hin.2, ?_⟩
        by_contra hl
        apply h
        unfold patchAt
        rw [if_neg hl]
      · exact absurd (patchAt_getElem?_of_outside v bs b i hin) h
    · obtain ⟨c, hc1, hc2, hc3, hc4⟩ := ih _ hc
      rw [patchAt_length] at hc4
      exact ⟨c, List.mem_cons_of_mem _ hc1, hc2, hc3, hc4⟩

/-- C14: for every input file and every triple the file has the same length after the run
as before, and every byte that changed lies in the current-version field of a visited
`LC_ID_DYLIB` command whose 24 parsed bytes are inside the file, so that no write lands at
or beyond the end of the file. -/
theorem never_resized (bytes : List Nat) (major minor patch : Int) :
    (parseFatBinary bytes major minor patch).file.bytes.length = bytes.length ∧
    (∀ i, (parseFatBinary bytes major minor patch).file.bytes[i]? ≠ bytes[i]? →
      i + 4 < bytes.length ∧ 0 ≤ major ∧
      ∃ v ∈ (parseFatBinary bytes major minor patch).visits,
        v.cmd = LC_ID_DYLIB ∧ v.base + 16 ≤ i ∧ i < v.base + 20 ∧
          v.base + 24 ≤ bytes.length) := by
  refine ⟨by rw [parseFatBinary_bytes, applyPatches_length], ?_⟩
  intro i hi
  rw [parseFatBinary_bytes] at hi
  obtain ⟨b, hb, h1, h2, h3⟩ := applyPatches_changed _ _ _ _ hi
  obtain ⟨hM, v, hv, hid, rfl⟩ := (mem_patchSites _ _ _).1 hb
  exact ⟨by omega, hM, v, hv, hid, h1, h2, h3⟩

theorem parseFatBinary_bad (bytes : List Nat) (major minor patch : Int) (sv : SliceVisit)
    (hsv : sv ∈ (parseFatBinary bytes major minor patch).slices)
    (hbad : sv.magic ≠ MH_MAGIC ∧ sv.magic ≠ MH_MAGIC_64) :
    (parseFatBinary bytes major minor patch).returned = true ∧
    (∀ v ∈ (parseFatBinary bytes major minor patch).visits, v.arch < sv.arch) := by
  by_cases h8 : 8 ≤ bytes.length
  · by_cases hm : ntohl (field bytes 0) = FAT_MAGIC
    · cases hr : (readArchs (ntohl (field bytes 4)) ⟨bytes, 8, false⟩).2 with
      | none =>
        rw [parseFatBinary_noTable bytes _ _ _ h8 hm hr] at hsv
        simp at hsv
      | some archs =>
        rw [parseFatBinary_table bytes _ _ _ h8 hm archs hr] at hsv ⊢
        obtain ⟨a1, -, -, a4, -, -⟩ := archLoop_bad _ _ _ _ _ _ sv hsv hbad
        exact ⟨a1, a4⟩
    · rw [parseFatBinary_badMagic bytes _ _ _ h8 hm] at hsv
      simp at hsv
  · rw [parseFatBinary_short bytes _ _ _ h8] at hsv
    simp at hsv

/-- C13: after a patch run with `major >= 0`, every `LC_ID_DYLIB` command that was visited
with its 24 parsed bytes in the file, and whose version field no other visited
`LC_ID_DYLIB` field cuts into, holds the new packed version, whatever happened later in the
run; in particular when the run then met an image header with an unknown magic number, it
has returned with that error, the command belongs to an earlier slice, and its write is
neither undone nor skipped. -/
theorem no_rollback (bytes : List Nat) (major minor patch : Int) (hM : 0 ≤ major) (v : Visit)
    (hv : v ∈ (parseFatBinary bytes major minor patch).visits) (hid : v.cmd = LC_ID_DYLIB)
    (hlen : v.base + 24 ≤ bytes.length)
    (hsep : ∀ w ∈ (parseFatBinary bytes major minor patch).visits, w.cmd = LC_ID_DYLIB →
      w.base = v.base ∨ w.base + 4 ≤ v.base ∨ v.base + 4 ≤ w.base) :
    le32 (field (parseFatBinary bytes major minor patch).file.bytes (v.base + 16)) =
      packVersion major minor patch ∧
    (∀ sv ∈ (parseFatBinary bytes major minor patch).slices,
      sv.magic ≠ MH_MAGIC ∧ sv.magic ≠ MH_MAGIC_64 →
        (parseFatBinary bytes major minor patch).returned = true ∧ v.arch < sv.arch) := by
  have hb : v.base ∈ patchSites major (parseFatBinary bytes major minor patch).visits :=
    (mem_patchSites _ _ _).2 ⟨hM, v, hv, hid, rfl⟩
  have hfield : field (parseFatBinary bytes major minor patch).file.bytes (v.base + 16) =
      bytesOfU32 (packVersion major minor patch) := by
    apply field_eq_of_getElem? _ _ _ (by simp [bytesOfU32])
    intro i h1 h2
    rw [parseFatBinary_bytes]
    apply applyPatches_getElem?_of_inside _ _ _ v.base i hb hlen ⟨h1, by omega⟩
    intro c hc
    obtain ⟨-, w, hw, hidw, rfl⟩ := (mem_patchSites _ _ _).1 hc
    exact hsep w hw hidw
  refine ⟨by rw [hfield, le32_bytesOfU32 _ (packVersion_lt _ _ _)], ?_⟩
  intro sv hsv hbad
  obtain ⟨b1, b2⟩ := parseFatBinary_bad bytes major minor patch sv hsv hbad
  exact ⟨b1, b2 v hv⟩

/-- C13, witness: in the two-slice container the second image header is rejected, the run
returns, and the version field of the first slice, `0x00010203` before, holds
`0x00020000`. -/
theorem no_rollback_witness :
    (⟨2, 100, 0, 0⟩ : SliceVisit) ∈ (parseFatBinary badSecondSliceFile 2 0 0).slices ∧
    (parseFatBinary badSecondSliceFile 2 0 0).returned = true ∧
    (parseFatBinary badSecondSliceFile 2 0 0).out.getLast? = some .notMachO ∧
    le32 (field badSecondSliceFile (76 + 16)) = 0x00010203 ∧
    le32 (field (parseFatBinary badSecondSliceFile 2 0 0).file.bytes (76 + 16)) = 0x00020000 :=
  ⟨by decide,
    ((no_rollback badSecondSliceFile 2 0 0 (by decide) ⟨1, 76, LC_ID_DYLIB, 24⟩
      (by decide) (by decide) (by decide) (by decide)).2 ⟨2, 100, 0, 0⟩ (by decide)
      (by decide)).1,
    by decide, by decide,
    (no_rollback badSecondSliceFile 2 0 0 (by decide) ⟨1, 76, LC_ID_DYLIB, 24⟩
      (by decide) (by decide) (by decide) (by decide)).1.trans (by decide)⟩

/-! ## The image header -/

theorem field_window (bs : List Nat) (o n off : Nat) (h : off + 4 ≤ n) :
    field ((bs.drop o).take n) off = field bs (o + off) := by
  simp only [field, List.drop_take, List.take_take, List.drop_drop]
  congr 1
  omega

theorem magicAt_eq (bs : List Nat) (o : Nat) : magicAt bs o = le32 (field bs o) := by
  unfold magicAt
  rw [sizeofMachHeader, field_window bs o 28 0 (by omega), Nat.add_zero]

theorem ncmdsAt_eq (bs : List Nat) (o : Nat) : ncmdsAt bs o = le32 (field bs (o + 16)) := by
  unfold ncmdsAt
  rw [sizeofMachHeader, field_window bs o 28 16 (by omega)]

theorem loadCommands_head (major minor patch : Int) (arch n : Nat) (s : FStream) (v : Visit)
    (h : (loadCommands major minor patch arch n s).visits.head? = some v) :
    v.base = s.pos ∧ v.arch = arch := by
  cases n with
  | zero => simp [loadCommands_zero] at h
  | succ n =>
    by_cases hok : s.fail = false ∧ s.pos + 8 ≤ s.bytes.length
    · rw [(loadCommands_succ_ok major minor patch arch n s hok.1 hok.2).2.1] at h
      simp only [List.head?_cons, Option.some.injEq] at h
      subst h
      exact ⟨rfl, rfl⟩
    · rw [loadCommands_succ_short _ _ _ _ _ _ hok] at h
      simp at h

theorem loadCommands_length_le (major minor patch : Int) (arch n : Nat) (s : FStream) :
    (loadCommands major minor patch arch n s).visits.length ≤ n := by
  induction n generalizing s with
  | zero => simp [loadCommands_zero]
  | succ n ih =>
    by_cases hok : s.fail = false ∧ s.pos + 8 ≤ s.bytes.length
    · rw [(loadCommands_succ_ok major minor patch arch n s hok.1 hok.2).2.1]
      simp only [List.length_cons]
      exact Nat.succ_le_succ (ih _)
    · rw [loadCommands_succ_short _ _ _ _ _ _ hok]
      simp

/-- C16: for a slice at offset `o` whose 28 header bytes are read and whose magic, in host
order, is `MH_MAGIC` or `MH_MAGIC_64`, the load-command loop runs with the count taken from
the host-order 32-bit field at `o + 16`, starting at `o + 28` for `MH_MAGIC` and at `o + 32`
for `MH_MAGIC_64`; so the first command read, if any, has that base. -/
theorem header_width (major minor patch : Int) (arch : List Nat) (k : Nat) (s : FStream)
    (hf : s.fail = false) (hn : ntohl (field arch 8) + 28 ≤ s.bytes.length)
    (hm : le32 (field s.bytes (ntohl (field arch 8))) = MH_MAGIC ∨
      le32 (field s.bytes (ntohl (field arch 8))) = MH_MAGIC_64) :
    (archBody major minor patch arch k s).slices =
      [⟨k, ntohl (field arch 8), le32 (field s.bytes (ntohl (field arch 8))),
        le32 (field s.bytes (ntohl (field arch 8) + 16))⟩] ∧
    (archBody major minor patch arch k s).visits =
      (loadCommands major minor patch k (le32 (field s.bytes (ntohl (field arch 8) + 16)))
        ⟨s.bytes, ntohl (field arch 8) +
          (if le32 (field s.bytes (ntohl (field arch 8))) = MH_MAGIC_64 then 32 else 28),
          false⟩).visits ∧
    (archBody major minor patch arch k s).visits.length ≤
      le32 (field s.bytes (ntohl (field arch 8) + 16)) ∧
    (∀ v, (archBody major minor patch arch k s).visits.head? = some v →
      (le32 (field s.bytes (ntohl (field arch 8))) = MH_MAGIC →
        v.base = ntohl (field arch 8) + 28) ∧
      (le32 (field s.bytes (ntohl (field arch 8))) = MH_MAGIC_64 →
        v.base = ntohl (field arch 8) + 32)) := by
  have hm' : ¬ (magicAt s.bytes (ntohl (field arch 8)) ≠ MH_MAGIC ∧
      magicAt s.bytes (ntohl (field arch 8)) ≠ MH_MAGIC_64) := by
    rw [magicAt_eq]
    rcases hm with h | h
    · exact fun hc => hc.1 h
    · exact fun hc => hc.2 h
  rw [archBody_ok _ _ _ _ _ _ hf hn hm', magicAt_eq, ncmdsAt_eq]
  simp only [headerSizeOf, sizeofMachHeader64, sizeofMachHeader, true_and]
  refine ⟨?_, ?_⟩
  · exact loadCommands_length_le _ _ _ _ _ _
  · intro v hv
    have := (loadCommands_head _ _ _ _ _ _ v hv).1
    simp only at this
    constructor
    · intro h1
      rw [this, h1]
      simp [MH_MAGIC, MH_MAGIC_64]
    · intro h1
      rw [this, h1]
      simp

/-! ## Unpacking -/

theorem packVersion_sum (a b c : Nat) (ha : a < 65536) (hb : b < 256) (hc : c < 256) :
    packVersion (a : Int) (b : Int) (c : Int) = a * 65536 + b * 256 + c := by
  have e1 : ∀ x : Nat, x < 65536 → toU32 (x : Int) = x := by
    intro x hx
    unfold toU32
    omega
  have e3 : (a <<< 16) % 4294967296 = a <<< 16 := by
    rw [Nat.shiftLeft_eq]; omega
  have e4 : (b <<< 8) % 4294967296 = b <<< 8 := by
    rw [Nat.shiftLeft_eq]; omega
  unfold packVersion
  rw [e1 a ha, e1 b (by omega), e1 c (by omega), e3, e4, lor_bytes a b c hb hc]

/-- C18: for `major` in 0..65535 and `minor`, `patch` in 0..255 the packed value `V` gives
the parts back, `V >> 16 = major`, `(V >> 8) mod 256 = minor`, `V mod 256 = patch`, so two
in-range triples that pack to the same value are equal. -/
theorem packVersion_decodes (major minor patch : Int)
    (hM0 : 0 ≤ major) (hM : major ≤ 65535) (hm0 : 0 ≤ minor) (hm : minor ≤ 255)
    (hp0 : 0 ≤ patch) (hp : patch ≤ 255) :
    ((packVersion major minor patch >>> 16 : Nat) : Int) = major ∧
    (((packVersion major minor patch >>> 8) % 256 : Nat) : Int) = minor ∧
    ((packVersion major minor patch % 256 : Nat) : Int) = patch ∧
    (∀ major' minor' patch' : Int, 0 ≤ major' → major' ≤ 65535 → 0 ≤ minor' → minor' ≤ 255 →
      0 ≤ patch' → patch' ≤ 255 →
      packVersion major' minor' patch' = packVersion major minor patch →
        major' = major ∧ minor' = minor ∧ patch' = patch) := by
  obtain ⟨a, rfl⟩ := Int.eq_ofNat_of_zero_le hM0
  obtain ⟨b, rfl⟩ := Int.eq_ofNat_of_zero_le hm0
  obtain ⟨c, rfl⟩ := Int.eq_ofNat_of_zero_le hp0
  have hV := packVersion_sum a b c (by omega) (by omega) (by omega)
  refine ⟨?_, ?_, ?_, ?_⟩
  · rw [hV, Nat.shiftRight_eq_div_pow]
    omega
  · rw [hV, Nat.shiftRight_eq_div_pow]
    omega
  · rw [hV]
    omega
  · intro M' m' p' h1 h2 h3 h4 h5 h6 hV'
    obtain ⟨a', rfl⟩ := Int.eq_ofNat_of_zero_le h1
    obtain ⟨b', rfl⟩ := Int.eq_ofNat_of_zero_le h3
    obtain ⟨c', rfl⟩ := Int.eq_ofNat_of_zero_le h5
    rw [hV, packVersion_sum a' b' c' (by omega) (by omega) (by omega)] at hV'
    omega

/-! ## Lines that are never printed -/

theorem archBody_noTag (major minor patch : Int) (arch : List Nat) (k : Nat) (s : FStream) :
    ∀ x ∈ (archBody major minor patch arch k s).out,
      (∀ name, x ≠ .loadCommandName name) ∧ ∀ c, x ≠ .unknownLoadCommand c := by
  obtain ⟨name, hn⟩ := printCPUType_eq (toInt32 (ntohl (field arch 0)))
    (toInt32 (ntohl (field arch 4)))
  intro x hx
  by_cases hok : s.fail = false ∧ ntohl (field arch 8) + 28 ≤ s.bytes.length
  · by_cases hm : magicAt s.bytes (ntohl (field arch 8)) ≠ MH_MAGIC ∧
        magicAt s.bytes (ntohl (field arch 8)) ≠ MH_MAGIC_64
    · rw [archBody_badMagic _ _ _ _ _ _ hok.1 hok.2 hm, hn] at hx
      simp only [List.mem_cons, List.mem_singleton, List.not_mem_nil, or_false] at hx
      rcases hx with h | h | h <;> subst h <;> simp
    · rw [archBody_ok _ _ _ _ _ _ hok.1 hok.2 hm, hn] at hx
      simp only [List.mem_append, List.mem_cons, List.mem_singleton, List.not_mem_nil,
        or_false] at hx
      rcases hx with (h | h | h) | h
      · subst h; simp
      · subst h; simp
      · subst h; simp
      · rcases loadCommands_out _ _ _ _ _ _ x h with e | e | e | ⟨t, c, w, e⟩ <;>
          subst e <;> simp
  · obtain ⟨-, -, -, -, -, h6⟩ := archBody_short major minor patch arch k s hok
    rw [h6, hn] at hx
    simp only [List.mem_cons, List.mem_singleton, List.not_mem_nil, or_false] at hx
    rcases hx with h | h | h <;> subst h <;> simp

theorem archLoop_noTag (major minor patch : Int) (archs : List (List Nat)) (k : Nat)
    (s : FStream) :
    ∀ x ∈ (archLoop major minor patch archs k s).out,
      (∀ name, x ≠ .loadCommandName name) ∧ ∀ c, x ≠ .unknownLoadCommand c := by
  induction archs generalizing k s with
  | nil => intro x hx; simp [archLoop_nil] at hx
  | cons arch rest ih =>
    intro x hx
    cases hb : (archBody major minor patch arch k s).returned
    · rw [archLoop_cons_continue _ _ _ _ _ _ _ hb] at hx
      rcases List.mem_append.1 hx with h | h
      · exact archBody_noTag _ _ _ _ _ _ x h
      · exact ih _ _ x h
    · rw [archLoop_cons_returned _ _ _ _ _ _ _ hb] at hx
      exact archBody_noTag _ _ _ _ _ _ x hx

/-- C15, what the code does: no run ever prints a line of `printLoadCommand`, neither a
symbolic name nor "Unknown or unhandled command"; the run on the scenario container visits
an `LC_SYMTAB` and an `LC_UNIXTHREAD` command, for which `printLoadCommand` would print
their names, and its report has no line for either. -/
theorem tagReport_absent :
    (∀ (bytes : List Nat) (major minor patch : Int),
      ∀ x ∈ (parseFatBinary bytes major minor patch).out,
        (∀ name, x ≠ .loadCommandName name) ∧ ∀ c, x ≠ .unknownLoadCommand c) ∧
    (parseFatBinary scenarioFile (-1) 0 0).visits =
      [⟨1, 60, LC_SYMTAB, 16⟩, ⟨1, 76, LC_ID_DYLIB, 24⟩, ⟨1, 100, LC_UNIXTHREAD, 16⟩] ∧
    printLoadCommand LC_SYMTAB = .loadCommandName "LC_SYMTAB" ∧
    printLoadCommand LC_UNIXTHREAD = .loadCommandName "LC_UNIXTHREAD" ∧
    (parseFatBinary scenarioFile (-1) 0 0).out =
      [.numberOfArchitectures 1, .architecture 1, .cpu .x86_64 3, .numberOfLoadCommands 3,
        .idDylibFound, .versions (some 2) (some 0x00010203) (some 0x00010000)] := by
  refine ⟨?_, by decide, by decide, by decide, by decide⟩
  intro bytes major minor patch x hx
  by_cases h8 : 8 ≤ bytes.length
  · by_cases hm : ntohl (field bytes 0) = FAT_MAGIC
    · cases hr : (readArchs (ntohl (field bytes 4)) ⟨bytes, 8, false⟩).2 with
      | none =>
        rw [parseFatBinary_noTable bytes _ _ _ h8 hm hr] at hx
        simp only [List.mem_cons, List.mem_singleton, List.not_mem_nil, or_false] at hx
        rcases hx with h | h <;> subst h <;> simp
      | some archs =>
        rw [parseFatBinary_table bytes _ _ _ h8 hm archs hr] at hx
        rcases List.mem_cons.1 hx with h | h
        · subst h; simp
        · exact archLoop_noTag _ _ _ _ _ _ x h
    · rw [parseFatBinary_badMagic bytes _ _ _ h8 hm] at hx
      simp only [List.mem_singleton] at hx
      subst hx; simp
  · rw [parseFatBinary_short bytes _ _ _ h8] at hx
    simp only [List.mem_singleton] at hx
    subst hx; simp

/-! ## Bounds on the loops -/

theorem archBody_count (major minor patch : Int) (arch : List Nat) (k : Nat) (s : FStream) :
    (archBody major minor patch arch k s).slices.length ≤ 1 ∧
    ∀ sv ∈ (archBody major minor patch arch k s).slices,
      (archBody major minor patch arch k s).visits.length ≤ sv.ncmds := by
  by_cases hok : s.fail = false ∧ ntohl (field arch 8) + 28 ≤ s.bytes.length
  · by_cases hm : magicAt s.bytes (ntohl (field arch 8)) ≠ MH_MAGIC ∧
        magicAt s.bytes (ntohl (field arch 8)) ≠ MH_MAGIC_64
    · rw [archBody_badMagic _ _ _ _ _ _ hok.1 hok.2 hm]
      simp
    · rw [archBody_ok _ _ _ _ _ _ hok.1 hok.2 hm]
      refine ⟨by simp, ?_⟩
      intro sv hsv
      simp only [List.mem_singleton] at hsv
      subst hsv
      exact loadCommands_length_le _ _ _ _ _ _
  · obtain ⟨-, -, h3, -, -, -⟩ := archBody_short major minor patch arch k s hok
    rw [h3]
    simp

theorem archLoop_visits_arch (major minor patch : Int) (archs : List (List Nat)) (k : Nat)
    (s : FStream) :
    ∀ v ∈ (archLoop major minor patch archs k s).visits, k ≤ v.arch := by
  induction archs generalizing k s with
  | nil => intro v hv; simp [archLoop_nil] at hv
  | cons arch rest ih =>
    intro v hv
    cases hb : (archBody major minor patch arch k s).returned
    · rw [archLoop_cons_continue _ _ _ _ _ _ _ hb] at hv
      rcases List.mem_append.1 hv with h | h
      · exact le_of_eq ((archBody_arch major minor patch arch k s).1 v h).symm
      · exact Nat.le_of_succ_le (ih _ _ v h)
    · rw [archLoop_cons_returned _ _ _ _ _ _ _ hb] at hv
      exact le_of_eq ((archBody_arch major minor patch arch k s).1 v hv).symm

theorem archLoop_count (major minor patch : Int) (archs : List (List Nat)) (k : Nat)
    (s : FStream) :
    (archLoop major minor patch archs k s).slices.length ≤ archs.length ∧
    ∀ sv ∈ (archLoop major minor patch archs k s).slices,
      ((archLoop major minor patch archs k s).visits.filter
        (fun v => decide (v.arch = sv.arch))).length ≤ sv.ncmds := by
  induction archs generalizing k s with
  | nil => simp [archLoop_nil]
  | cons arch rest ih =>
    obtain ⟨c1, c2⟩ := archBody_count major minor patch arch k s
    obtain ⟨a1, a2⟩ := archBody_arch major minor patch arch k s
    cases hb : (archBody major minor patch arch k s).returned
    · rw [archLoop_cons_continue _ _ _ _ _ _ _ hb]
      obtain ⟨i1, i2⟩ := ih (k + 1) (archBody major minor patch arch k s).file
      refine ⟨by simp only [List.length_append, List.length_cons]; omega, ?_⟩
      intro sv hsv
      simp only [List.filter_append, List.length_append]
      rcases List.mem_append.1 hsv with h | h
      · have e : ((archLoop major minor patch rest (k + 1)
            (archBody major minor patch arch k s).file).visits.filter
            (fun v => decide (v.arch = sv.arch))) = [] := by
          rw [List.filter_eq_nil_iff]
          intro v hv
          have h1 := archLoop_visits_arch _ _ _ _ _ _ v hv
          have h2 := a2 sv h
          simp only [decide_eq_true_eq]
          omega
        rw [e, List.length_nil, Nat.add_zero]
        exact le_trans (List.length_filter_le _ _) (c2 sv h)
      · have e : ((archBody major minor patch arch k s).visits.filter
            (fun v => decide (v.arch = sv.arch))) = [] := by
          rw [List.filter_eq_nil_iff]
          intro v hv
          have h1 := a1 v hv
          have h2 := archLoop_arch _ _ _ _ _ _ sv h
          simp only [decide_eq_true_eq]
          omega
        rw [e, List.length_nil, Nat.zero_add]
        exact i2 sv h
    · rw [archLoop_cons_returned _ _ _ _ _ _ _ hb]
      refine ⟨by simp only [List.length_cons]; omega, ?_⟩
      intro sv hsv
      exact le_trans (List.length_filter_le _ _) (c2 sv hsv)

theorem readArchs_pos (n : Nat) (s : FStream) (hf : s.fail = false)
    (hp : s.pos ≤ s.bytes.length) : (readArchs n s).1.pos ≤ s.pos + 20 * n := by
  induction n generalizing s with
  | zero => simp [readArchs]
  | succ n ih =>
    simp only [readArchs, sizeofFatArch]
    by_cases hok : s.fail = false ∧ s.pos + 20 ≤ s.bytes.length
    · rw [read_eq_of_ok s 20 hok.1 hok.2]
      simp only
      have := ih ⟨s.bytes, s.pos + 20, false⟩ rfl hok.2
      simp only at this
      omega
    · have hlt : ¬ s.pos + 20 ≤ s.bytes.length := fun h => hok ⟨hf, h⟩
      rw [read_none_of_not_ok s 20 hok, read_eq_of_short s 20 hf hlt]
      simp only
      omega

theorem archLoop_archNumbers_le (major minor patch : Int) (archs : List (List Nat)) (k : Nat)
    (s : FStream) :
    (archNumbers (archLoop major minor patch archs k s).out).length ≤ archs.length := by
  induction archs generalizing k s with
  | nil => simp [archLoop_nil, archNumbers]
  | cons arch rest ih =>
    cases hb : (archBody major minor patch arch k s).returned
    · rw [archLoop_cons_continue _ _ _ _ _ _ _ hb]
      simp only [archNumbers_append, archBody_archNumbers, List.length_append,
        List.length_cons, List.length_nil]
      have := ih (k + 1) (archBody major minor patch arch k s).file
      omega
    · rw [archLoop_cons_returned _ _ _ _ _ _ _ hb, archBody_archNumbers]
      simp

/-- C20: `parseFatBinary` is a total function of the file and the triple; the descriptor
loop leaves the stream no further than 20 * nfat_arch bytes behind the container header, at
most nfat_arch slices are processed, and for every slice the number of load commands visited
is at most its `ncmds`, also when a command declares `cmdsize = 0`. -/
theorem loops_bounded (bytes : List Nat) (major minor patch : Int) :
    (8 ≤ bytes.length →
      (readArchs (ntohl (field bytes 4)) ⟨bytes, 8, false⟩).1.pos ≤
        8 + 20 * ntohl (field bytes 4)) ∧
    (parseFatBinary bytes major minor patch).slices.length ≤ ntohl (field bytes 4) ∧
    (archNumbers (parseFatBinary bytes major minor patch).out).length ≤
      ntohl (field bytes 4) ∧
    (∀ sv ∈ (parseFatBinary bytes major minor patch).slices,
      ((parseFatBinary bytes major minor patch).visits.filter
        (fun v => decide (v.arch = sv.arch))).length ≤ sv.ncmds) := by
  refine ⟨fun h8 => readArchs_pos _ ⟨bytes, 8, false⟩ rfl h8, ?_⟩
  by_cases h8 : 8 ≤ bytes.length
  · by_cases hm : ntohl (field bytes 0) = FAT_MAGIC
    · cases hr : (readArchs (ntohl (field bytes 4)) ⟨bytes, 8, false⟩).2 with
      | none =>
        rw [parseFatBinary_noTable bytes _ _ _ h8 hm hr]
        simp [archNumbers]
      | some archs =>
        rw [parseFatBinary_table bytes _ _ _ h8 hm archs hr]
        have hlen := readArchs_length _ _ _ hr
        obtain ⟨c1, c2⟩ := archLoop_count major minor patch archs 1
          (readArchs (ntohl (field bytes 4)) ⟨bytes, 8, false⟩).1
        have c3 := archLoop_archNumbers_le major minor patch archs 1
          (readArchs (ntohl (field bytes 4)) ⟨bytes, 8, false⟩).1
        rw [hlen] at c1 c3
        exact ⟨c1, c3, c2⟩
    · rw [parseFatBinary_badMagic bytes _ _ _ h8 hm]
      simp [archNumbers]
  · rw [parseFatBinary_short bytes _ _ _ h8]
    simp [archNumbers]

/-- C20, witness: the container with overlapping slices has a command of `cmdsize = 0` at
88; the run re-reads it for each of the 13 iterations that `ncmds` announces and then goes
on to the next slice. -/
theorem loops_bounded_witness :
    (parseFatBinary overlapFile (-1) 0 0).returned = false ∧
    (parseFatBinary overlapFile (-1) 0 0).slices = [⟨1, 60, MH_MAGIC, 13⟩, ⟨2, 48, MH_MAGIC, 1⟩] ∧
    (parseFatBinary overlapFile (-1) 0 0).visits =
      List.replicate 13 ⟨1, 88, LC_SYMTAB, 0⟩ ++ [⟨2, 76, LC_ID_DYLIB, 24⟩] ∧
    ((parseFatBinary overlapFile (-1) 0 0).visits.filter
        (fun v => decide (v.arch = 1))).length ≤ 13 :=
  ⟨by decide, by decide, by decide,
    (loops_bounded overlapFile (-1) 0 0).2.2.2 ⟨1, 60, MH_MAGIC, 13⟩ (by decide)⟩

/-- C12, the code at the failing inputs: with a target path `main` returns 0 after
`parseFatBinary` printed "Failed to open file" for a file that cannot be opened, and returns
0 after the run stopped with the error line of a truncated descriptor table; its own usage
path returns 1. -/
theorem exitStatus_zero_after_error :
    (main (fun _ => 0) (fun _ => none) [ "versionpatcher", "lib.dylib" ]).status = 0 ∧
    (main (fun _ => 0) (fun _ => none) [ "versionpatcher", "lib.dylib" ]).out =
      [ Line.failedToOpen "lib.dylib" ] ∧
    (main (fun _ => 0) (fun _ => some truncatedTableFile)
      [ "versionpatcher", "lib.dylib" ]).status = 0 ∧
    (main (fun _ => 0) (fun _ => some truncatedTableFile)
      [ "versionpatcher", "lib.dylib" ]).out =
      [ Line.report (.numberOfArchitectures 2), Line.report .archReadFailed ] ∧
    ((main (fun _ => 0) (fun _ => some truncatedTableFile)
      [ "versionpatcher", "lib.dylib" ]).run.map (fun r => r.returned)) = some true := by
  decide

/-- What `main` returns on every input: 1 exactly when no target path is given, and 0 with
a target path whatever happened in `parseFatBinary`, so also after an open failure or an
early `return` behind an error line, where C12 asks for a non-zero value. -/
theorem exitStatus_zero (atoi : String → Int) (fs : String → Option (List Nat))
    (argv : List String) :
    ((main atoi fs argv).status = 1 ↔ argv.length < 2) ∧
    ((main atoi fs argv).status = 0 ↔ 2 ≤ argv.length) ∧
    (2 ≤ argv.length → fs (argv.getD 1 "") = none →
      (main atoi fs argv).out = [.failedToOpen (argv.getD 1 "")]) ∧
    (2 ≤ argv.length → ∀ r, (main atoi fs argv).run = some r → r.returned = true →
      (main atoi fs argv).status = 0) := by
  by_cases h : argv.length < 2
  · have h2 : ¬ 2 ≤ argv.length := by omega
    simp [main, h, h2]
  · have h2 : 2 ≤ argv.length := by omega
    have hs : (main atoi fs argv).status = 0 := by simp [main, h]
    refine ⟨?_, ?_, ?_, fun _ _ _ _ => hs⟩
    · rw [hs]
      exact iff_of_false (by decide) h
    · exact iff_of_true hs h2
    · intro _ hfs
      simp only [main, h, if_false, parseFatBinaryPath, hfs]

/-- A completed run through `main`: the scenario container, patched with the arguments
"2 0 0" read by an `atoi` that knows these two strings: the status is 0 and the walk
completed. -/
theorem exitStatus_zero_witness :
    (main (fun a => if a = "2" then 2 else 0) (fun _ => some scenarioFile)
      [ "versionpatcher", "lib.dylib", "2", "0", "0" ]).status = 0 ∧
    ((main (fun a => if a = "2" then 2 else 0) (fun _ => some scenarioFile)
      [ "versionpatcher", "lib.dylib", "2", "0", "0" ]).run.map (fun r => r.file.bytes)) =
      some (parseFatBinary scenarioFile 2 0 0).file.bytes :=
  ⟨(exitStatus_zero _ _ _).2.1.2 (by decide), by decide⟩

/-! ## The descriptor table -/

theorem readArchs_records (n : Nat) (s : FStream) (hf : s.fail = false)
    (hn : s.pos + 20 * n ≤ s.bytes.length) :
    readArchs n s = (⟨s.bytes, s.pos + 20 * n, false⟩,
      some ((List.range n).map (fun i => (s.bytes.drop (s.pos + 20 * i)).take 20))) := by
  induction n generalizing s with
  | zero =>
    simp only [readArchs, Nat.mul_zero, Nat.add_zero, List.range_zero, List.map_nil]
    rw [← hf]
  | succ n ih =>
    have hok : s.pos + 20 ≤ s.bytes.length := by omega
    simp only [readArchs, sizeofFatArch, read_eq_of_ok s 20 hf hok]
    rw [ih ⟨s.bytes, s.pos + 20, false⟩ rfl (by simp only; omega)]
    simp only [Option.map_some', List.range_succ_eq_map, List.map_cons, List.map_map,
      Nat.mul_zero, Nat.add_zero]
    refine Prod.ext ?_ ?_
    · simp only [FStream.mk.injEq, true_and, and_true]
      omega
    · simp only [Option.some.injEq, List.cons.injEq, true_and]
      apply List.map_congr_left
      intro i _
      simp only [Function.comp_apply]
      congr 2
      omega

theorem introLines_append (xs ys : List Msg) :
    introLines (xs ++ ys) = introLines xs ++ introLines ys := by
  simp [introLines, List.filter_append]

theorem introLines_loadCommands (major minor patch : Int) (arch n : Nat) (s : FStream) :
    introLines (loadCommands major minor patch arch n s).out = [] := by
  unfold introLines
  rw [List.filter_eq_nil_iff]
  intro x hx
  rcases loadCommands_out major minor patch arch n s x hx with h | h | h | ⟨t, c, w, h⟩ <;>
    subst h <;> simp

theorem archBody_intro (major minor patch : Int) (arch : List Nat) (k : Nat) (s : FStream) :
    introLines (archBody major minor patch arch k s).out = introOf arch k := by
  obtain ⟨name, hn⟩ := printCPUType_eq (toInt32 (ntohl (field arch 0)))
    (toInt32 (ntohl (field arch 4)))
  unfold introOf
  by_cases hok : s.fail = false ∧ ntohl (field arch 8) + 28 ≤ s.bytes.length
  · by_cases hm : magicAt s.bytes (ntohl (field arch 8)) ≠ MH_MAGIC ∧
        magicAt s.bytes (ntohl (field arch 8)) ≠ MH_MAGIC_64
    · rw [archBody_badMagic _ _ _ _ _ _ hok.1 hok.2 hm, hn]
      rfl
    · rw [archBody_ok _ _ _ _ _ _ hok.1 hok.2 hm, hn, introLines_append,
        introLines_loadCommands]
      rfl
  · obtain ⟨-, -, -, -, -, h6⟩ := archBody_short major minor patch arch k s hok
    rw [h6, hn]
    rfl

theorem archLoop_intro (major minor patch : Int) (archs : List (List Nat)) (k : Nat)
    (s : FStream) :
    ∃ j, j ≤ archs.length ∧
      ((archLoop major minor patch archs k s).returned = false → j = archs.length) ∧
      introLines (archLoop major minor patch archs k s).out = introsFrom (archs.take j) k := by
  induction archs generalizing k s with
  | nil => exact ⟨0, le_refl _, fun _ => rfl, rfl⟩
  | cons arch rest ih =>
    cases hb : (archBody major minor patch arch k s).returned
    · rw [archLoop_cons_continue _ _ _ _ _ _ _ hb]
      obtain ⟨j, h1, h2, h3⟩ := ih (k + 1) (archBody major minor patch arch k s).file
      refine ⟨j + 1, by simp only [List.length_cons]; omega,
        fun h => by simp only [List.length_cons]; rw [h2 h], ?_⟩
      simp only [introLines_append, archBody_intro, h3, List.take_succ_cons, introsFrom]
    · rw [archLoop_cons_returned _ _ _ _ _ _ _ hb, hb]
      refine ⟨1, by simp, fun h => by simp at h, ?_⟩
      simp only [archBody_intro, List.take_succ_cons, List.take_zero, introsFrom,
        List.append_nil]

theorem introsFrom_length (archs : List (List Nat)) (k : Nat) :
    (introsFrom archs k).length = 2 * archs.length := by
  induction archs generalizing k with
  | nil => rfl
  | cons a rest ih =>
    simp only [introsFrom, introOf, List.length_append, List.length_cons, List.length_nil, ih]
    omega

theorem introsFrom_get (archs : List (List Nat)) (k i : Nat) (a : List Nat)
    (h : archs[i]? = some a) :
    (introsFrom archs k)[2 * i]? = some (.architecture (k + i)) ∧
    (introsFrom archs k)[2 * i + 1]? =
      some (printCPUType (toInt32 (ntohl (field a 0))) (toInt32 (ntohl (field a 4)))) := by
  induction archs generalizing k i with
  | nil => simp at h
  | cons b rest ih =>
    cases i with
    | zero =>
      simp only [List.getElem?_cons_zero, Option.some.injEq] at h
      subst h
      simp [introsFrom, introOf]
    | succ i =>
      simp only [List.getElem?_cons_succ] at h
      obtain ⟨h1, h2⟩ := ih (k + 1) i h
      have e1 : 2 * (i + 1) = 2 * i + 2 := by omega
      have e2 : 2 * (i + 1) + 1 = 2 * i + 1 + 2 := by omega
      have e3 : k + 1 + i = k + (i + 1) := by omega
      simp only [introsFrom, introOf, List.cons_append, List.nil_append, e1, e2,
        List.getElem?_cons_succ, h1, h2, e3, and_self]

theorem archBody_offset (major minor patch : Int) (arch : List Nat) (k : Nat) (s : FStream) :
    ∀ sv ∈ (archBody major minor patch arch k s).slices,
      sv.arch = k ∧ sv.offset = ntohl (field arch 8) := by
  by_cases hok : s.fail = false ∧ ntohl (field arch 8) + 28 ≤ s.bytes.length
  · by_cases hm : magicAt s.bytes (ntohl (field arch 8)) ≠ MH_MAGIC ∧
        magicAt s.bytes (ntohl (field arch 8)) ≠ MH_MAGIC_64
    · rw [archBody_badMagic _ _ _ _ _ _ hok.1 hok.2 hm]
      simp
    · rw [archBody_ok _ _ _ _ _ _ hok.1 hok.2 hm]
      simp
  · obtain ⟨-, -, h3, -, -, -⟩ := archBody_short major minor patch arch k s hok
    rw [h3]
    simp

theorem archLoop_offset (major minor patch : Int) (archs : List (List Nat)) (k : Nat)
    (s : FStream) :
    ∀ sv ∈ (archLoop major minor patch archs k s).slices,
      k ≤ sv.arch ∧ ∃ a, archs[sv.arch - k]? = some a ∧ sv.offset = ntohl (field a 8) := by
  induction archs generalizing k s with
  | nil => intro sv hsv; simp [archLoop_nil] at hsv
  | cons arch rest ih =>
    intro sv hsv
    have hbody : sv ∈ (archBody major minor patch arch k s).slices →
        k ≤ sv.arch ∧ ∃ a, (arch :: rest)[sv.arch - k]? = some a ∧
          sv.offset = ntohl (field a 8) := by
      intro h
      obtain ⟨h1, h2⟩ := archBody_offset major minor patch arch k s sv h
      refine ⟨by omega, arch, ?_, h2⟩
      rw [h1, Nat.sub_self, List.getElem?_cons_zero]
    cases hb : (archBody major minor patch arch k s).returned
    · rw [archLoop_cons_continue _ _ _ _ _ _ _ hb] at hsv
      rcases List.mem_append.1 hsv with h | h
      · exact hbody h
      · obtain ⟨h1, a, h2, h3⟩ := ih _ _ sv h
        refine ⟨by omega, a, ?_, h3⟩
        have e : sv.arch - k = (sv.arch - (k + 1)) + 1 := by omega
        rw [e, List.getElem?_cons_succ]
        exact h2
    · rw [archLoop_cons_returned _ _ _ _ _ _ _ hb] at hsv
      exact hbody hsv

theorem field_descriptorAt (bytes : List Nat) (i off : Nat) (h : off + 4 ≤ 20) :
    field (descriptorAt bytes i) off = field bytes (8 + 20 * i + off) := by
  unfold descriptorAt
  exact field_window bytes (8 + 20 * i) 20 off h

theorem table_records (bytes : List Nat) (ht : 8 + 20 * ntohl (field bytes 4) ≤ bytes.length) :
    readArchs (ntohl (field bytes 4)) ⟨bytes, 8, false⟩ =
      (⟨bytes, 8 + 20 * ntohl (field bytes 4), false⟩,
        some ((List.range (ntohl (field bytes 4))).map (descriptorAt bytes))) := by
  rw [readArchs_records _ ⟨bytes, 8, false⟩ rfl ht]
  rfl

theorem archBody_header (major minor patch : Int) (arch : List Nat) (k : Nat) (s : FStream) :
    ∀ sv ∈ (archBody major minor patch arch k s).slices,
      sv.arch = k ∧ sv.offset = ntohl (field arch 8) ∧ sv.offset + 28 ≤ s.bytes.length ∧
      sv.magic = le32 (field s.bytes sv.offset) ∧
      sv.ncmds = le32 (field s.bytes (sv.offset + 16)) := by
  by_cases hok : s.fail = false ∧ ntohl (field arch 8) + 28 ≤ s.bytes.length
  · by_cases hm : magicAt s.bytes (ntohl (field arch 8)) ≠ MH_MAGIC ∧
        magicAt s.bytes (ntohl (field arch 8)) ≠ MH_MAGIC_64
    · rw [archBody_badMagic _ _ _ _ _ _ hok.1 hok.2 hm]
      intro sv hsv
      simp only [List.mem_singleton] at hsv
      subst hsv
      exact ⟨rfl, rfl, hok.2, magicAt_eq _ _, ncmdsAt_eq _ _⟩
    · rw [archBody_ok _ _ _ _ _ _ hok.1 hok.2 hm]
      intro sv hsv
      simp only [List.mem_singleton] at hsv
      subst hsv
      exact ⟨rfl, rfl, hok.2, magicAt_eq _ _, ncmdsAt_eq _ _⟩
  · obtain ⟨-, -, h3, -, -, -⟩ := archBody_short major minor patch arch k s hok
    rw [h3]
    simp

theorem archLoop_header (major minor patch : Int) (archs : List (List Nat)) (k : Nat)
    (s : FStream) :
    ∀ sv ∈ (archLoop major minor patch archs k s).slices,
      sv.offset + 28 ≤ s.bytes.length ∧
      sv.magic = le32 (field (applyPatches (packVersion major minor patch)
        (patchSites major ((archLoop major minor patch archs k s).visits.filter
          (fun v => decide (v.arch < sv.arch)))) s.bytes) sv.offset) ∧
      sv.ncmds = le32 (field (applyPatches (packVersion major minor patch)
        (patchSites major ((archLoop major minor patch archs k s).visits.filter
          (fun v => decide (v.arch < sv.arch)))) s.bytes) (sv.offset + 16)) := by
  induction archs generalizing k s with
  | nil => intro sv hsv; simp [archLoop_nil] at hsv
  | cons arch rest ih =>
    obtain ⟨a1, a2⟩ := archBody_arch major minor patch arch k s
    have hbody : ∀ sv ∈ (archBody major minor patch arch k s).slices,
        ∀ later : List Visit, (∀ v ∈ later, k + 1 ≤ v.arch) →
        sv.offset + 28 ≤ s.bytes.length ∧
        sv.magic = le32 (field (applyPatches (packVersion major minor patch)
          (patchSites major (((archBody major minor patch arch k s).visits ++ later).filter
            (fun v => decide (v.arch < sv.arch)))) s.bytes) sv.offset) ∧
        sv.ncmds = le32 (field (applyPatches (packVersion major minor patch)
          (patchSites major (((archBody major minor patch arch k s).visits ++ later).filter
            (fun v => decide (v.arch < sv.arch)))) s.bytes) (sv.offset + 16)) := by
      intro sv hsv later hl
      obtain ⟨h1, -, h3, h4, h5⟩ := archBody_header major minor patch arch k s sv hsv
      have e : ((archBody major minor patch arch k s).visits ++ later).filter
          (fun v => decide (v.arch < sv.arch)) = [] := by
        rw [List.filter_eq_nil_iff]
        intro v hv
        simp only [decide_eq_true_eq]
        rcases List.mem_append.1 hv with h | h
        · have := a1 v h
          omega
        · have := hl v h
          omega
      rw [e, patchSites_nil, applyPatches_nil]
      exact ⟨h3, h4, h5⟩
    intro sv hsv
    cases hb : (archBody major minor patch arch k s).returned
    · rw [archLoop_cons_continue _ _ _ _ _ _ _ hb] at hsv ⊢
      simp only at hsv ⊢
      rcases List.mem_append.1 hsv with h | h
      · exact hbody sv h _ (fun v hv => archLoop_visits_arch _ _ _ _ _ _ v hv)
      · obtain ⟨i1, i2, i3⟩ := ih (k + 1) _ sv h
        have hk := archLoop_arch _ _ _ _ _ _ sv h
        have e : (archBody major minor patch arch k s).visits.filter
            (fun v => decide (v.arch < sv.arch)) =
            (archBody major minor patch arch k s).visits := by
          rw [List.filter_eq_self]
          intro v hv
          have := a1 v hv
          simp only [decide_eq_true_eq]
          omega
        rw [archBody_bytes] at i1 i2 i3
        rw [applyPatches_length] at i1
        rw [List.filter_append, e, patchSites_append, applyPatches_append]
        exact ⟨i1, i2, i3⟩
    · rw [archLoop_cons_returned _ _ _ _ _ _ _ hb] at hsv ⊢
      have := hbody sv hsv [] (fun v hv => by simp at hv)
      simpa using this

/-- C17: when the container header is valid and the whole descriptor table is in the file,
the slices are processed in table order: the `i`-th one (from 0) is announced as
"Architecture #(i+1)" with the CPU type and subtype decoded big-endian, as `int`, from bytes
0..3 and 4..7 of the record at file bytes `8 + 20 i ..`; and every image header read for it
is read at the offset decoded big-endian from bytes 8..11 of that record: its 28 bytes lie
in the file from that offset on, and the magic number and the command count the run goes on
with are the host-order values at that offset and at that offset + 16 of the file as the
earlier slices left it (the input file itself in read-only mode). -/
theorem descriptor_decoding (bytes : List Nat) (major minor patch : Int)
    (h8 : 8 ≤ bytes.length) (hm : ntohl (field bytes 0) = FAT_MAGIC)
    (ht : 8 + 20 * ntohl (field bytes 4) ≤ bytes.length) :
    ∃ j, j ≤ ntohl (field bytes 4) ∧
      ((parseFatBinary bytes major minor patch).returned = false → j = ntohl (field bytes 4)) ∧
      (introLines (parseFatBinary bytes major minor patch).out).length = 2 * j ∧
      (∀ i, i < j →
        (introLines (parseFatBinary bytes major minor patch).out)[2 * i]? =
          some (.architecture (i + 1)) ∧
        (introLines (parseFatBinary bytes major minor patch).out)[2 * i + 1]? =
          some (printCPUType (toInt32 (ntohl (field bytes (8 + 20 * i))))
            (toInt32 (ntohl (field bytes (8 + 20 * i + 4)))))) ∧
      (∀ sv ∈ (parseFatBinary bytes major minor patch).slices,
        1 ≤ sv.arch ∧ sv.arch ≤ ntohl (field bytes 4) ∧
          sv.offset = ntohl (field bytes (8 + 20 * (sv.arch - 1) + 8)) ∧
          sv.offset + 28 ≤ bytes.length ∧
          sv.magic = le32 (field (applyPatches (packVersion major minor patch)
            (patchSites major ((parseFatBinary bytes major minor patch).visits.filter
              (fun v => decide (v.arch < sv.arch)))) bytes) sv.offset) ∧
          sv.ncmds = le32 (field (applyPatches (packVersion major minor patch)
            (patchSites major ((parseFatBinary bytes major minor patch).visits.filter
              (fun v => decide (v.arch < sv.arch)))) bytes) (sv.offset + 16)) ∧
          (major < 0 → sv.magic = le32 (field bytes sv.offset) ∧
            sv.ncmds = le32 (field bytes (sv.offset + 16)))) := by
  have hr := table_records bytes ht
  have hr2 : (readArchs (ntohl (field bytes 4)) ⟨bytes, 8, false⟩).2 =
      some ((List.range (ntohl (field bytes 4))).map (descriptorAt bytes)) := by rw [hr]
  have hr1 : (readArchs (ntohl (field bytes 4)) ⟨bytes, 8, false⟩).1 =
      ⟨bytes, 8 + 20 * ntohl (field bytes 4), false⟩ := by rw [hr]
  rw [parseFatBinary_table bytes _ _ _ h8 hm _ hr2, hr1]
  generalize hs : (⟨bytes, 8 + 20 * ntohl (field bytes 4), false⟩ : FStream) = s
  have hsb : s.bytes = bytes := by rw [← hs]
  obtain ⟨j, j1, j2, j3⟩ := archLoop_intro major minor patch
    ((List.range (ntohl (field bytes 4))).map (descriptorAt bytes)) 1 s
  simp only [List.length_map, List.length_range] at j1 j2
  have hlines : introLines (Msg.numberOfArchitectures (ntohl (field bytes 4)) ::
      (archLoop major minor patch ((List.range (ntohl (field bytes 4))).map
        (descriptorAt bytes)) 1 s).out) =
      introsFrom (((List.range (ntohl (field bytes 4))).map (descriptorAt bytes)).take j) 1 := by
    rw [← j3]
    rfl
  have hget : ∀ i, i < ntohl (field bytes 4) →
      ((List.range (ntohl (field bytes 4))).map (descriptorAt bytes))[i]? =
        some (descriptorAt bytes i) := by
    intro i hi
    rw [List.getElem?_map, List.getElem?_range hi]
    rfl
  refine ⟨j, j1, j2, ?_, ?_, ?_⟩
  · simp only [hlines, introsFrom_length, List.length_take, List.length_map, List.length_range]
    omega
  · intro i hi
    have hi' : (((List.range (ntohl (field bytes 4))).map (descriptorAt bytes)).take j)[i]? =
        some (descriptorAt bytes i) := by
      rw [List.getElem?_take_of_lt hi, hget i (by omega)]
    obtain ⟨g1, g2⟩ := introsFrom_get _ 1 i _ hi'
    simp only [hlines]
    rw [g1, g2, field_descriptorAt bytes i 0 (by omega), field_descriptorAt bytes i 4 (by omega),
      Nat.add_zero, Nat.add_comm 1 i]
    exact ⟨rfl, rfl⟩
  · intro sv hsv
    obtain ⟨o1, a, o2, o3⟩ := archLoop_offset _ _ _ _ _ _ sv hsv
    obtain ⟨p1, p2, p3⟩ := archLoop_header _ _ _ _ _ _ sv hsv
    rw [hsb] at p1 p2 p3
    have hlt : sv.arch - 1 < ntohl (field bytes 4) := by
      have := (List.getElem?_eq_some_iff.1 o2).1
      simpa using this
    rw [hget _ hlt, Option.some.injEq] at o2
    subst o2
    rw [field_descriptorAt bytes _ 8 (by omega)] at o3
    refine ⟨o1, by omega, o3, p1, p2, p3, ?_⟩
    intro hneg
    have e : ∀ vs : List Visit, patchSites major vs = [] := by
      intro vs
      unfold patchSites
      rw [if_neg (by omega)]
    rw [e, applyPatches_nil] at p2 p3
    exact ⟨p2, p3⟩

/-- C17, witness: in the container with a gap the table ends at byte 28 and the record
gives offset 40; the run announces x86 with subtype 3 and takes the magic number and the
command count of the slice from bytes 40 and 56, so its one command is read at 68. In the
two-slice container the records at bytes 8 and 28 name x86 at offset 48 and ARM at
offset 100, and the run announces and reads them so. -/
theorem descriptor_decoding_witness :
    8 ≤ gapFile.length ∧ ntohl (field gapFile 0) = FAT_MAGIC ∧
    8 + 20 * ntohl (field gapFile 4) ≤ gapFile.length ∧
    ntohl (field gapFile (8 + 8)) = 40 ∧
    introLines (parseFatBinary gapFile 2 0 0).out = [.architecture 1, .cpu .x86 3] ∧
    (parseFatBinary gapFile 2 0 0).slices = [⟨1, 40, MH_MAGIC, 1⟩] ∧
    (parseFatBinary gapFile 2 0 0).visits = [⟨1, 68, LC_ID_DYLIB, 24⟩] ∧
    le32 (field gapFile 40) = MH_MAGIC ∧ le32 (field gapFile (40 + 16)) = 1 ∧
    le32 (field gapFile 28) ≠ MH_MAGIC ∧
    introLines (parseFatBinary badSecondSliceFile 2 0 0).out =
      [.architecture 1, .cpu .x86 3, .architecture 2, .cpu .arm 9] ∧
    (parseFatBinary badSecondSliceFile 2 0 0).slices.map (fun sv => sv.offset) = [48, 100] ∧
    ∃ j, j ≤ 1 ∧ (introLines (parseFatBinary gapFile 2 0 0).out).length = 2 * j ∧
      ∀ sv ∈ (parseFatBinary gapFile 2 0 0).slices,
        sv.offset = ntohl (field gapFile (8 + 20 * (sv.arch - 1) + 8)) ∧
        sv.offset + 28 ≤ gapFile.length :=
  ⟨by decide, by decide, by decide, by decide, by decide, by decide, by decide, by decide,
    by decide, by decide, by decide, by decide,
    (descriptor_decoding gapFile 2 0 0 (by decide) (by decide) (by decide)).imp
      (fun _ h => ⟨h.1, h.2.2.1, fun sv hsv =>
        ⟨(h.2.2.2.2 sv hsv).2.2.1, (h.2.2.2.2 sv hsv).2.2.2.1⟩⟩)⟩

/-! ## The version lines of a report -/

theorem versionLines_append (xs ys : List Msg) :
    versionLines (xs ++ ys) = versionLines xs ++ versionLines ys := by
  simp [versionLines, List.filter_append]

theorem idDylib_versions (major minor patch : Int) (bs : List Nat) (b : Nat)
    (h : b + 24 ≤ bs.length) :
    (idDylib major minor patch b ⟨bs, b + 8, false⟩).2 =
      [.idDylibFound, versionsAt bs b] ++ (if 0 ≤ major then [.versionPatched] else []) := by
  rw [idDylib_out]
  have r1 := read_eq_of_ok ⟨bs, b + 8, false⟩ 4 rfl (by simp only; omega)
  have r2 := read_eq_of_ok ⟨bs, b + 8 + 4, false⟩ 4 rfl (by simp only; omega)
  have r3 := read_eq_of_ok ⟨bs, b + 8 + 4 + 4, false⟩ 4 rfl (by simp only; omega)
  have r4 := read_eq_of_ok ⟨bs, b + 8 + 4 + 4 + 4, false⟩ 4 rfl (by simp only; omega)
  simp only at r1 r2 r3 r4
  simp only [r1, r2, r3, r4, Option.map_some', versionsAt, field]

theorem AgreeOutside.mono {W W' : Nat → Prop} {f g : List Nat} (h : AgreeOutside W f g)
    (hw : ∀ i, W i → W' i) : AgreeOutside W' f g :=
  ⟨h.1, fun i hi => h.2 i (fun hc => hi (hw i hc))⟩

theorem field_agree_at (W : Nat → Prop) (f g : List Nat) (p : Nat) (h : AgreeOutside W f g)
    (hw : ∀ i, p ≤ i → i < p + 4 → ¬ W i) : field g p = field f p := by
  unfold field
  exact (window_eq f g p 4 (fun i h1 h2 => h.2 i (hw i h1 h2))).symm

theorem versionsAt_agree (W : Nat → Prop) (f g : List Nat) (b : Nat) (h : AgreeOutside W f g)
    (hw : ∀ i, b + 8 ≤ i → i < b + 24 → ¬ W i) : versionsAt g b = versionsAt f b := by
  unfold versionsAt
  rw [field_agree_at W f g (b + 12) h (fun i h1 h2 => hw i (by omega) (by omega)),
    field_agree_at W f g (b + 16) h (fun i h1 h2 => hw i (by omega) (by omega)),
    field_agree_at W f g (b + 20) h (fun i h1 h2 => hw i (by omega) (by omega))]

theorem inVersionField_append (xs ys : List Nat) (i : Nat) :
    InVersionField (xs ++ ys) i ↔ InVersionField xs i ∨ InVersionField ys i := by
  unfold InVersionField
  constructor
  · rintro ⟨b, hb, h⟩
    rcases List.mem_append.1 hb with h1 | h1
    · exact Or.inl ⟨b, h1, h⟩
    · exact Or.inr ⟨b, h1, h⟩
  · rintro (⟨b, hb, h⟩ | ⟨b, hb, h⟩)
    · exact ⟨b, List.mem_append_left _ hb, h⟩
    · exact ⟨b, List.mem_append_right _ hb, h⟩

theorem loadCommands_versions (f : List Nat) (major minor patch : Int) (arch n : Nat)
    (t : FStream) (W : Nat → Prop) (h : AgreeOutside W f t.bytes)
    (hpay : ∀ v ∈ (loadCommands major minor patch arch n t).visits, v.cmd = LC_ID_DYLIB →
      v.base + 24 ≤ f.length ∧ ∀ i, v.base + 8 ≤ i → i < v.base + 24 → ¬ W i)
    (hpw : (loadCommands major minor patch arch n t).visits.Pairwise (fun v w =>
      v.cmd = LC_ID_DYLIB → w.cmd = LC_ID_DYLIB →
        v.base + 20 ≤ w.base + 8 ∨ w.base + 24 ≤ v.base + 16)) :
    versionLines (loadCommands major minor patch arch n t).out =
      ((loadCommands major minor patch arch n t).visits.filter
        (fun v => decide (v.cmd = LC_ID_DYLIB))).map (fun v => versionsAt f v.base) ∧
    AgreeOutside (fun i => W i ∨
        InVersionField (patchSites 0 (loadCommands major minor patch arch n t).visits) i)
      f (loadCommands major minor patch arch n t).file.bytes := by
  induction n generalizing t W with
  | zero =>
    simp only [loadCommands_zero, List.filter_nil, List.map_nil]
    exact ⟨rfl, h.mono (fun i hi => Or.inl hi)⟩
  | succ n ih =>
    by_cases hok : t.fail = false ∧ t.pos + 8 ≤ t.bytes.length
    · obtain ⟨a1, a2, -, -⟩ := loadCommands_succ_ok major minor patch arch n t hok.1 hok.2
      have a4 := loadCommands_succ_out major minor patch arch n t hok.1 hok.2
      rw [a2] at hpay hpw
      rw [a1, a2, a4]
      rw [List.pairwise_cons] at hpw
      have h0 := hpay _ (List.mem_cons_self _ _)
      simp only at h0
      -- the set grown by the field of this command
      have hstep : AgreeOutside (fun i => W i ∨ InVersionField
          (if cmdAt t.bytes t.pos = LC_ID_DYLIB ∧ (0 : Int) ≤ 0 then [t.pos] else []) i)
          f (afterCommand major minor patch t).bytes := by
        rw [afterCommand_bytes]
        by_cases hc : cmdAt t.bytes t.pos = LC_ID_DYLIB
        · have hW : ∀ i, ¬ (W i ∨ InVersionField [t.pos] i) →
              ¬ (t.pos + 16 ≤ i ∧ i < t.pos + 20) :=
            fun i hi hin => hi (Or.inr ⟨t.pos, List.mem_singleton_self _, hin.1, hin.2⟩)
          simp only [hc, true_and, le_refl, if_true]
          split_ifs
          · refine ⟨by rw [patchAt_length]; exact h.1, fun i hi => ?_⟩
            rw [patchAt_getElem?_of_outside _ _ _ _ (hW i hi)]
            exact h.2 i (fun hc => hi (Or.inl hc))
          · exact h.mono (fun i hi => Or.inl hi)
        · simp only [hc, false_and, if_false]
          exact h.mono (fun i hi => Or.inl hi)
      obtain ⟨i1, i2⟩ := ih _ _ hstep
        (fun v hv hid => by
          have hv' := hpay v (List.mem_cons_of_mem _ hv) hid
          refine ⟨hv'.1, fun i h1 h2 hc => ?_⟩
          rcases hc with hc | ⟨b, hb, hb1, hb2⟩
          · exact hv'.2 i h1 h2 hc
          · split_ifs at hb with hcm
            · simp only [List.mem_singleton] at hb
              subst hb
              have := hpw.1 v hv hcm.1 hid
              simp only at this
              omega
            · simp at hb)
        hpw.2
      refine ⟨?_, ?_⟩
      · rw [versionLines_append, i1]
        by_cases hc : cmdAt t.bytes t.pos = LC_ID_DYLIB
        · have hl : t.pos + 24 ≤ t.bytes.length := by rw [← h.1]; exact (h0 hc).1
          rw [if_pos hc, idDylib_versions _ _ _ _ _ hl,
            versionsAt_agree W f t.bytes t.pos h (h0 hc).2]
          simp only [List.filter_cons, hc, decide_True, if_true, List.map_cons]
          have : versionLines ([Msg.idDylibFound, versionsAt f t.pos] ++
              (if 0 ≤ major then [Msg.versionPatched] else [])) = [versionsAt f t.pos] := by
            split_ifs <;> rfl
          rw [this]
          rfl
        · rw [if_neg hc]
          simp only [List.filter_cons, hc, decide_False, Bool.false_eq_true, if_false]
          rfl
      · refine i2.mono (fun i hi => ?_)
        rw [patchSites_cons, inVersionField_append]
        rcases hi with (hi | hi) | hi
        · exact Or.inl hi
        · exact Or.inr (Or.inl hi)
        · exact Or.inr (Or.inr hi)
    · rw [loadCommands_succ_short _ _ _ _ _ _ hok]
      simp only [List.filter_nil, List.map_nil, read_bytes]
      exact ⟨rfl, h.mono (fun i hi => Or.inl hi)⟩

theorem archBody_versions (f : List Nat) (major minor patch : Int) (arch : List Nat) (k : Nat)
    (t : FStream) (W : Nat → Prop) (h : AgreeOutside W f t.bytes)
    (hpay : ∀ v ∈ (archBody major minor patch arch k t).visits, v.cmd = LC_ID_DYLIB →
      v.base + 24 ≤ f.length ∧ ∀ i, v.base + 8 ≤ i → i < v.base + 24 → ¬ W i)
    (hpw : (archBody major minor patch arch k t).visits.Pairwise (fun v w =>
      v.cmd = LC_ID_DYLIB → w.cmd = LC_ID_DYLIB →
        v.base + 20 ≤ w.base + 8 ∨ w.base + 24 ≤ v.base + 16)) :
    versionLines (archBody major minor patch arch k t).out =
      ((archBody major minor patch arch k t).visits.filter
        (fun v => decide (v.cmd = LC_ID_DYLIB))).map (fun v => versionsAt f v.base) ∧
    AgreeOutside (fun i => W i ∨
        InVersionField (patchSites 0 (archBody major minor patch arch k t).visits) i)
      f (archBody major minor patch arch k t).file.bytes := by
  obtain ⟨name, hn⟩ := printCPUType_eq (toInt32 (ntohl (field arch 0)))
    (toInt32 (ntohl (field arch 4)))
  by_cases hok : t.fail = false ∧ ntohl (field arch 8) + 28 ≤ t.bytes.length
  · by_cases hm : magicAt t.bytes (ntohl (field arch 8)) ≠ MH_MAGIC ∧
        magicAt t.bytes (ntohl (field arch 8)) ≠ MH_MAGIC_64
    · rw [archBody_badMagic _ _ _ _ _ _ hok.1 hok.2 hm, hn]
      exact ⟨rfl, h.mono (fun i hi => Or.inl hi)⟩
    · rw [archBody_ok _ _ _ _ _ _ hok.1 hok.2 hm] at hpay hpw ⊢
      obtain ⟨i1, i2⟩ := loadCommands_versions f major minor patch k _
        ⟨t.bytes, ntohl (field arch 8) +
          headerSizeOf (magicAt t.bytes (ntohl (field arch 8))), false⟩ W h hpay hpw
      refine ⟨?_, i2⟩
      simp only [versionLines_append, i1, hn]
      rfl
  · obtain ⟨h1, -, -, h4, -, h6⟩ := archBody_short major minor patch arch k t hok
    rw [h1, h4, h6, hn]
    exact ⟨rfl, h.mono (fun i hi => Or.inl hi)⟩

theorem archLoop_versions (f : List Nat) (major minor patch : Int) (archs : List (List Nat))
    (k : Nat) (t : FStream) (W : Nat → Prop) (h : AgreeOutside W f t.bytes)
    (hpay : ∀ v ∈ (archLoop major minor patch archs k t).visits, v.cmd = LC_ID_DYLIB →
      v.base + 24 ≤ f.length ∧ ∀ i, v.base + 8 ≤ i → i < v.base + 24 → ¬ W i)
    (hpw : (archLoop major minor patch archs k t).visits.Pairwise (fun v w =>
      v.cmd = LC_ID_DYLIB → w.cmd = LC_ID_DYLIB →
        v.base + 20 ≤ w.base + 8 ∨ w.base + 24 ≤ v.base + 16)) :
    versionLines (archLoop major minor patch archs k t).out =
      ((archLoop major minor patch archs k t).visits.filter
        (fun v => decide (v.cmd = LC_ID_DYLIB))).map (fun v => versionsAt f v.base) := by
  induction archs generalizing k t W with
  | nil => rfl
  | cons arch rest ih =>
    cases hb : (archBody major minor patch arch k t).returned
    · rw [archLoop_cons_continue _ _ _ _ _ _ _ hb] at hpay hpw ⊢
      simp only at hpay hpw
      rw [List.pairwise_append] at hpw
      obtain ⟨b1, b2⟩ := archBody_versions f major minor patch arch k t W h
        (fun v hv => hpay v (List.mem_append_left _ hv)) hpw.1
      have i1 := ih (k + 1) _ _ b2
        (fun v hv hid => by
          have hv' := hpay v (List.mem_append_right _ hv) hid
          refine ⟨hv'.1, fun i h1 h2 hc => ?_⟩
          rcases hc with hc | ⟨b, hb, hb1, hb2⟩
          · exact hv'.2 i h1 h2 hc
          · obtain ⟨-, w, hw, hidw, rfl⟩ := (mem_patchSites _ _ _).1 hb
            have := hpw.2.2 w hw v hv hidw hid
            omega)
        hpw.2.1
      simp only [versionLines_append, b1, i1, List.filter_append, List.map_append]
    · rw [archLoop_cons_returned _ _ _ _ _ _ _ hb] at hpay hpw ⊢
      exact (archBody_versions f major minor patch arch k t W h hpay hpw).1

theorem parseFatBinary_versions (bytes : List Nat) (major minor patch : Int)
    (hpay : ∀ v ∈ (parseFatBinary bytes major minor patch).visits, v.cmd = LC_ID_DYLIB →
      v.base + 24 ≤ bytes.length)
    (hpw : (parseFatBinary bytes major minor patch).visits.Pairwise (fun v w =>
      v.cmd = LC_ID_DYLIB → w.cmd = LC_ID_DYLIB →
        v.base + 20 ≤ w.base + 8 ∨ w.base + 24 ≤ v.base + 16)) :
    versionLines (parseFatBinary bytes major minor patch).out =
      ((parseFatBinary bytes major minor patch).visits.filter
        (fun v => decide (v.cmd = LC_ID_DYLIB))).map (fun v => versionsAt bytes v.base) := by
  by_cases h8 : 8 ≤ bytes.length
  · by_cases hm : ntohl (field bytes 0) = FAT_MAGIC
    · cases hr : (readArchs (ntohl (field bytes 4)) ⟨bytes, 8, false⟩).2 with
      | none =>
        rw [parseFatBinary_noTable bytes _ _ _ h8 hm hr]
        rfl
      | some archs =>
        rw [parseFatBinary_table bytes _ _ _ h8 hm archs hr] at hpay hpw ⊢
        have hag : AgreeOutside (fun _ => False) bytes
            (readArchs (ntohl (field bytes 4)) ⟨bytes, 8, false⟩).1.bytes := by
          rw [readArchs_bytes]
          exact ⟨rfl, fun _ _ => rfl⟩
        have := archLoop_versions bytes major minor patch archs 1 _ _ hag
          (fun v hv hid => ⟨hpay v hv hid, fun _ _ _ hc => hc⟩) hpw
        rw [← this]
        rfl
    · rw [parseFatBinary_badMagic bytes _ _ _ h8 hm]
      rfl
  · rw [parseFatBinary_short bytes _ _ _ h8]
    rfl

theorem wellFormed_payloads (bytes : List Nat) (h : WellFormed bytes) :
    (∀ v ∈ (parseFatBinary bytes (-1) 0 0).visits, v.cmd = LC_ID_DYLIB →
      v.base + 24 ≤ bytes.length) ∧
    (parseFatBinary bytes (-1) 0 0).visits.Pairwise (fun v w =>
      v.cmd = LC_ID_DYLIB → w.cmd = LC_ID_DYLIB →
        v.base + 20 ≤ w.base + 8 ∨ w.base + 24 ≤ v.base + 16) := by
  obtain ⟨-, hsz, hp⟩ := h
  generalize parseFatBinary bytes (-1) 0 0 = r at hsz hp ⊢
  simp only [regions, List.pairwise_cons, List.pairwise_append] at hp
  obtain ⟨-, -, hp3, -⟩ := hp
  rw [List.pairwise_map] at hp3
  refine ⟨fun v hv hid => ?_, ?_⟩
  · have := hsz v hv
    have h24 := this.2.1 hid
    omega
  · refine List.Pairwise.imp_of_mem ?_ hp3
    intro v w hv hw hap hidv hidw
    have h1 := (hsz v hv).2.1 hidv
    have h2 := (hsz w hw).2.1 hidw
    simp only [Apart] at hap
    omega

/-- C19: on a well-formed container a patch run visits the same image headers and the same
load commands, with the same bases, tags and sizes and in the same order, as the read-only
run on that file; and in every mode the version lines of the report are, command by
command, the timestamp, current version and compatibility version found in the input file,
that is the values before any patch. -/
theorem patch_keeps_walk (bytes : List Nat) (major minor patch : Int) (hwf : WellFormed bytes) :
    (parseFatBinary bytes major minor patch).slices = (parseFatBinary bytes (-1) 0 0).slices ∧
    (parseFatBinary bytes major minor patch).visits = (parseFatBinary bytes (-1) 0 0).visits ∧
    versionLines (parseFatBinary bytes major minor patch).out =
      ((parseFatBinary bytes major minor patch).visits.filter
        (fun v => decide (v.cmd = LC_ID_DYLIB))).map (fun v => versionsAt bytes v.base) ∧
    versionLines (parseFatBinary bytes major minor patch).out =
      versionLines (parseFatBinary bytes (-1) 0 0).out := by
  obtain ⟨w1, w2, -⟩ := wellFormed_walk bytes major minor patch hwf
  obtain ⟨p1, p2⟩ := wellFormed_payloads bytes hwf
  have hv := parseFatBinary_versions bytes major minor patch (w2 ▸ p1) (w2 ▸ p2)
  have hro := parseFatBinary_versions bytes (-1) 0 0 p1 p2
  exact ⟨w1, w2, hv, by rw [hv, hro, w2]⟩

/-- C19, witness: the scenario container patched with 2.0.0 reports current version
`0x00010203`, the value before the patch, and makes the walk of the read-only run. -/
theorem patch_keeps_walk_witness :
    WellFormed scenarioFile ∧
    (parseFatBinary scenarioFile 2 0 0).visits = (parseFatBinary scenarioFile (-1) 0 0).visits ∧
    versionLines (parseFatBinary scenarioFile 2 0 0).out =
      [.versions (some 2) (some 0x00010203) (some 0x00010000)] ∧
    le32 (field (parseFatBinary scenarioFile 2 0 0).file.bytes (76 + 16)) = 0x00020000 :=
  ⟨by decide, (patch_keeps_walk scenarioFile 2 0 0 (by decide)).2.1,
    (patch_keeps_walk scenarioFile 2 0 0 (by decide)).2.2.1.trans (by decide), by decide⟩

/-- C16, witness: the slice of the scenario container has a 64-bit header at 28 and its
first command is read at 60; the first slice of the two-slice container has a 32-bit header
at 48 and its first command is read at 76. -/
theorem header_width_witness :
    (archBody 2 0 0 (descriptorAt scenarioFile 0) 1 ⟨scenarioFile, 28, false⟩).visits.map
      (fun v => v.base) = [28 + 32, 76, 100] ∧
    (∀ v, (archBody 2 0 0 (descriptorAt badSecondSliceFile 0) 1
        ⟨badSecondSliceFile, 48, false⟩).visits.head? = some v → v.base = 48 + 28) :=
  ⟨by decide, fun v hv =>
    ((header_width 2 0 0 (descriptorAt badSecondSliceFile 0) 1 ⟨badSecondSliceFile, 48, false⟩
      rfl (by decide) (Or.inl (by decide))).2.2.2 v hv).1 (by decide)⟩

/-- C18, witness: 65535.255.255 packs to `0xFFFFFFFF` and unpacks to its parts. -/
theorem packVersion_decodes_witness :
    packVersion 65535 255 255 = 0xFFFFFFFF ∧
    ((packVersion 65535 255 255 >>> 16 : Nat) : Int) = 65535 ∧
    (((packVersion 65535 255 255 >>> 8) % 256 : Nat) : Int) = 255 ∧
    ((packVersion 65535 255 255 % 256 : Nat) : Int) = 255 :=
  ⟨by decide,
    (packVersion_decodes 65535 255 255 (by decide) (by decide) (by decide) (by decide)
      (by decide) (by decide)).1,
    (packVersion_decodes 65535 255 255 (by decide) (by decide) (by decide) (by decide)
      (by decide) (by decide)).2.1,
    (packVersion_decodes 65535 255 255 (by decide) (by decide) (by decide) (by decide)
      (by decide) (by decide)).2.2.1⟩

/-- C14, witness: a patch run keeps the length of the container that ends inside its
`LC_ID_DYLIB` command (nothing is written), and of the container cut right after the
`LC_ID_DYLIB` command of its first slice (patched in place, then the run fails on the
second image header). -/
theorem never_resized_witness :
    (parseFatBinary truncatedIdFile 2 0 0).file.bytes = truncatedIdFile ∧
    (parseFatBinary (badSecondSliceFile.take 100) 2 0 0).file.bytes.length = 100 ∧
    (parseFatBinary (badSecondSliceFile.take 100) 2 0 0).out.getLast? =
      some .machHeaderReadFailed ∧
    field (parseFatBinary (badSecondSliceFile.take 100) 2 0 0).file.bytes 92 = [0, 0, 2, 0] :=
  ⟨by decide, (never_resized (badSecondSliceFile.take 100) 2 0 0).1.trans (by decide),
    by decide, by decide⟩

end DylibVersionPatcher
